import Mathlib

/-!
# CBC3 (tripled cipher block chaining), package `cbc3`

A shallow embedding of `cbc3.go` and a verification of its specification.

Modelling conventions.

* A Go `byte` is a `BitVec 8`; `^` on bytes is `^^^`.
* The caller's address space is a function from addresses to bytes (`Mem`).  A
  caller-supplied `[]byte` is a `Slice`: the address of its first byte and its
  length, so that two slices may alias exactly as in Go.  The capacity is not
  recorded: every re-slicing in `CryptBlocks` stays within the length of the
  slice it starts from (see `Slice.take`, `Slice.drop`).
* The buffers `iv` and `tmp` of a `cbc` value are allocated by `newCBC3` and never
  handed out, so no caller slice can alias them: they are plain byte lists, and
  the sub-slices `iv0`, `iv1`, `iv2` are index ranges of `iv` (`view`, `viewCopy`).
* `cipher.Block` is an interface implemented outside the package: a `Block` is a
  block size and two functions on blocks.
* Go `int` is 64 bits wide (`wrapInt`); `make` fails on a negative length and on
  a length above the allocator's limit (`maxAlloc`).
* A `panic` ends the call; `Outcome` records the state at that moment, so that
  what was written before a panic stays visible.
-/

namespace cbc3

/-! ## Bytes, memory and slices -/

/-- A Go `byte`. -/
abbrev Byte := BitVec 8

/-- The caller's memory: one byte at every address. -/
abbrev Mem := Nat → Byte

/-- A caller-supplied `[]byte`: address of the first element and length. -/
structure Slice where
  ptr : Nat
  len : Nat
deriving DecidableEq

/-- Reslicing `s[:n]`.  Go allows `n` up to the capacity of `s`; in `CryptBlocks`
`n` never exceeds `len(s)`. -/
def Slice.take (s : Slice) (n : Nat) : Slice := ⟨s.ptr, n⟩

/-- Reslicing `s[n:]`.  Go panics when `n > len(s)`; in `CryptBlocks` the source
is a positive multiple of `n` bytes long and the destination is at least as long,
so `n ≤ len(s)` at every use. -/
def Slice.drop (s : Slice) (n : Nat) : Slice := ⟨s.ptr + n, s.len - n⟩

/-- Assignment to one byte of memory. -/
def Mem.set (m : Mem) (a : Nat) (v : Byte) : Mem := fun b => if b = a then v else m b

/-- The `n` bytes of memory starting at address `p`. -/
def Mem.load (m : Mem) (p n : Nat) : List Byte := (List.range n).map fun i => m (p + i)

/-- Memory after the bytes `l` were written from address `p` on. -/
def Mem.store (m : Mem) (p : Nat) (l : List Byte) : Mem :=
  fun a => if p ≤ a ∧ a < p + l.length then l.getD (a - p) 0 else m a

/-- The contents of a slice. -/
def Slice.bytes (s : Slice) (m : Mem) : List Byte := m.load s.ptr s.len

/-- Go's built-in `copy(dst, src)` on a private buffer: the first
`min(len(dst), len(src))` bytes of `dst` are replaced by those of `src`. -/
def goCopy (dst src : List Byte) : List Byte := src.take dst.length ++ dst.drop src.length

/-- The sub-slice `buf[lo:hi]` of a private buffer. -/
def view (buf : List Byte) (lo hi : Nat) : List Byte := (buf.take hi).drop lo

/-- The buffer `buf` after `copy(buf[lo:hi], data)`. -/
def viewCopy (buf : List Byte) (lo hi : Nat) (data : List Byte) : List Byte :=
  buf.take lo ++ goCopy (view buf lo hi) data ++ buf.drop hi

/-! ## Machine integers and allocation -/

/-- Wrap-around of a 64-bit signed `int`. -/
def wrapInt (z : Int) : Int := (z + 2 ^ 63) % 2 ^ 64 - 2 ^ 63

/-- Largest allocation the Go runtime accepts on a 64-bit platform. -/
def maxAlloc : Nat := 2 ^ 48

/-- The built-in `make([]byte, n)`: a zeroed buffer, or a run-time panic when the
length is out of range. -/
def make (n : Int) : Except String (List Byte) :=
  if n < 0 ∨ (maxAlloc : Int) < n then .error "runtime error: makeslice: len out of range"
  else .ok (List.replicate n.toNat 0)

/-! ## The block cipher interface -/

/-- An implementation of `cipher.Block`: `BlockSize()` is a Go `int`; `Encrypt` and
`Decrypt` map the first block of their source to a block. -/
structure Block where
  BlockSize : Int
  Encrypt : List Byte → List Byte
  Decrypt : List Byte → List Byte
  Encrypt_length : ∀ blk : List Byte, blk.length = BlockSize.toNat →
    (Encrypt blk).length = BlockSize.toNat
  Decrypt_length : ∀ blk : List Byte, blk.length = BlockSize.toNat →
    (Decrypt blk).length = BlockSize.toNat

/-- The call `b.Encrypt(dst, src)`: the first block of `src` is read and its
encryption written to the first block of `dst`. -/
def Block.EncryptAt (b : Block) (m : Mem) (dst src : Slice) : Mem :=
  m.store dst.ptr (b.Encrypt (m.load src.ptr b.BlockSize.toNat))

/-- The call `b.Decrypt(dst, src)`. -/
def Block.DecryptAt (b : Block) (m : Mem) (dst src : Slice) : Mem :=
  m.store dst.ptr (b.Decrypt (m.load src.ptr b.BlockSize.toNat))

/-! ## `cbc3.go` -/

/-- The struct `cbc`.  `blockSize` is a natural number: `newCBC3` returns only
after `make([]byte, b1.BlockSize())` succeeded, so the stored `int` is not
negative. -/
structure cbc where
  b1 : Block
  b2 : Block
  b3 : Block
  blockSize : Nat
  iv : List Byte
  tmp : List Byte

/-- How a call ended. -/
inductive Status where
  | returned
  | panicked (msg : String)
  | outOfFuel
deriving DecidableEq

/-- The state when a call of a method of the mode ended. -/
structure Outcome where
  status : Status
  x : cbc
  mem : Mem

/-- Function `dup`. -/
def dup (p : List Byte) : Except String (List Byte) :=
  match make p.length with
  | .error e => .error e
  | .ok q => .ok (goCopy q p)

/-- Function `newCBC3`. -/
def newCBC3 (b1 b2 b3 : Block) (iv : List Byte) : Except String cbc :=
  match dup iv with
  | .error e => .error e
  | .ok iv' =>
    match make b1.BlockSize with
    | .error e => .error e
    | .ok tmp =>
      .ok { b1 := b1, b2 := b2, b3 := b3, blockSize := b1.BlockSize.toNat, iv := iv', tmp := tmp }

/-- The type `cbc3Encrypter`. -/
abbrev cbc3Encrypter := cbc

/-- The type `cbc3Decrypter`. -/
abbrev cbc3Decrypter := cbc

/-- Function `NewEncrypter`. -/
def NewEncrypter (b1 b2 b3 : Block) (iv : List Byte) : Except String cbc3Encrypter :=
  let bs := b1.BlockSize
  if bs ≠ b2.BlockSize ∨ bs ≠ b3.BlockSize then
    .error "cbc3.NewEncrypter: BlockSize must be equal for all three block ciphers"
  else if (iv.length : Int) ≠ wrapInt (3 * bs) then
    .error "cbc3.NewEncrypter: IV length must equal three times the cipher block size"
  else newCBC3 b1 b2 b3 iv

/-- Function `NewDecrypter`. -/
def NewDecrypter (b1 b2 b3 : Block) (iv : List Byte) : Except String cbc3Decrypter :=
  let bs := b1.BlockSize
  if bs ≠ b2.BlockSize ∨ bs ≠ b3.BlockSize then
    .error "cbc3.NewDecrypter: BlockSize must be equal for all three block ciphers"
  else if (iv.length : Int) ≠ wrapInt (3 * bs) then
    .error "cbc3.NewDecrypter: IV length must equal three times the cipher block size"
  else newCBC3 b1 b2 b3 iv

/-- Method `BlockSize` of the encrypter. -/
def cbc3Encrypter.BlockSize (x : cbc3Encrypter) : Int := x.blockSize

/-- Method `BlockSize` of the decrypter. -/
def cbc3Decrypter.BlockSize (x : cbc3Decrypter) : Int := x.blockSize

/-- Function `anyOverlap`, on the address ranges of the two slices. -/
def anyOverlap (x y : Slice) : Bool :=
  decide (x.len > 0) && decide (y.len > 0) &&
    decide (x.ptr ≤ y.ptr + (y.len - 1)) &&
    decide (y.ptr ≤ x.ptr + (x.len - 1))

/-- Function `inexactOverlap`. -/
def inexactOverlap (x y : Slice) : Bool :=
  if x.len = 0 ∨ y.len = 0 ∨ x.ptr = y.ptr then false
  else anyOverlap x y

/-- The loop of `xorBytes`: `k` iterations are left and the index is `i`. -/
def xorBytesLoop (dst a : Slice) (b : List Byte) : Nat → Nat → Mem → Mem
  | 0, _, m => m
  | k + 1, i, m =>
    xorBytesLoop dst a b k (i + 1) (m.set (dst.ptr + i) (m (a.ptr + i) ^^^ b.getD i 0))

/-- Function `xorBytes`, with `dst` and `a` in the caller's memory and `b` a private
buffer.  Returns the memory and the count `n`. -/
def xorBytes (m : Mem) (dst a : Slice) (b : List Byte) : Mem × Nat :=
  let n := if b.length < a.len then b.length else a.len
  (xorBytesLoop dst a b n 0 m, n)

/-- The body of the loop of `cbc3Encrypter.CryptBlocks`: one block. -/
def cbc3Encrypter.cryptBlock (x : cbc3Encrypter) (m : Mem) (dst src : Slice) : cbc × Mem :=
  let bs := x.blockSize
  let d := dst.take bs
  let m := (xorBytes m d (src.take bs) (view x.iv 0 bs)).1
  let m := x.b1.EncryptAt m d d
  let iv := viewCopy x.iv 0 bs (d.bytes m)
  let m := x.b2.DecryptAt m d d
  let m := (xorBytes m d d (view iv bs (2 * bs))).1
  let iv := viewCopy iv bs (2 * bs) (view iv 0 bs)
  let m := (xorBytes m d d (view iv (2 * bs) iv.length)).1
  let m := x.b3.EncryptAt m d d
  let iv := viewCopy iv (2 * bs) iv.length (d.bytes m)
  ({ x with iv := iv }, m)

/-- The loop `for len(src) > 0` of `cbc3Encrypter.CryptBlocks`. -/
def cbc3Encrypter.loop : Nat → cbc3Encrypter → Mem → Slice → Slice → Outcome
  | 0, x, m, _, src => ⟨if src.len > 0 then .outOfFuel else .returned, x, m⟩
  | fuel + 1, x, m, dst, src =>
    if src.len > 0 then
      let r := cbc3Encrypter.cryptBlock x m dst src
      cbc3Encrypter.loop fuel r.1 r.2 (dst.drop x.blockSize) (src.drop x.blockSize)
    else ⟨.returned, x, m⟩

/-- Method `CryptBlocks` of the encrypter.  The loop is given `len(src)` units of
fuel, one for every byte of the source. -/
def cbc3Encrypter.CryptBlocks (x : cbc3Encrypter) (m : Mem) (dst src : Slice) : Outcome :=
  if x.blockSize = 0 then ⟨.panicked "runtime error: integer divide by zero", x, m⟩
  else if src.len % x.blockSize ≠ 0 then ⟨.panicked "crypto/cipher: input not full blocks", x, m⟩
  else if dst.len < src.len then ⟨.panicked "crypto/cipher: output smaller than input", x, m⟩
  else if inexactOverlap (dst.take src.len) src then
    ⟨.panicked "crypto/cipher: invalid buffer overlap", x, m⟩
  else if x.iv.length < 2 * x.blockSize then
    ⟨.panicked "runtime error: slice bounds out of range", x, m⟩
  else cbc3Encrypter.loop src.len x m dst src

/-- Method `SetIV` of the encrypter. -/
def cbc3Encrypter.SetIV (x : cbc3Encrypter) (m : Mem) (iv : List Byte) : Outcome :=
  if iv.length ≠ x.iv.length then ⟨.panicked "cipher: incorrect length IV", x, m⟩
  else ⟨.returned, { x with iv := goCopy x.iv iv }, m⟩

/-- The body of the loop of `cbc3Decrypter.CryptBlocks`: one block. -/
def cbc3Decrypter.cryptBlock (x : cbc3Decrypter) (m : Mem) (dst src : Slice) : cbc × Mem :=
  let bs := x.blockSize
  let d := dst.take bs
  let tmp := goCopy x.tmp ((src.take bs).bytes m)
  let m := x.b3.DecryptAt m d (src.take bs)
  let m := (xorBytes m d d (view x.iv (2 * bs) x.iv.length)).1
  let iv := viewCopy x.iv (2 * bs) x.iv.length tmp
  let m := (xorBytes m d d (view iv bs (2 * bs))).1
  let m := x.b2.EncryptAt m d d
  let iv := viewCopy iv bs (2 * bs) (d.bytes m)
  let m := x.b1.DecryptAt m d d
  let m := (xorBytes m d d (view iv 0 bs)).1
  let iv := viewCopy iv 0 bs (view iv bs (2 * bs))
  ({ x with iv := iv, tmp := tmp }, m)

/-- The loop `for len(src) > 0` of `cbc3Decrypter.CryptBlocks`. -/
def cbc3Decrypter.loop : Nat → cbc3Decrypter → Mem → Slice → Slice → Outcome
  | 0, x, m, _, src => ⟨if src.len > 0 then .outOfFuel else .returned, x, m⟩
  | fuel + 1, x, m, dst, src =>
    if src.len > 0 then
      let r := cbc3Decrypter.cryptBlock x m dst src
      cbc3Decrypter.loop fuel r.1 r.2 (dst.drop x.blockSize) (src.drop x.blockSize)
    else ⟨.returned, x, m⟩

/-- Method `CryptBlocks` of the decrypter.  The loop is given `len(src)` units of
fuel, one for every byte of the source. -/
def cbc3Decrypter.CryptBlocks (x : cbc3Decrypter) (m : Mem) (dst src : Slice) : Outcome :=
  if x.blockSize = 0 then ⟨.panicked "runtime error: integer divide by zero", x, m⟩
  else if src.len % x.blockSize ≠ 0 then ⟨.panicked "crypto/cipher: input not full blocks", x, m⟩
  else if dst.len < src.len then ⟨.panicked "crypto/cipher: output smaller than input", x, m⟩
  else if inexactOverlap (dst.take src.len) src then
    ⟨.panicked "crypto/cipher: invalid buffer overlap", x, m⟩
  else if src.len = 0 then ⟨.returned, x, m⟩
  else if x.iv.length < 2 * x.blockSize then
    ⟨.panicked "runtime error: slice bounds out of range", x, m⟩
  else cbc3Decrypter.loop src.len x m dst src

/-- Method `SetIV` of the decrypter. -/
def cbc3Decrypter.SetIV (x : cbc3Decrypter) (m : Mem) (iv : List Byte) : Outcome :=
  if iv.length ≠ x.iv.length then ⟨.panicked "cipher: incorrect length IV", x, m⟩
  else ⟨.returned, { x with iv := goCopy x.iv iv }, m⟩

/-! ## Block-level description of the chaining

The functions below say, on byte lists, what one iteration and what a whole run of
the two loops compute.  They are related to the code on memory by
`encrypter_cryptBlock_eq`, `decrypter_cryptBlock_eq`, `encrypter_CryptBlocks_eq`
and `decrypter_CryptBlocks_eq`. -/

/-- Byte-wise exclusive or of two blocks (`xorBytes` on values). -/
def xorBlock (a b : List Byte) : List Byte := List.zipWith (· ^^^ ·) a b

/-- The invariant of a mode value.  `NewEncrypter` and `NewDecrypter` establish it
and every method keeps it: the registers are three blocks long, the scratch buffer
one block, and the three ciphers have the block size of the mode. -/
structure cbc.WF (x : cbc) : Prop where
  iv_length : x.iv.length = 3 * x.blockSize
  tmp_length : x.tmp.length = x.blockSize
  size1 : x.b1.BlockSize = x.blockSize
  size2 : x.b2.BlockSize = x.blockSize
  size3 : x.b3.BlockSize = x.blockSize

/-- Two modes that chain alike: the same ciphers, block size and registers.  The
scratch buffers may differ. -/
structure cbc.Agree (u v : cbc) : Prop where
  b1 : u.b1 = v.b1
  b2 : u.b2 = v.b2
  b3 : u.b3 = v.b3
  blockSize : u.blockSize = v.blockSize
  iv : u.iv = v.iv

/-- One iteration of the encrypting loop on the block `p`: the block written and
the registers afterwards. -/
def encryptBlock (x : cbc) (p : List Byte) : List Byte × List Byte :=
  let bs := x.blockSize
  let c1 := x.b1.Encrypt (xorBlock p (view x.iv 0 bs))
  let c2 := xorBlock (x.b2.Decrypt c1) (view x.iv bs (2 * bs))
  let out := x.b3.Encrypt (xorBlock c2 (view x.iv (2 * bs) x.iv.length))
  (out, c1 ++ c1 ++ out)

/-- One iteration of the decrypting loop on the block `c`: the block written and
the registers afterwards. -/
def decryptBlock (x : cbc) (c : List Byte) : List Byte × List Byte :=
  let bs := x.blockSize
  let d2 := xorBlock (x.b3.Decrypt c) (view x.iv (2 * bs) x.iv.length)
  let c1 := x.b2.Encrypt (xorBlock d2 (view x.iv bs (2 * bs)))
  let out := xorBlock (x.b1.Decrypt c1) (view x.iv 0 bs)
  (out, c1 ++ c1 ++ c)

/-- The encrypting loop on `n` blocks of `data`: the bytes written and the mode
afterwards. -/
def encryptBlocks : Nat → cbc → List Byte → List Byte × cbc
  | 0, x, _ => ([], x)
  | n + 1, x, data =>
    let r := encryptBlock x (data.take x.blockSize)
    let rest := encryptBlocks n { x with iv := r.2 } (data.drop x.blockSize)
    (r.1 ++ rest.1, rest.2)

/-- The decrypting loop on `n` blocks of `data`: the bytes written and the mode
afterwards. -/
def decryptBlocks : Nat → cbc → List Byte → List Byte × cbc
  | 0, x, _ => ([], x)
  | n + 1, x, data =>
    let r := decryptBlock x (data.take x.blockSize)
    let rest := decryptBlocks n { x with iv := r.2, tmp := data.take x.blockSize }
      (data.drop x.blockSize)
    (r.1 ++ rest.1, rest.2)

/-- A cipher whose `Encrypt` and `Decrypt` are mutually inverse on blocks. -/
def Block.Inverse (b : Block) : Prop :=
  ∀ blk : List Byte, blk.length = b.BlockSize.toNat →
    b.Decrypt (b.Encrypt blk) = blk ∧ b.Encrypt (b.Decrypt blk) = blk

/-- What a caller can see of a finished call: how it ended, the memory and the
registers. -/
def Outcome.seen (r : Outcome) : Status × Mem × List Byte := (r.status, r.mem, r.x.iv)

/-- Successive calls of `CryptBlocks` on one encrypter.  Every call comes with the
memory at that moment and its two slices, and starts from the mode the call before
it left. -/
def cbc3Encrypter.calls : cbc3Encrypter → List (Mem × Slice × Slice) → List Outcome
  | _, [] => []
  | x, c :: rest =>
    let r := cbc3Encrypter.CryptBlocks x c.1 c.2.1 c.2.2
    r :: cbc3Encrypter.calls r.x rest

/-- Successive calls of `CryptBlocks` on one decrypter. -/
def cbc3Decrypter.calls : cbc3Decrypter → List (Mem × Slice × Slice) → List Outcome
  | _, [] => []
  | x, c :: rest =>
    let r := cbc3Decrypter.CryptBlocks x c.1 c.2.1 c.2.2
    r :: cbc3Decrypter.calls r.x rest

/-- Block number `k` (from 0) of a buffer of `bs`-byte blocks. -/
def blockAt (bs k : Nat) (l : List Byte) : List Byte := (l.drop (k * bs)).take bs

/-! ## Ordinary CBC, as the specification describes it

One pass over a whole buffer of `n` blocks of `bs` bytes with a single feedback
register: each block is combined by exclusive or with the previous ciphertext
block, the first one with the initialization vector. -/

/-- CBC encryption of `n` blocks: `c_i = E(p_i XOR c_(i-1))`, with `c_(-1) = iv`. -/
def cbcEncrypt (b : Block) (bs : Nat) : Nat → List Byte → List Byte → List Byte
  | 0, _, _ => []
  | n + 1, iv, data =>
    let c := b.Encrypt (xorBlock (data.take bs) iv)
    c ++ cbcEncrypt b bs n c (data.drop bs)

/-- CBC decryption of `n` blocks: `p_i = D(c_i) XOR c_(i-1)`, with `c_(-1) = iv`. -/
def cbcDecrypt (b : Block) (bs : Nat) : Nat → List Byte → List Byte → List Byte
  | 0, _, _ => []
  | n + 1, iv, data =>
    let c := data.take bs
    xorBlock (b.Decrypt c) iv ++ cbcDecrypt b bs n c (data.drop bs)

/-! ## Sample data

Toy ciphers on two-byte blocks, a mode over three of them and a memory, on which
the theorems below are instantiated. -/

/-- A toy cipher adding the key byte `k` to every byte of the block. -/
def Sample.addKey (k : Byte) (n : Nat) : Block where
  BlockSize := n
  Encrypt := fun blk => blk.map (· + k)
  Decrypt := fun blk => blk.map (· - k)
  Encrypt_length := fun blk h => by rw [List.length_map]; exact h
  Decrypt_length := fun blk h => by rw [List.length_map]; exact h

/-- A toy cipher reversing the block. -/
def Sample.rev (n : Nat) : Block where
  BlockSize := n
  Encrypt := fun blk => blk.reverse
  Decrypt := fun blk => blk.reverse
  Encrypt_length := fun blk h => by rw [List.length_reverse]; exact h
  Decrypt_length := fun blk h => by rw [List.length_reverse]; exact h

/-- A toy cipher on two-byte blocks adding the second byte to the first. -/
def Sample.mix : Block where
  BlockSize := 2
  Encrypt := fun blk =>
    match blk with
    | [a, b] => [a + b, b]
    | other => other
  Decrypt := fun blk =>
    match blk with
    | [a, b] => [a - b, b]
    | other => other
  Encrypt_length := fun blk h => by
    match blk, h with
    | [_, _], _ => rfl
  Decrypt_length := fun blk h => by
    match blk, h with
    | [_, _], _ => rfl

/-- First stage of the sample mode. -/
def Sample.b1 : Block := Sample.addKey 3 2

/-- Second stage of the sample mode. -/
def Sample.b2 : Block := Sample.rev 2

/-- Third stage of the sample mode. -/
def Sample.b3 : Block := Sample.addKey 7 2

/-- A six-byte initialization vector. -/
def Sample.iv : List Byte := [1, 2, 3, 4, 5, 6]

/-- A mode over the three sample ciphers, as the constructors build it. -/
def Sample.mode : cbc :=
  { b1 := Sample.b1, b2 := Sample.b2, b3 := Sample.b3, blockSize := 2,
    iv := Sample.iv, tmp := [0, 0] }

/-- A memory holding the byte `17 * a + 1` at address `a`. -/
def Sample.mem : Mem := fun a => BitVec.ofNat 8 (a * 17 + 1)

/-! ## Memory, buffers and the loop bodies -/

theorem Mem.load_length (m : Mem) (p n : Nat) : (m.load p n).length = n := by
  simp [Mem.load]

theorem Mem.getElem_load (m : Mem) (p n i : Nat) (h : i < (m.load p n).length) :
    (m.load p n)[i] = m (p + i) := by
  simp [Mem.load]

theorem Mem.store_apply_in (m : Mem) (p : Nat) (l : List Byte) (i : Nat) (h : i < l.length) :
    m.store p l (p + i) = l[i] := by
  simp [Mem.store, h, List.getD_eq_getElem]

theorem Mem.store_apply_out (m : Mem) (p : Nat) (l : List Byte) (a : Nat)
    (h : a < p ∨ p + l.length ≤ a) : m.store p l a = m a := by
  unfold Mem.store
  rw [if_neg]
  omega

theorem Mem.load_store_same (m : Mem) (p : Nat) (l : List Byte) :
    (m.store p l).load p l.length = l := by
  apply List.ext_getElem
  · simp [Mem.load_length]
  · intro i h1 h2
    rw [Mem.getElem_load, Mem.store_apply_in]

theorem Mem.load_store_disjoint (m : Mem) (p q n : Nat) (l : List Byte)
    (h : q + n ≤ p ∨ p + l.length ≤ q) : (m.store p l).load q n = m.load q n := by
  apply List.ext_getElem
  · simp [Mem.load_length]
  · intro i h1 h2
    rw [Mem.load_length] at h1
    rw [Mem.getElem_load, Mem.getElem_load, Mem.store_apply_out]
    omega

theorem Mem.store_store_same (m : Mem) (p : Nat) (l1 l2 : List Byte)
    (h : l1.length ≤ l2.length) : (m.store p l1).store p l2 = m.store p l2 := by
  funext a
  unfold Mem.store
  by_cases h2 : p ≤ a ∧ a < p + List.length l2
  · simp [h2]
  · rw [if_neg h2, if_neg h2, if_neg]
    omega

theorem Mem.store_append (m : Mem) (p : Nat) (l1 l2 : List Byte) :
    (m.store p l1).store (p + l1.length) l2 = m.store p (l1 ++ l2) := by
  funext a
  unfold Mem.store
  by_cases h1 : a < p
  · rw [if_neg (by omega), if_neg (by omega), if_neg (by omega)]
  · by_cases h2 : a < p + l1.length
    · rw [if_neg (by omega), if_pos (by omega), if_pos (by simp; omega)]
      rw [List.getD_eq_getElem _ _ (by omega), List.getD_eq_getElem _ _ (by simp; omega)]
      rw [List.getElem_append_left]
    · by_cases h3 : a < p + l1.length + l2.length
      · rw [if_pos (by omega), if_pos (by simp; omega)]
        rw [List.getD_eq_getElem _ _ (by omega), List.getD_eq_getElem _ _ (by simp; omega)]
        rw [List.getElem_append_right (by omega)]
        congr 1
        omega
      · rw [if_neg (by omega), if_neg (by omega), if_neg (by simp; omega)]

theorem Mem.load_add (m : Mem) (p a b : Nat) :
    m.load p (a + b) = m.load p a ++ m.load (p + a) b := by
  apply List.ext_getElem
  · simp [Mem.load_length]
  · intro i h1 h2
    rw [Mem.getElem_load]
    by_cases h : i < a
    · rw [List.getElem_append_left (by simpa [Mem.load_length] using h), Mem.getElem_load]
    · rw [List.getElem_append_right (by simp [Mem.load_length]; omega), Mem.getElem_load]
      simp only [Mem.load_length]
      congr 1
      omega

theorem Mem.store_nil (m : Mem) (p : Nat) : m.store p [] = m := by
  funext a
  simp [Mem.store]

theorem xorBlock_length (a b : List Byte) : (xorBlock a b).length = min a.length b.length := by
  simp [xorBlock]

theorem xorBytesLoop_apply (dst a : Slice) (b : List Byte) (k : Nat) :
    ∀ (i : Nat) (m : Mem),
      (dst.ptr = a.ptr ∨ dst.ptr + (i + k) ≤ a.ptr ∨ a.ptr + (i + k) ≤ dst.ptr) →
      ∀ A : Nat, xorBytesLoop dst a b k i m A =
        if dst.ptr + i ≤ A ∧ A < dst.ptr + i + k
        then m (a.ptr + (A - dst.ptr)) ^^^ b.getD (A - dst.ptr) 0 else m A := by
  induction k with
  | zero =>
    intro i m _ A
    rw [xorBytesLoop, if_neg (by omega)]
  | succ k ih =>
    intro i m hz A
    rw [xorBytesLoop, ih (i + 1) _ (by omega) A]
    by_cases h1 : dst.ptr + (i + 1) ≤ A ∧ A < dst.ptr + (i + 1) + k
    · rw [if_pos h1, if_pos (by omega)]
      congr 1
      unfold Mem.set
      rw [if_neg (by omega)]
    · rw [if_neg h1]
      by_cases h2 : A = dst.ptr + i
      · subst h2
        rw [if_pos (by omega)]
        simp [Mem.set]
      · rw [if_neg (by omega)]
        simp [Mem.set, h2]

/-- `xorBytes` writes the exclusive or of `a` and `b` to `dst`, provided `dst` and `a`
are the same slice or do not overlap. -/
theorem xorBytes_fst (m : Mem) (dst a : Slice) (b : List Byte)
    (hz : dst.ptr = a.ptr ∨ dst.ptr + a.len ≤ a.ptr ∨ a.ptr + a.len ≤ dst.ptr) :
    (xorBytes m dst a b).1 = m.store dst.ptr (xorBlock (a.bytes m) b) := by
  funext A
  unfold xorBytes
  simp only
  rw [xorBytesLoop_apply dst a b _ 0 m (by split <;> omega) A]
  unfold Mem.store
  have hlen : (xorBlock (a.bytes m) b).length = if b.length < a.len then b.length else a.len := by
    rw [xorBlock_length, Slice.bytes, Mem.load_length]
    split <;> omega
  rw [hlen]
  by_cases h : dst.ptr ≤ A ∧ A < dst.ptr + (if b.length < a.len then b.length else a.len)
  · rw [if_pos (by omega), if_pos h]
    have h1 : A - dst.ptr < (xorBlock (a.bytes m) b).length := by omega
    have h2 : A - dst.ptr < b.length := by split at h <;> omega
    have h3 : A - dst.ptr < a.len := by split at h <;> omega
    rw [List.getD_eq_getElem _ _ h1, List.getD_eq_getElem _ _ h2]
    simp [xorBlock, Slice.bytes, Mem.getElem_load]
  · rw [if_neg (by omega), if_neg h]

theorem goCopy_eq (dst src : List Byte) (h : dst.length = src.length) : goCopy dst src = src := by
  unfold goCopy
  rw [h, List.take_length, ← h, List.drop_length, List.append_nil]

theorem view_seg0 (a b c : List Byte) (n : Nat) (ha : a.length = n) :
    view (a ++ b ++ c) 0 n = a := by
  unfold view
  rw [List.drop_zero, List.append_assoc, List.take_left' ha]

theorem view_seg1 (a b c : List Byte) (n : Nat) (ha : a.length = n) (hb : b.length = n) :
    view (a ++ b ++ c) n (2 * n) = b := by
  unfold view
  rw [List.take_left' (by rw [List.length_append]; omega), List.drop_left' ha]

theorem view_seg2 (a b c : List Byte) (n : Nat) (ha : a.length = n) (hb : b.length = n) :
    view (a ++ b ++ c) (2 * n) (a ++ b ++ c).length = c := by
  unfold view
  rw [List.take_length, List.drop_left' (by rw [List.length_append]; omega)]

theorem viewCopy_seg0 (a b c d : List Byte) (n : Nat) (ha : a.length = n) (hd : d.length = n) :
    viewCopy (a ++ b ++ c) 0 n d = d ++ b ++ c := by
  unfold viewCopy
  rw [view_seg0 a b c n ha, goCopy_eq _ _ (by omega), List.take_zero, List.nil_append,
    List.append_assoc a, List.drop_left' ha, List.append_assoc]

theorem viewCopy_seg1 (a b c d : List Byte) (n : Nat) (ha : a.length = n) (hb : b.length = n)
    (hd : d.length = n) :
    viewCopy (a ++ b ++ c) n (2 * n) d = a ++ d ++ c := by
  unfold viewCopy
  rw [view_seg1 a b c n ha hb, goCopy_eq _ _ (by omega),
    List.drop_left' (by rw [List.length_append]; omega), List.append_assoc a b,
    List.take_left' ha]

theorem viewCopy_seg2 (a b c d : List Byte) (n : Nat) (ha : a.length = n) (hb : b.length = n)
    (hc : c.length = n) (hd : d.length = n) :
    viewCopy (a ++ b ++ c) (2 * n) (a ++ b ++ c).length d = a ++ b ++ d := by
  unfold viewCopy
  rw [view_seg2 a b c n ha hb, goCopy_eq _ _ (by omega), List.drop_length, List.append_nil,
    List.take_left' (by rw [List.length_append]; omega)]

theorem split_three (l : List Byte) (n : Nat) (h : l.length = 3 * n) :
    l = view l 0 n ++ view l n (2 * n) ++ view l (2 * n) l.length ∧
      (view l 0 n).length = n ∧ (view l n (2 * n)).length = n ∧
      (view l (2 * n) l.length).length = n := by
  refine ⟨?_, ?_, ?_, ?_⟩
  · simp only [view, List.drop_zero, List.take_length]
    conv_lhs => rw [← List.take_append_drop (2 * n) l]
    congr 1
    conv_lhs => rw [← List.take_append_drop n (List.take (2 * n) l)]
    congr 1
    rw [List.take_take]
    congr 1
    omega
  · simp [view]; omega
  · simp [view]; omega
  · simp [view]; omega

theorem xorBytes_inplace (m : Mem) (p n : Nat) (l b : List Byte) (hl : l.length = n)
    (hb : b.length = n) :
    (xorBytes (m.store p l) ⟨p, n⟩ ⟨p, n⟩ b).1 = m.store p (xorBlock l b) := by
  rw [xorBytes_fst _ _ _ _ (Or.inl rfl)]
  have : Slice.bytes ⟨p, n⟩ (m.store p l) = l := by
    unfold Slice.bytes
    simp only
    rw [← hl, Mem.load_store_same]
  rw [this, Mem.store_store_same]
  rw [xorBlock_length]
  omega

theorem Block.EncryptAt_inplace (B : Block) (m : Mem) (p n : Nat) (l : List Byte)
    (hl : l.length = n) (hB : B.BlockSize = n) :
    B.EncryptAt (m.store p l) ⟨p, n⟩ ⟨p, n⟩ = m.store p (B.Encrypt l) := by
  unfold Block.EncryptAt
  simp only [hB, Int.toNat_ofNat]
  rw [← hl, Mem.load_store_same, Mem.store_store_same]
  rw [B.Encrypt_length l (by rw [hB]; simp [hl]), hB]
  simp [hl]

theorem Block.DecryptAt_inplace (B : Block) (m : Mem) (p n : Nat) (l : List Byte)
    (hl : l.length = n) (hB : B.BlockSize = n) :
    B.DecryptAt (m.store p l) ⟨p, n⟩ ⟨p, n⟩ = m.store p (B.Decrypt l) := by
  unfold Block.DecryptAt
  simp only [hB, Int.toNat_ofNat]
  rw [← hl, Mem.load_store_same, Mem.store_store_same]
  rw [B.Decrypt_length l (by rw [hB]; simp [hl]), hB]
  simp [hl]

theorem Block.Encrypt_len (B : Block) (n : Nat) (l : List Byte)
    (hl : l.length = n) (hB : B.BlockSize = n) : (B.Encrypt l).length = n := by
  rw [B.Encrypt_length l (by rw [hB]; simp [hl]), hB]
  simp

theorem Block.Decrypt_len (B : Block) (n : Nat) (l : List Byte)
    (hl : l.length = n) (hB : B.BlockSize = n) : (B.Decrypt l).length = n := by
  rw [B.Decrypt_length l (by rw [hB]; simp [hl]), hB]
  simp

theorem xorBlock_len (a b : List Byte) (n : Nat) (ha : a.length = n) (hb : b.length = n) :
    (xorBlock a b).length = n := by
  rw [xorBlock_length]; omega

theorem Slice.bytes_store (m : Mem) (p n : Nat) (l : List Byte) (hl : l.length = n) :
    Slice.bytes ⟨p, n⟩ (m.store p l) = l := by
  unfold Slice.bytes
  simp only
  rw [← hl, Mem.load_store_same]

/-- One iteration of the encrypting loop, on memory, is `encryptBlock` on the bytes of
the source block, provided the two blocks are identical or disjoint. -/
theorem encrypter_cryptBlock_eq (x : cbc) (hx : x.WF) (m : Mem) (dst src : Slice)
    (hz : dst.ptr = src.ptr ∨ dst.ptr + x.blockSize ≤ src.ptr ∨ src.ptr + x.blockSize ≤ dst.ptr) :
    cbc3Encrypter.cryptBlock x m dst src =
      ({ x with iv := (encryptBlock x (m.load src.ptr x.blockSize)).2 },
        m.store dst.ptr (encryptBlock x (m.load src.ptr x.blockSize)).1) := by
  obtain ⟨b1, b2, b3, n, iv, tmp⟩ := x
  obtain ⟨hiv, -, h1, h2, h3⟩ := hx
  simp only at hiv h1 h2 h3 hz
  obtain ⟨hsplit, l0, l1, l2⟩ := split_three iv n hiv
  unfold cbc3Encrypter.cryptBlock encryptBlock
  simp only [Slice.take]
  generalize view iv 0 n = r0 at *
  generalize view iv n (2 * n) = r1 at *
  generalize view iv (2 * n) iv.length = r2 at *
  generalize hp : m.load src.ptr n = p
  have lp : p.length = n := by rw [← hp, Mem.load_length]
  have hc1 := Block.Encrypt_len b1 n _ (xorBlock_len p r0 n lp l0) h1
  have hd2 := Block.Decrypt_len b2 n _ hc1 h2
  have hx2 := xorBlock_len _ r1 n hd2 l1
  have hx3 := xorBlock_len _ r2 n hx2 l2
  have hout := Block.Encrypt_len b3 n _ hx3 h3
  have e1 : (xorBytes m ⟨dst.ptr, n⟩ ⟨src.ptr, n⟩ r0).1 = m.store dst.ptr (xorBlock p r0) := by
    rw [xorBytes_fst m ⟨dst.ptr, n⟩ ⟨src.ptr, n⟩ r0 hz, Slice.bytes, hp]
  subst hsplit
  rw [e1, Block.EncryptAt_inplace b1 m dst.ptr n _ (xorBlock_len p r0 n lp l0) h1,
    Slice.bytes_store _ _ _ _ hc1, viewCopy_seg0 _ _ _ _ n l0 hc1,
    Block.DecryptAt_inplace b2 m dst.ptr n _ hc1 h2,
    view_seg1 _ _ _ n hc1 l1, xorBytes_inplace _ _ _ _ _ hd2 l1,
    view_seg0 _ _ _ n hc1, viewCopy_seg1 _ _ _ _ n hc1 l1 hc1,
    view_seg2 _ _ _ n hc1 hc1, xorBytes_inplace _ _ _ _ _ hx2 l2,
    Block.EncryptAt_inplace b3 m dst.ptr n _ hx3 h3,
    Slice.bytes_store _ _ _ _ hout, viewCopy_seg2 _ _ _ _ n hc1 hc1 l2 hout]

/-- One iteration of the decrypting loop, on memory, is `decryptBlock` on the bytes of
the source block. -/
theorem decrypter_cryptBlock_eq (x : cbc) (hx : x.WF) (m : Mem) (dst src : Slice) :
    cbc3Decrypter.cryptBlock x m dst src =
      ({ x with iv := (decryptBlock x (m.load src.ptr x.blockSize)).2,
                tmp := m.load src.ptr x.blockSize },
        m.store dst.ptr (decryptBlock x (m.load src.ptr x.blockSize)).1) := by
  obtain ⟨b1, b2, b3, n, iv, tmp⟩ := x
  obtain ⟨hiv, htmp, h1, h2, h3⟩ := hx
  simp only at hiv htmp h1 h2 h3
  obtain ⟨hsplit, l0, l1, l2⟩ := split_three iv n hiv
  unfold cbc3Decrypter.cryptBlock decryptBlock
  simp only [Slice.take]
  generalize view iv 0 n = r0 at *
  generalize view iv n (2 * n) = r1 at *
  generalize view iv (2 * n) iv.length = r2 at *
  have hb : Slice.bytes ⟨src.ptr, n⟩ m = m.load src.ptr n := rfl
  rw [hb]
  generalize hp : m.load src.ptr n = c
  have lc : c.length = n := by rw [← hp, Mem.load_length]
  have hd3 := Block.Decrypt_len b3 n _ lc h3
  have hx2 := xorBlock_len _ r2 n hd3 l2
  have hx1 := xorBlock_len _ r1 n hx2 l1
  have hc1 := Block.Encrypt_len b2 n _ hx1 h2
  have hd1 := Block.Decrypt_len b1 n _ hc1 h1
  have e1 : b3.DecryptAt m ⟨dst.ptr, n⟩ ⟨src.ptr, n⟩ = m.store dst.ptr (b3.Decrypt c) := by
    unfold Block.DecryptAt
    simp only [h3, Int.toNat_ofNat, hp]
  subst hsplit
  rw [e1, goCopy_eq _ _ (by omega), xorBytes_inplace _ _ _ _ _ hd3 l2,
    viewCopy_seg2 _ _ _ _ n l0 l1 l2 lc, view_seg1 _ _ _ n l0 l1,
    xorBytes_inplace _ _ _ _ _ hx2 l1, Block.EncryptAt_inplace b2 m dst.ptr n _ hx1 h2,
    Slice.bytes_store _ _ _ _ hc1, viewCopy_seg1 _ _ _ _ n l0 l1 hc1,
    Block.DecryptAt_inplace b1 m dst.ptr n _ hc1 h1, view_seg0 _ _ _ n l0,
    xorBytes_inplace _ _ _ _ _ hd1 l0, view_seg1 _ _ _ n l0 hc1,
    viewCopy_seg0 _ _ _ _ n l0 hc1]

theorem view_length3 (iv : List Byte) (n : Nat) (h : iv.length = 3 * n) :
    (view iv 0 n).length = n ∧ (view iv n (2 * n)).length = n ∧
      (view iv (2 * n) iv.length).length = n :=
  (split_three iv n h).2

theorem encryptBlock_length (x : cbc) (hx : x.WF) (p : List Byte) (hp : p.length = x.blockSize) :
    (encryptBlock x p).1.length = x.blockSize ∧ (encryptBlock x p).2.length = 3 * x.blockSize := by
  obtain ⟨l0, l1, l2⟩ := view_length3 x.iv x.blockSize hx.iv_length
  unfold encryptBlock
  simp only
  have hc1 := Block.Encrypt_len x.b1 _ _ (xorBlock_len p _ _ hp l0) hx.size1
  have hd2 := Block.Decrypt_len x.b2 _ _ hc1 hx.size2
  have hx2 := xorBlock_len _ _ _ hd2 l1
  have hx3 := xorBlock_len _ _ _ hx2 l2
  have hout := Block.Encrypt_len x.b3 _ _ hx3 hx.size3
  refine ⟨hout, ?_⟩
  rw [List.length_append, List.length_append, hc1, hout]
  omega

theorem decryptBlock_length (x : cbc) (hx : x.WF) (c : List Byte) (hc : c.length = x.blockSize) :
    (decryptBlock x c).1.length = x.blockSize ∧ (decryptBlock x c).2.length = 3 * x.blockSize := by
  obtain ⟨l0, l1, l2⟩ := view_length3 x.iv x.blockSize hx.iv_length
  unfold decryptBlock
  simp only
  have hd3 := Block.Decrypt_len x.b3 _ _ hc hx.size3
  have hx2 := xorBlock_len _ _ _ hd3 l2
  have hx1 := xorBlock_len _ _ _ hx2 l1
  have hc1 := Block.Encrypt_len x.b2 _ _ hx1 hx.size2
  have hd1 := Block.Decrypt_len x.b1 _ _ hc1 hx.size1
  refine ⟨xorBlock_len _ _ _ hd1 l0, ?_⟩
  rw [List.length_append, List.length_append, hc1, hc]
  omega

theorem Mem.load_take (m : Mem) (p a b : Nat) : (m.load p (a + b)).take a = m.load p a := by
  rw [Mem.load_add, List.take_left' (Mem.load_length m p a)]

theorem Mem.load_drop (m : Mem) (p a b : Nat) : (m.load p (a + b)).drop a = m.load (p + a) b := by
  rw [Mem.load_add, List.drop_left' (Mem.load_length m p a)]

/-- The encrypting loop returns with `n` units of fuel on a source of `n` blocks, and
computes `encryptBlocks`. -/
theorem encrypter_loop_eq (n : Nat) :
    ∀ (fuel : Nat) (x : cbc) (m : Mem) (dst src : Slice), x.WF → 0 < x.blockSize →
      src.len = n * x.blockSize → n ≤ fuel →
      (dst.ptr = src.ptr ∨ dst.ptr + src.len ≤ src.ptr ∨ src.ptr + src.len ≤ dst.ptr) →
      cbc3Encrypter.loop fuel x m dst src =
        ⟨.returned, (encryptBlocks n x (src.bytes m)).2,
          m.store dst.ptr (encryptBlocks n x (src.bytes m)).1⟩ := by
  induction n with
  | zero =>
    intro fuel x m dst src _ _ hlen _ _
    have h0 : src.len = 0 := by simpa using hlen
    cases fuel with
    | zero => simp [cbc3Encrypter.loop, h0, encryptBlocks, Mem.store_nil]
    | succ f => simp [cbc3Encrypter.loop, h0, encryptBlocks, Mem.store_nil]
  | succ n ih =>
    intro fuel x m dst src hx hpos hlen hfuel hz
    have hlen2 : src.len = x.blockSize + n * x.blockSize := by rw [hlen, Nat.succ_mul]; omega
    obtain ⟨f, rfl⟩ : ∃ f, fuel = f + 1 := ⟨fuel - 1, by omega⟩
    have hb : src.bytes m = m.load src.ptr (x.blockSize + n * x.blockSize) := by
      rw [Slice.bytes, hlen2]
    have hx2 : cbc.WF { x with iv := (encryptBlock x (m.load src.ptr x.blockSize)).2 } :=
      ⟨(encryptBlock_length x hx _ (Mem.load_length _ _ _)).2, hx.tmp_length, hx.size1,
        hx.size2, hx.size3⟩
    rw [cbc3Encrypter.loop, if_pos (by omega)]
    simp only
    rw [encrypter_cryptBlock_eq x hx m dst src (by omega)]
    simp only
    rw [ih f _ _ _ _ hx2 hpos (by simp [Slice.drop]; omega) (by omega)
      (by simp only [Slice.drop]; omega)]
    have hl : Slice.bytes (src.drop x.blockSize)
        (m.store dst.ptr (encryptBlock x (m.load src.ptr x.blockSize)).1) =
        m.load (src.ptr + x.blockSize) (n * x.blockSize) := by
      unfold Slice.bytes Slice.drop
      simp only
      rw [Mem.load_store_disjoint, hlen2]
      · congr 1; omega
      · rw [(encryptBlock_length x hx _ (Mem.load_length _ _ _)).1]
        omega
    rw [hl, hb, encryptBlocks]
    simp only [Mem.load_take, Mem.load_drop]
    congr 1
    have := Mem.store_append m dst.ptr (encryptBlock x (m.load src.ptr x.blockSize)).1
    rw [(encryptBlock_length x hx _ (Mem.load_length _ _ _)).1] at this
    simp only [Slice.drop]
    rw [this]

/-- The decrypting loop returns with `n` units of fuel on a source of `n` blocks, and
computes `decryptBlocks`. -/
theorem decrypter_loop_eq (n : Nat) :
    ∀ (fuel : Nat) (x : cbc) (m : Mem) (dst src : Slice), x.WF → 0 < x.blockSize →
      src.len = n * x.blockSize → n ≤ fuel →
      (dst.ptr = src.ptr ∨ dst.ptr + src.len ≤ src.ptr ∨ src.ptr + src.len ≤ dst.ptr) →
      cbc3Decrypter.loop fuel x m dst src =
        ⟨.returned, (decryptBlocks n x (src.bytes m)).2,
          m.store dst.ptr (decryptBlocks n x (src.bytes m)).1⟩ := by
  induction n with
  | zero =>
    intro fuel x m dst src _ _ hlen _ _
    have h0 : src.len = 0 := by simpa using hlen
    cases fuel with
    | zero => simp [cbc3Decrypter.loop, h0, decryptBlocks, Mem.store_nil]
    | succ f => simp [cbc3Decrypter.loop, h0, decryptBlocks, Mem.store_nil]
  | succ n ih =>
    intro fuel x m dst src hx hpos hlen hfuel hz
    have hlen2 : src.len = x.blockSize + n * x.blockSize := by rw [hlen, Nat.succ_mul]; omega
    obtain ⟨f, rfl⟩ : ∃ f, fuel = f + 1 := ⟨fuel - 1, by omega⟩
    have hb : src.bytes m = m.load src.ptr (x.blockSize + n * x.blockSize) := by
      rw [Slice.bytes, hlen2]
    have hx2 : cbc.WF { x with iv := (decryptBlock x (m.load src.ptr x.blockSize)).2,
                                tmp := m.load src.ptr x.blockSize } :=
      ⟨(decryptBlock_length x hx _ (Mem.load_length _ _ _)).2, Mem.load_length _ _ _, hx.size1,
        hx.size2, hx.size3⟩
    rw [cbc3Decrypter.loop, if_pos (by omega)]
    simp only
    rw [decrypter_cryptBlock_eq x hx m dst src]
    simp only
    rw [ih f _ _ _ _ hx2 hpos (by simp [Slice.drop]; omega) (by omega)
      (by simp only [Slice.drop]; omega)]
    have hl : Slice.bytes (src.drop x.blockSize)
        (m.store dst.ptr (decryptBlock x (m.load src.ptr x.blockSize)).1) =
        m.load (src.ptr + x.blockSize) (n * x.blockSize) := by
      unfold Slice.bytes Slice.drop
      simp only
      rw [Mem.load_store_disjoint, hlen2]
      · congr 1; omega
      · rw [(decryptBlock_length x hx _ (Mem.load_length _ _ _)).1]
        omega
    rw [hl, hb, decryptBlocks]
    simp only [Mem.load_take, Mem.load_drop]
    congr 1
    have := Mem.store_append m dst.ptr (decryptBlock x (m.load src.ptr x.blockSize)).1
    rw [(decryptBlock_length x hx _ (Mem.load_length _ _ _)).1] at this
    simp only [Slice.drop]
    rw [this]

/-- `inexactOverlap` is false exactly when a slice is empty, both start at the same
address, or the address ranges are disjoint. -/
theorem inexactOverlap_eq_false (x y : Slice) :
    inexactOverlap x y = false ↔
      (x.len = 0 ∨ y.len = 0 ∨ x.ptr = y.ptr ∨ x.ptr + x.len ≤ y.ptr ∨ y.ptr + y.len ≤ x.ptr) := by
  unfold inexactOverlap anyOverlap
  by_cases h : x.len = 0 ∨ y.len = 0 ∨ x.ptr = y.ptr
  · rw [if_pos h]
    simp only [true_iff]
    omega
  · rw [if_neg h]
    simp only [Bool.and_eq_false_iff, decide_eq_false_iff_not, Bool.and_eq_true,
      decide_eq_true_eq]
    omega

/-- A valid call of `CryptBlocks` on the encrypter returns; it stores
`encryptBlocks` of the source at the destination and changes nothing else. -/
theorem encrypter_CryptBlocks_eq (x : cbc) (hx : x.WF) (hpos : 0 < x.blockSize) (m : Mem)
    (dst src : Slice) (n : Nat) (hlen : src.len = n * x.blockSize) (hdst : src.len ≤ dst.len)
    (hov : inexactOverlap (dst.take src.len) src = false) :
    cbc3Encrypter.CryptBlocks x m dst src =
      ⟨.returned, (encryptBlocks n x (src.bytes m)).2,
        m.store dst.ptr (encryptBlocks n x (src.bytes m)).1⟩ := by
  have hz := (inexactOverlap_eq_false _ _).1 hov
  simp only [Slice.take] at hz
  have hn : n ≤ src.len := by
    rw [hlen]; exact Nat.le_mul_of_pos_right n hpos
  unfold cbc3Encrypter.CryptBlocks
  rw [if_neg (by omega), if_neg (by rw [hlen]; simp), if_neg (by omega), if_neg (by simp [hov]),
    if_neg (by rw [hx.iv_length]; omega)]
  exact encrypter_loop_eq n _ x m dst src hx hpos hlen hn (by omega)

/-- A valid call of `CryptBlocks` on the decrypter returns; it stores
`decryptBlocks` of the source at the destination and changes nothing else. -/
theorem decrypter_CryptBlocks_eq (x : cbc) (hx : x.WF) (hpos : 0 < x.blockSize) (m : Mem)
    (dst src : Slice) (n : Nat) (hlen : src.len = n * x.blockSize) (hdst : src.len ≤ dst.len)
    (hov : inexactOverlap (dst.take src.len) src = false) :
    cbc3Decrypter.CryptBlocks x m dst src =
      ⟨.returned, (decryptBlocks n x (src.bytes m)).2,
        m.store dst.ptr (decryptBlocks n x (src.bytes m)).1⟩ := by
  have hz := (inexactOverlap_eq_false _ _).1 hov
  simp only [Slice.take] at hz
  have hn : n ≤ src.len := by
    rw [hlen]; exact Nat.le_mul_of_pos_right n hpos
  unfold cbc3Decrypter.CryptBlocks
  rw [if_neg (by omega), if_neg (by rw [hlen]; simp), if_neg (by omega), if_neg (by simp [hov])]
  by_cases h0 : src.len = 0
  · rw [if_pos h0]
    have hn0 : n = 0 := by
      rw [hlen] at h0
      rcases Nat.mul_eq_zero.1 h0 with h | h <;> omega
    subst hn0
    simp [decryptBlocks, Mem.store_nil]
  · rw [if_neg h0, if_neg (by rw [hx.iv_length]; omega)]
    exact decrypter_loop_eq n _ x m dst src hx hpos hlen hn (by omega)

/-! ## Construction, inverses and lengths -/

theorem wrapInt_eq_self_iff (z : Int) : wrapInt z = z ↔ -(2 : Int) ^ 63 ≤ z ∧ z < 2 ^ 63 := by
  unfold wrapInt
  omega

theorem make_ok (n : Nat) (h : n ≤ maxAlloc) : make (n : Int) = .ok (List.replicate n 0) := by
  unfold make
  rw [if_neg (by omega)]
  simp

theorem make_error_iff (n : Int) : (∃ e, make n = .error e) ↔ (n < 0 ∨ (maxAlloc : Int) < n) := by
  unfold make
  by_cases h : n < 0 ∨ (maxAlloc : Int) < n
  · simp [h]
  · simp [h]

theorem goCopy_replicate (p : List Byte) : goCopy (List.replicate p.length 0) p = p := by
  apply goCopy_eq
  simp

theorem dup_ok (p : List Byte) (h : p.length ≤ maxAlloc) : dup p = .ok p := by
  unfold dup
  rw [make_ok _ h]
  simp only [goCopy_replicate]

theorem newCBC3_ok (b1 b2 b3 : Block) (iv : List Byte) (hiv : iv.length ≤ maxAlloc)
    (h0 : 0 ≤ b1.BlockSize) (h1 : b1.BlockSize ≤ maxAlloc) :
    newCBC3 b1 b2 b3 iv = .ok
      { b1 := b1, b2 := b2, b3 := b3, blockSize := b1.BlockSize.toNat, iv := iv,
        tmp := List.replicate b1.BlockSize.toNat 0 } := by
  unfold newCBC3
  rw [dup_ok iv hiv]
  simp only
  unfold make
  rw [if_neg (by omega)]

theorem newCBC3_error (b1 b2 b3 : Block) (iv : List Byte)
    (h : b1.BlockSize < 0 ∨ (maxAlloc : Int) < b1.BlockSize) :
    ∃ e, newCBC3 b1 b2 b3 iv = .error e := by
  unfold newCBC3
  cases hd : dup iv with
  | error e => exact ⟨e, rfl⟩
  | ok q =>
    simp only
    unfold make
    rw [if_pos h]
    exact ⟨_, rfl⟩

theorem maxAlloc_lt : (maxAlloc : Int) = 2 ^ 48 := by
  unfold maxAlloc
  norm_num

theorem NewEncrypter_ok (b1 b2 b3 : Block) (iv : List Byte) (bs : Nat)
    (h1 : b1.BlockSize = bs) (h2 : b2.BlockSize = bs) (h3 : b3.BlockSize = bs)
    (hiv : iv.length = 3 * bs) (halloc : iv.length ≤ maxAlloc) :
    NewEncrypter b1 b2 b3 iv = .ok
      { b1 := b1, b2 := b2, b3 := b3, blockSize := bs, iv := iv, tmp := List.replicate bs 0 } := by
  have hm := maxAlloc_lt
  have hw : wrapInt (3 * (bs : Int)) = 3 * (bs : Int) := by
    rw [wrapInt_eq_self_iff]
    omega
  unfold NewEncrypter
  simp only [h1, h2, h3]
  rw [if_neg (by simp), if_neg (by rw [hw, hiv]; simp)]
  rw [newCBC3_ok b1 b2 b3 iv halloc (by omega) (by omega)]
  simp [h1]

theorem NewDecrypter_ok (b1 b2 b3 : Block) (iv : List Byte) (bs : Nat)
    (h1 : b1.BlockSize = bs) (h2 : b2.BlockSize = bs) (h3 : b3.BlockSize = bs)
    (hiv : iv.length = 3 * bs) (halloc : iv.length ≤ maxAlloc) :
    NewDecrypter b1 b2 b3 iv = .ok
      { b1 := b1, b2 := b2, b3 := b3, blockSize := bs, iv := iv, tmp := List.replicate bs 0 } := by
  have hm := maxAlloc_lt
  have hw : wrapInt (3 * (bs : Int)) = 3 * (bs : Int) := by
    rw [wrapInt_eq_self_iff]
    omega
  unfold NewDecrypter
  simp only [h1, h2, h3]
  rw [if_neg (by simp), if_neg (by rw [hw, hiv]; simp)]
  rw [newCBC3_ok b1 b2 b3 iv halloc (by omega) (by omega)]
  simp [h1]

/-- The mode built by the constructors satisfies the invariant. -/
theorem WF_new (b1 b2 b3 : Block) (iv : List Byte) (bs : Nat)
    (h1 : b1.BlockSize = bs) (h2 : b2.BlockSize = bs) (h3 : b3.BlockSize = bs)
    (hiv : iv.length = 3 * bs) :
    cbc.WF
      { b1 := b1, b2 := b2, b3 := b3, blockSize := bs, iv := iv, tmp := List.replicate bs 0 } :=
  ⟨hiv, by simp, h1, h2, h3⟩

theorem NewEncrypter_error (b1 b2 b3 : Block) (iv : List Byte)
    (h : ¬(b1.BlockSize = b2.BlockSize ∧ b1.BlockSize = b3.BlockSize) ∨
      (iv.length : Int) ≠ 3 * b1.BlockSize) :
    ∃ e, NewEncrypter b1 b2 b3 iv = .error e := by
  unfold NewEncrypter
  simp only
  by_cases hs : b1.BlockSize ≠ b2.BlockSize ∨ b1.BlockSize ≠ b3.BlockSize
  · rw [if_pos hs]; exact ⟨_, rfl⟩
  · rw [if_neg hs]
    by_cases hw : (iv.length : Int) ≠ wrapInt (3 * b1.BlockSize)
    · rw [if_pos hw]; exact ⟨_, rfl⟩
    · rw [if_neg hw]
      apply newCBC3_error
      have hne : wrapInt (3 * b1.BlockSize) ≠ 3 * b1.BlockSize := by
        intro he
        rw [he] at hw
        rcases h with h | h
        · exact h ⟨by omega, by omega⟩
        · exact h (not_not.1 hw)
      rw [Ne, wrapInt_eq_self_iff] at hne
      have hm := maxAlloc_lt
      omega

theorem NewDecrypter_error (b1 b2 b3 : Block) (iv : List Byte)
    (h : ¬(b1.BlockSize = b2.BlockSize ∧ b1.BlockSize = b3.BlockSize) ∨
      (iv.length : Int) ≠ 3 * b1.BlockSize) :
    ∃ e, NewDecrypter b1 b2 b3 iv = .error e := by
  unfold NewDecrypter
  simp only
  by_cases hs : b1.BlockSize ≠ b2.BlockSize ∨ b1.BlockSize ≠ b3.BlockSize
  · rw [if_pos hs]; exact ⟨_, rfl⟩
  · rw [if_neg hs]
    by_cases hw : (iv.length : Int) ≠ wrapInt (3 * b1.BlockSize)
    · rw [if_pos hw]; exact ⟨_, rfl⟩
    · rw [if_neg hw]
      apply newCBC3_error
      have hne : wrapInt (3 * b1.BlockSize) ≠ 3 * b1.BlockSize := by
        intro he
        rw [he] at hw
        rcases h with h | h
        · exact h ⟨by omega, by omega⟩
        · exact h (not_not.1 hw)
      rw [Ne, wrapInt_eq_self_iff] at hne
      have hm := maxAlloc_lt
      omega

theorem sizes_nat (b1 b2 b3 : Block) (iv : List Byte)
    (h : ¬(¬(b1.BlockSize = b2.BlockSize ∧ b1.BlockSize = b3.BlockSize) ∨
      (iv.length : Int) ≠ 3 * b1.BlockSize)) :
    b1.BlockSize = (b1.BlockSize.toNat : Int) ∧ b2.BlockSize = (b1.BlockSize.toNat : Int) ∧
      b3.BlockSize = (b1.BlockSize.toNat : Int) ∧ iv.length = 3 * b1.BlockSize.toNat := by
  omega

theorem xorBlock_cancel (a b : List Byte) (h : a.length = b.length) :
    xorBlock (xorBlock a b) b = a := by
  apply List.ext_getElem
  · simp [xorBlock, h]
  · intro i h1 h2
    simp [xorBlock, BitVec.xor_assoc]

theorem Block.Inverse.dec_enc {b : Block} (hb : b.Inverse) (n : Nat) (hn : b.BlockSize = n)
    (blk : List Byte) (h : blk.length = n) : b.Decrypt (b.Encrypt blk) = blk :=
  (hb blk (by rw [hn]; simp [h])).1

theorem Block.Inverse.enc_dec {b : Block} (hb : b.Inverse) (n : Nat) (hn : b.BlockSize = n)
    (blk : List Byte) (h : blk.length = n) : b.Encrypt (b.Decrypt blk) = blk :=
  (hb blk (by rw [hn]; simp [h])).2

theorem decryptBlock_encryptBlock (xe xd : cbc) (hx : xe.WF) (e1 : xd.b1 = xe.b1)
    (e2 : xd.b2 = xe.b2) (e3 : xd.b3 = xe.b3) (ebs : xd.blockSize = xe.blockSize)
    (eiv : xd.iv = xe.iv) (i1 : xe.b1.Inverse) (i2 : xe.b2.Inverse) (i3 : xe.b3.Inverse)
    (p : List Byte) (hp : p.length = xe.blockSize) :
    decryptBlock xd (encryptBlock xe p).1 = (p, (encryptBlock xe p).2) := by
  obtain ⟨l0, l1, l2⟩ := view_length3 xe.iv xe.blockSize hx.iv_length
  unfold decryptBlock encryptBlock
  simp only [e1, e2, e3, ebs, eiv]
  have hx0 := xorBlock_len p _ _ hp l0
  have hc1 := Block.Encrypt_len xe.b1 _ _ hx0 hx.size1
  have hd2 := Block.Decrypt_len xe.b2 _ _ hc1 hx.size2
  have hx2 := xorBlock_len _ _ _ hd2 l1
  have hx3 := xorBlock_len _ _ _ hx2 l2
  rw [i3.dec_enc _ hx.size3 _ hx3, xorBlock_cancel _ _ (by omega), xorBlock_cancel _ _ (by omega),
    i2.enc_dec _ hx.size2 _ hc1, i1.dec_enc _ hx.size1 _ hx0, xorBlock_cancel _ _ (by omega)]

theorem encryptBlocks_fields (n : Nat) : ∀ (x : cbc) (data : List Byte),
    (encryptBlocks n x data).2.b1 = x.b1 ∧ (encryptBlocks n x data).2.b2 = x.b2 ∧
    (encryptBlocks n x data).2.b3 = x.b3 ∧ (encryptBlocks n x data).2.blockSize = x.blockSize ∧
    (encryptBlocks n x data).2.tmp = x.tmp := by
  induction n with
  | zero => intro x data; simp [encryptBlocks]
  | succ n ih => intro x data; simpa [encryptBlocks] using ih _ _

theorem decryptBlocks_fields (n : Nat) : ∀ (x : cbc) (data : List Byte),
    (decryptBlocks n x data).2.b1 = x.b1 ∧ (decryptBlocks n x data).2.b2 = x.b2 ∧
    (decryptBlocks n x data).2.b3 = x.b3 ∧ (decryptBlocks n x data).2.blockSize = x.blockSize := by
  induction n with
  | zero => intro x data; simp [decryptBlocks]
  | succ n ih => intro x data; simpa [decryptBlocks] using ih _ _

theorem encryptBlock_WF (x : cbc) (hx : x.WF) (p : List Byte) (hp : p.length = x.blockSize) :
    cbc.WF { x with iv := (encryptBlock x p).2 } :=
  ⟨(encryptBlock_length x hx p hp).2, hx.tmp_length, hx.size1, hx.size2, hx.size3⟩

theorem decryptBlock_WF (x : cbc) (hx : x.WF) (c : List Byte) (hc : c.length = x.blockSize) :
    cbc.WF { x with iv := (decryptBlock x c).2, tmp := c } :=
  ⟨(decryptBlock_length x hx c hc).2, hc, hx.size1, hx.size2, hx.size3⟩

theorem length_take_block (data : List Byte) (n bs : Nat) (h : data.length = (n + 1) * bs) :
    (data.take bs).length = bs ∧ (data.drop bs).length = n * bs := by
  rw [Nat.succ_mul] at h
  constructor
  · rw [List.length_take]; omega
  · rw [List.length_drop]; omega

theorem encryptBlocks_length (n : Nat) : ∀ (x : cbc) (data : List Byte), x.WF →
    data.length = n * x.blockSize →
    (encryptBlocks n x data).1.length = n * x.blockSize ∧ (encryptBlocks n x data).2.WF := by
  induction n with
  | zero => intro x data hx _; simp [encryptBlocks, hx]
  | succ n ih =>
    intro x data hx hlen
    obtain ⟨ht, hd⟩ := length_take_block data n x.blockSize hlen
    have h := ih _ (data.drop x.blockSize) (encryptBlock_WF x hx _ ht) hd
    simp only [encryptBlocks, List.length_append, (encryptBlock_length x hx _ ht).1]
    refine ⟨?_, h.2⟩
    rw [h.1]
    simp only [Nat.succ_mul]
    omega

theorem decryptBlocks_length (n : Nat) : ∀ (x : cbc) (data : List Byte), x.WF →
    data.length = n * x.blockSize →
    (decryptBlocks n x data).1.length = n * x.blockSize ∧ (decryptBlocks n x data).2.WF := by
  induction n with
  | zero => intro x data hx _; simp [decryptBlocks, hx]
  | succ n ih =>
    intro x data hx hlen
    obtain ⟨ht, hd⟩ := length_take_block data n x.blockSize hlen
    have h := ih _ (data.drop x.blockSize) (decryptBlock_WF x hx _ ht) hd
    simp only [decryptBlocks, List.length_append, (decryptBlock_length x hx _ ht).1]
    refine ⟨?_, h.2⟩
    rw [h.1]
    simp only [Nat.succ_mul]
    omega

/-- Decrypting what was encrypted, from the same registers, gives the data back and
leaves the same registers. -/
theorem decryptBlocks_encryptBlocks (n : Nat) : ∀ (xe xd : cbc) (data : List Byte), xe.WF →
    xd.b1 = xe.b1 → xd.b2 = xe.b2 → xd.b3 = xe.b3 → xd.blockSize = xe.blockSize →
    xd.iv = xe.iv → xe.b1.Inverse → xe.b2.Inverse → xe.b3.Inverse →
    data.length = n * xe.blockSize →
    (decryptBlocks n xd (encryptBlocks n xe data).1).1 = data ∧
      (decryptBlocks n xd (encryptBlocks n xe data).1).2.iv = (encryptBlocks n xe data).2.iv := by
  induction n with
  | zero =>
    intro xe xd data _ _ _ _ _ eiv _ _ _ hlen
    have : data = [] := List.length_eq_zero.1 (by simpa using hlen)
    simp [encryptBlocks, decryptBlocks, this, eiv]
  | succ n ih =>
    intro xe xd data hx e1 e2 e3 ebs eiv i1 i2 i3 hlen
    obtain ⟨ht, hd⟩ := length_take_block data n xe.blockSize hlen
    have hr := (encryptBlock_length xe hx _ ht).1
    have hstep := decryptBlock_encryptBlock xe xd hx e1 e2 e3 ebs eiv i1 i2 i3 _ ht
    simp only [encryptBlocks, decryptBlocks, ebs]
    rw [List.take_left' hr, List.drop_left' hr, hstep]
    simp only
    have h := ih { xe with iv := (encryptBlock xe (List.take xe.blockSize data)).2 }
      { xd with iv := (encryptBlock xe (List.take xe.blockSize data)).2,
                tmp := (encryptBlock xe (List.take xe.blockSize data)).1 }
      (data.drop xe.blockSize) (encryptBlock_WF xe hx _ ht) e1 e2 e3 ebs rfl i1 i2 i3 hd
    simp only [ebs] at h
    rw [h.1, h.2, List.take_append_drop]
    exact ⟨rfl, rfl⟩

/-! ## The two loops against ordinary CBC, and splitting a run -/

theorem encryptBlocks_eq_cbc (n : Nat) : ∀ (x : cbc) (data : List Byte), x.WF →
    data.length = n * x.blockSize →
    (encryptBlocks n x data).1 =
      cbcEncrypt x.b3 x.blockSize n (view x.iv (2 * x.blockSize) x.iv.length)
        (cbcDecrypt x.b2 x.blockSize n (view x.iv x.blockSize (2 * x.blockSize))
          (cbcEncrypt x.b1 x.blockSize n (view x.iv 0 x.blockSize) data)) := by
  induction n with
  | zero => intro x data _ _; simp [encryptBlocks, cbcEncrypt, cbcDecrypt]
  | succ n ih =>
    intro x data hx hlen
    obtain ⟨l0, l1, l2⟩ := view_length3 x.iv x.blockSize hx.iv_length
    obtain ⟨ht, hd⟩ := length_take_block data n x.blockSize hlen
    have hx0 := xorBlock_len _ _ _ ht l0
    have hc1 := Block.Encrypt_len x.b1 _ _ hx0 hx.size1
    have hd2 := Block.Decrypt_len x.b2 _ _ hc1 hx.size2
    have hx2 := xorBlock_len _ _ _ hd2 l1
    have hx3 := xorBlock_len _ _ _ hx2 l2
    have hout := Block.Encrypt_len x.b3 _ _ hx3 hx.size3
    have h := ih { x with iv := (encryptBlock x (data.take x.blockSize)).2 }
      (data.drop x.blockSize) (encryptBlock_WF x hx _ ht) hd
    simp only [encryptBlocks, cbcEncrypt, cbcDecrypt]
    rw [h]
    simp only [encryptBlock]
    rw [List.take_left' hc1, List.drop_left' hc1, List.take_left' hx2, List.drop_left' hx2,
      view_seg0 _ _ _ _ hc1, view_seg1 _ _ _ _ hc1 hc1, view_seg2 _ _ _ _ hc1 hc1]

theorem decryptBlocks_eq_cbc (n : Nat) : ∀ (x : cbc) (data : List Byte), x.WF →
    data.length = n * x.blockSize →
    (decryptBlocks n x data).1 =
      cbcDecrypt x.b1 x.blockSize n (view x.iv 0 x.blockSize)
        (cbcEncrypt x.b2 x.blockSize n (view x.iv x.blockSize (2 * x.blockSize))
          (cbcDecrypt x.b3 x.blockSize n (view x.iv (2 * x.blockSize) x.iv.length) data)) := by
  induction n with
  | zero => intro x data _ _; simp [decryptBlocks, cbcEncrypt, cbcDecrypt]
  | succ n ih =>
    intro x data hx hlen
    obtain ⟨l0, l1, l2⟩ := view_length3 x.iv x.blockSize hx.iv_length
    obtain ⟨ht, hd⟩ := length_take_block data n x.blockSize hlen
    have hd3 := Block.Decrypt_len x.b3 _ _ ht hx.size3
    have hx2 := xorBlock_len _ _ _ hd3 l2
    have hx1 := xorBlock_len _ _ _ hx2 l1
    have hc1 := Block.Encrypt_len x.b2 _ _ hx1 hx.size2
    have h := ih { x with iv := (decryptBlock x (data.take x.blockSize)).2,
                          tmp := data.take x.blockSize }
      (data.drop x.blockSize) (decryptBlock_WF x hx _ ht) hd
    simp only [decryptBlocks, cbcEncrypt, cbcDecrypt]
    rw [h]
    simp only [decryptBlock]
    rw [List.take_left' hx2, List.drop_left' hx2, List.take_left' hc1, List.drop_left' hc1,
      view_seg0 _ _ _ _ hc1, view_seg1 _ _ _ _ hc1 hc1, view_seg2 _ _ _ _ hc1 hc1]

theorem encryptBlocks_append (n1 : Nat) : ∀ (n2 : Nat) (x : cbc) (A B : List Byte),
    A.length = n1 * x.blockSize →
    encryptBlocks (n1 + n2) x (A ++ B) =
      ((encryptBlocks n1 x A).1 ++ (encryptBlocks n2 (encryptBlocks n1 x A).2 B).1,
        (encryptBlocks n2 (encryptBlocks n1 x A).2 B).2) := by
  induction n1 with
  | zero =>
    intro n2 x A B hA
    have : A = [] := List.length_eq_zero.1 (by simpa using hA)
    simp [encryptBlocks, this]
  | succ n ih =>
    intro n2 x A B hA
    obtain ⟨ht, hd⟩ := length_take_block A n x.blockSize hA
    have hle : x.blockSize ≤ A.length := by rw [Nat.succ_mul] at hA; omega
    rw [show n + 1 + n2 = (n + n2) + 1 by omega]
    simp only [encryptBlocks]
    rw [List.take_append_of_le_length hle, List.drop_append_of_le_length hle,
      ih n2 { x with iv := (encryptBlock x (A.take x.blockSize)).2 } _ B hd]
    simp only [List.append_assoc]

theorem decryptBlocks_append (n1 : Nat) : ∀ (n2 : Nat) (x : cbc) (A B : List Byte),
    A.length = n1 * x.blockSize →
    decryptBlocks (n1 + n2) x (A ++ B) =
      ((decryptBlocks n1 x A).1 ++ (decryptBlocks n2 (decryptBlocks n1 x A).2 B).1,
        (decryptBlocks n2 (decryptBlocks n1 x A).2 B).2) := by
  induction n1 with
  | zero =>
    intro n2 x A B hA
    have : A = [] := List.length_eq_zero.1 (by simpa using hA)
    simp [decryptBlocks, this]
  | succ n ih =>
    intro n2 x A B hA
    obtain ⟨ht, hd⟩ := length_take_block A n x.blockSize hA
    have hle : x.blockSize ≤ A.length := by rw [Nat.succ_mul] at hA; omega
    rw [show n + 1 + n2 = (n + n2) + 1 by omega]
    simp only [decryptBlocks]
    rw [List.take_append_of_le_length hle, List.drop_append_of_le_length hle,
      ih n2 { x with iv := (decryptBlock x (A.take x.blockSize)).2, tmp := A.take x.blockSize }
        _ B hd]
    simp only [List.append_assoc]

/-! ## Reading the result of a call; the sample data -/

theorem Slice.bytes_take_store (m : Mem) (dst : Slice) (k : Nat) (l : List Byte)
    (h : l.length = k) : (dst.take k).bytes (m.store dst.ptr l) = l :=
  Slice.bytes_store m dst.ptr k l h

theorem Slice.bytes_length (s : Slice) (m : Mem) : (s.bytes m).length = s.len :=
  Mem.load_length m s.ptr s.len

theorem Sample.addKey_inverse (k : Byte) (n : Nat) : (Sample.addKey k n).Inverse := by
  intro blk _
  simp [Sample.addKey, List.map_map, Function.comp_def]

theorem Sample.rev_inverse (n : Nat) : (Sample.rev n).Inverse := by
  intro blk _
  simp [Sample.rev]

theorem Sample.mode_WF : Sample.mode.WF :=
  ⟨by decide, by decide, by decide, by decide, by decide⟩

theorem encrypter_CryptBlocks_out (x : cbc) (hx : x.WF) (hpos : 0 < x.blockSize) (m : Mem)
    (dst src : Slice) (n : Nat) (hlen : src.len = n * x.blockSize) (hdst : src.len ≤ dst.len)
    (hov : inexactOverlap (dst.take src.len) src = false) :
    (cbc3Encrypter.CryptBlocks x m dst src).status = .returned ∧
      (cbc3Encrypter.CryptBlocks x m dst src).x = (encryptBlocks n x (src.bytes m)).2 ∧
      (dst.take src.len).bytes (cbc3Encrypter.CryptBlocks x m dst src).mem =
        (encryptBlocks n x (src.bytes m)).1 := by
  rw [encrypter_CryptBlocks_eq x hx hpos m dst src n hlen hdst hov]
  have hP : (src.bytes m).length = n * x.blockSize := by rw [Slice.bytes_length, hlen]
  have hC := (encryptBlocks_length n x (src.bytes m) hx hP).1
  rw [← hlen] at hC
  exact ⟨rfl, rfl, Slice.bytes_take_store _ dst _ _ hC⟩

theorem decrypter_CryptBlocks_out (x : cbc) (hx : x.WF) (hpos : 0 < x.blockSize) (m : Mem)
    (dst src : Slice) (n : Nat) (hlen : src.len = n * x.blockSize) (hdst : src.len ≤ dst.len)
    (hov : inexactOverlap (dst.take src.len) src = false) :
    (cbc3Decrypter.CryptBlocks x m dst src).status = .returned ∧
      (cbc3Decrypter.CryptBlocks x m dst src).x = (decryptBlocks n x (src.bytes m)).2 ∧
      (dst.take src.len).bytes (cbc3Decrypter.CryptBlocks x m dst src).mem =
        (decryptBlocks n x (src.bytes m)).1 := by
  rw [decrypter_CryptBlocks_eq x hx hpos m dst src n hlen hdst hov]
  have hP : (src.bytes m).length = n * x.blockSize := by rw [Slice.bytes_length, hlen]
  have hC := (decryptBlocks_length n x (src.bytes m) hx hP).1
  rw [← hlen] at hC
  exact ⟨rfl, rfl, Slice.bytes_take_store _ dst _ _ hC⟩

/-! ## The claims -/

/-- C1 (round trip).  For ciphers of block size `bs > 0` whose `Encrypt` and
`Decrypt` are mutually inverse on blocks, an initialization vector of `3 * bs`
bytes and a source of `n` whole blocks, `NewEncrypter` and `NewDecrypter` succeed
on the same ciphers and vector, both calls of `CryptBlocks` return, and decrypting
the bytes the encrypter wrote gives back exactly the bytes of the source.  The
buffers may be separate or identical (in place); the empty source is included. -/
theorem round_trip (b1 b2 b3 : Block) (bs : Nat) (hbs : 0 < bs)
    (h1 : b1.BlockSize = bs) (h2 : b2.BlockSize = bs) (h3 : b3.BlockSize = bs)
    (i1 : b1.Inverse) (i2 : b2.Inverse) (i3 : b3.Inverse)
    (iv : List Byte) (hiv : iv.length = 3 * bs) (halloc : iv.length ≤ maxAlloc)
    (m : Mem) (src ct pt : Slice) (n : Nat) (hsrc : src.len = n * bs)
    (hct : src.len ≤ ct.len) (hov1 : inexactOverlap (ct.take src.len) src = false)
    (hpt : src.len ≤ pt.len)
    (hov2 : inexactOverlap (pt.take src.len) (ct.take src.len) = false) :
    ∃ xe xd, NewEncrypter b1 b2 b3 iv = .ok xe ∧ NewDecrypter b1 b2 b3 iv = .ok xd ∧
      (cbc3Encrypter.CryptBlocks xe m ct src).status = .returned ∧
      (cbc3Decrypter.CryptBlocks xd (cbc3Encrypter.CryptBlocks xe m ct src).mem pt
        (ct.take src.len)).status = .returned ∧
      (pt.take src.len).bytes
        (cbc3Decrypter.CryptBlocks xd (cbc3Encrypter.CryptBlocks xe m ct src).mem pt
          (ct.take src.len)).mem = src.bytes m := by
  have hwf := WF_new b1 b2 b3 iv bs h1 h2 h3 hiv
  refine ⟨_, _, NewEncrypter_ok b1 b2 b3 iv bs h1 h2 h3 hiv halloc,
    NewDecrypter_ok b1 b2 b3 iv bs h1 h2 h3 hiv halloc, ?_⟩
  rw [encrypter_CryptBlocks_eq _ hwf hbs m ct src n hsrc hct hov1]
  simp only
  have hP : (src.bytes m).length = n * bs := by rw [Slice.bytes_length, hsrc]
  have hC := (encryptBlocks_length n _ (src.bytes m) hwf hP).1
  simp only at hC
  rw [← hsrc] at hC
  rw [decrypter_CryptBlocks_eq _ hwf hbs _ pt (ct.take src.len) n hsrc hpt hov2]
  simp only
  rw [Slice.bytes_take_store _ ct _ _ hC]
  have hrt := decryptBlocks_encryptBlocks n _ _ (src.bytes m) hwf rfl rfl rfl rfl rfl i1 i2 i3 hP
  refine ⟨trivial, trivial, ?_⟩
  rw [hrt.1, Slice.bytes_take_store _ pt _ _ (Slice.bytes_length src m)]

/-- The sample ciphers, mode and memory satisfy the hypotheses of the preceding theorem. -/
theorem round_trip_witness :
    ∃ xe xd, NewEncrypter Sample.b1 Sample.b2 Sample.b3 Sample.iv = .ok xe ∧
      NewDecrypter Sample.b1 Sample.b2 Sample.b3 Sample.iv = .ok xd ∧
      (cbc3Encrypter.CryptBlocks xe Sample.mem ⟨100, 4⟩ ⟨10, 4⟩).status = .returned ∧
      (cbc3Decrypter.CryptBlocks xd (cbc3Encrypter.CryptBlocks xe Sample.mem ⟨100, 4⟩ ⟨10, 4⟩).mem
        ⟨200, 4⟩ ⟨100, 4⟩).status = .returned ∧
      Slice.bytes ⟨200, 4⟩
        (cbc3Decrypter.CryptBlocks xd (cbc3Encrypter.CryptBlocks xe Sample.mem ⟨100, 4⟩ ⟨10, 4⟩).mem
          ⟨200, 4⟩ ⟨100, 4⟩).mem = Slice.bytes ⟨10, 4⟩ Sample.mem :=
  round_trip Sample.b1 Sample.b2 Sample.b3 2 (by decide) rfl rfl rfl
    (Sample.addKey_inverse 3 2) (Sample.rev_inverse 2) (Sample.addKey_inverse 7 2)
    Sample.iv (by decide) (by decide) Sample.mem ⟨10, 4⟩ ⟨100, 4⟩ ⟨200, 4⟩ 2 (by decide)
    (by decide) (by decide) (by decide) (by decide)

/-- C2 (the encrypter is SSH-1 triple CBC).  For ciphers of block size `bs > 0`,
the vector `iv0 ++ iv1 ++ iv2` and a source of `n` whole blocks, the single
interleaved pass of the encrypter writes the bytes that three passes of ordinary
CBC over the whole buffer give: CBC encryption by stage 1 under `iv0`, then CBC
decryption by stage 2 under `iv1`, then CBC encryption by stage 3 under `iv2`. -/
theorem encrypter_refines_triple_cbc (b1 b2 b3 : Block) (bs : Nat) (hbs : 0 < bs)
    (h1 : b1.BlockSize = bs) (h2 : b2.BlockSize = bs) (h3 : b3.BlockSize = bs)
    (iv0 iv1 iv2 : List Byte) (l0 : iv0.length = bs) (l1 : iv1.length = bs)
    (l2 : iv2.length = bs) (halloc : 3 * bs ≤ maxAlloc)
    (m : Mem) (dst src : Slice) (n : Nat) (hsrc : src.len = n * bs)
    (hdst : src.len ≤ dst.len) (hov : inexactOverlap (dst.take src.len) src = false) :
    ∃ x, NewEncrypter b1 b2 b3 (iv0 ++ iv1 ++ iv2) = .ok x ∧
      (cbc3Encrypter.CryptBlocks x m dst src).status = .returned ∧
      (dst.take src.len).bytes (cbc3Encrypter.CryptBlocks x m dst src).mem =
        cbcEncrypt b3 bs n iv2 (cbcDecrypt b2 bs n iv1 (cbcEncrypt b1 bs n iv0 (src.bytes m))) := by
  have hiv : (iv0 ++ iv1 ++ iv2).length = 3 * bs := by
    rw [List.length_append, List.length_append]; omega
  have hwf := WF_new b1 b2 b3 _ bs h1 h2 h3 hiv
  refine ⟨_, NewEncrypter_ok b1 b2 b3 _ bs h1 h2 h3 hiv (by omega), ?_⟩
  rw [encrypter_CryptBlocks_eq _ hwf hbs m dst src n hsrc hdst hov]
  have hP : (src.bytes m).length = n * bs := by rw [Slice.bytes_length, hsrc]
  have hC := (encryptBlocks_length n _ (src.bytes m) hwf hP).1
  simp only at hC
  rw [← hsrc] at hC
  refine ⟨rfl, ?_⟩
  simp only
  rw [Slice.bytes_take_store _ dst _ _ hC, encryptBlocks_eq_cbc n _ _ hwf hP]
  simp only
  rw [view_seg0 _ _ _ _ l0, view_seg1 _ _ _ _ l0 l1, view_seg2 _ _ _ _ l0 l1]

/-- The sample ciphers, mode and memory satisfy the hypotheses of the preceding theorem. -/
theorem encrypter_refines_triple_cbc_witness :
    (∃ x, NewEncrypter Sample.b1 Sample.b2 Sample.b3 ([1, 2] ++ [3, 4] ++ [5, 6]) = .ok x ∧
      (cbc3Encrypter.CryptBlocks x Sample.mem ⟨100, 4⟩ ⟨10, 4⟩).status = .returned ∧
      Slice.bytes ⟨100, 4⟩ (cbc3Encrypter.CryptBlocks x Sample.mem ⟨100, 4⟩ ⟨10, 4⟩).mem =
        cbcEncrypt Sample.b3 2 2 [5, 6] (cbcDecrypt Sample.b2 2 2 [3, 4]
          (cbcEncrypt Sample.b1 2 2 [1, 2] (Slice.bytes ⟨10, 4⟩ Sample.mem)))) ∧
    cbcEncrypt Sample.b3 2 2 [5, 6] (cbcDecrypt Sample.b2 2 2 [3, 4]
      (cbcEncrypt Sample.b1 2 2 [1, 2] (Slice.bytes ⟨10, 4⟩ Sample.mem))) =
        [206#8, 182#8, 72#8, 27#8] :=
  ⟨encrypter_refines_triple_cbc Sample.b1 Sample.b2 Sample.b3 2 (by decide) rfl rfl rfl
    [1, 2] [3, 4] [5, 6] rfl rfl rfl (by decide) Sample.mem ⟨100, 4⟩ ⟨10, 4⟩ 2 (by decide)
    (by decide) (by decide), by decide⟩

/-- C3 (the decrypter is SSH-1 triple CBC decryption).  For ciphers of block
size `bs > 0`, the vector `iv0 ++ iv1 ++ iv2` and a source of `n` whole blocks, the
decrypter writes the bytes that three passes of ordinary CBC over the whole buffer
give: CBC decryption by stage 3 under `iv2`, then CBC encryption by stage 2 under
`iv1`, then CBC decryption by stage 1 under `iv0`. -/
theorem decrypter_refines_triple_cbc (b1 b2 b3 : Block) (bs : Nat) (hbs : 0 < bs)
    (h1 : b1.BlockSize = bs) (h2 : b2.BlockSize = bs) (h3 : b3.BlockSize = bs)
    (iv0 iv1 iv2 : List Byte) (l0 : iv0.length = bs) (l1 : iv1.length = bs)
    (l2 : iv2.length = bs) (halloc : 3 * bs ≤ maxAlloc)
    (m : Mem) (dst src : Slice) (n : Nat) (hsrc : src.len = n * bs)
    (hdst : src.len ≤ dst.len) (hov : inexactOverlap (dst.take src.len) src = false) :
    ∃ x, NewDecrypter b1 b2 b3 (iv0 ++ iv1 ++ iv2) = .ok x ∧
      (cbc3Decrypter.CryptBlocks x m dst src).status = .returned ∧
      (dst.take src.len).bytes (cbc3Decrypter.CryptBlocks x m dst src).mem =
        cbcDecrypt b1 bs n iv0 (cbcEncrypt b2 bs n iv1 (cbcDecrypt b3 bs n iv2 (src.bytes m))) := by
  have hiv : (iv0 ++ iv1 ++ iv2).length = 3 * bs := by
    rw [List.length_append, List.length_append]; omega
  have hwf := WF_new b1 b2 b3 _ bs h1 h2 h3 hiv
  refine ⟨_, NewDecrypter_ok b1 b2 b3 _ bs h1 h2 h3 hiv (by omega), ?_⟩
  rw [decrypter_CryptBlocks_eq _ hwf hbs m dst src n hsrc hdst hov]
  have hP : (src.bytes m).length = n * bs := by rw [Slice.bytes_length, hsrc]
  have hC := (decryptBlocks_length n _ (src.bytes m) hwf hP).1
  simp only at hC
  rw [← hsrc] at hC
  refine ⟨rfl, ?_⟩
  simp only
  rw [Slice.bytes_take_store _ dst _ _ hC, decryptBlocks_eq_cbc n _ _ hwf hP]
  simp only
  rw [view_seg0 _ _ _ _ l0, view_seg1 _ _ _ _ l0 l1, view_seg2 _ _ _ _ l0 l1]

/-- The sample ciphers, mode and memory satisfy the hypotheses of the preceding theorem. -/
theorem decrypter_refines_triple_cbc_witness :
    (∃ x, NewDecrypter Sample.b1 Sample.b2 Sample.b3 ([1, 2] ++ [3, 4] ++ [5, 6]) = .ok x ∧
      (cbc3Decrypter.CryptBlocks x Sample.mem ⟨10, 4⟩ ⟨10, 4⟩).status = .returned ∧
      Slice.bytes ⟨10, 4⟩ (cbc3Decrypter.CryptBlocks x Sample.mem ⟨10, 4⟩ ⟨10, 4⟩).mem =
        cbcDecrypt Sample.b1 2 2 [1, 2] (cbcEncrypt Sample.b2 2 2 [3, 4]
          (cbcDecrypt Sample.b3 2 2 [5, 6] (Slice.bytes ⟨10, 4⟩ Sample.mem)))) ∧
    cbcDecrypt Sample.b1 2 2 [1, 2] (cbcEncrypt Sample.b2 2 2 [3, 4]
      (cbcDecrypt Sample.b3 2 2 [5, 6] (Slice.bytes ⟨10, 4⟩ Sample.mem))) =
        [181#8, 157#8, 113#8, 117#8] :=
  ⟨decrypter_refines_triple_cbc Sample.b1 Sample.b2 Sample.b3 2 (by decide) rfl rfl rfl
    [1, 2] [3, 4] [5, 6] rfl rfl rfl (by decide) Sample.mem ⟨10, 4⟩ ⟨10, 4⟩ 2 (by decide)
    (by decide) (by decide), by decide⟩

/-- C4 (encrypting one block).  For an encrypter with registers `r0 ++ r1 ++ r2`
and a source `p` of one block, `CryptBlocks` returns, writes
`out = E3 (D2 (E1 (p XOR r0)) XOR r1 XOR r2)` to the first block of the destination
and nothing else, and leaves the registers `c1 ++ c1 ++ out` with
`c1 = E1 (p XOR r0)`. -/
theorem encrypt_one_block (x : cbc) (hx : x.WF) (hpos : 0 < x.blockSize)
    (r0 r1 r2 : List Byte) (l0 : r0.length = x.blockSize) (l1 : r1.length = x.blockSize)
    (hiv : x.iv = r0 ++ r1 ++ r2)
    (m : Mem) (dst src : Slice) (hsrc : src.len = x.blockSize) (hdst : src.len ≤ dst.len)
    (hov : inexactOverlap (dst.take src.len) src = false) :
    (cbc3Encrypter.CryptBlocks x m dst src).status = .returned ∧
      (cbc3Encrypter.CryptBlocks x m dst src).mem =
        m.store dst.ptr (x.b3.Encrypt (xorBlock (xorBlock
          (x.b2.Decrypt (x.b1.Encrypt (xorBlock (src.bytes m) r0))) r1) r2)) ∧
      (dst.take x.blockSize).bytes (cbc3Encrypter.CryptBlocks x m dst src).mem =
        x.b3.Encrypt (xorBlock (xorBlock
          (x.b2.Decrypt (x.b1.Encrypt (xorBlock (src.bytes m) r0))) r1) r2) ∧
      (cbc3Encrypter.CryptBlocks x m dst src).x.iv =
        x.b1.Encrypt (xorBlock (src.bytes m) r0) ++ x.b1.Encrypt (xorBlock (src.bytes m) r0) ++
          x.b3.Encrypt (xorBlock (xorBlock
            (x.b2.Decrypt (x.b1.Encrypt (xorBlock (src.bytes m) r0))) r1) r2) := by
  rw [encrypter_CryptBlocks_eq x hx hpos m dst src 1 (by omega) hdst hov]
  have hP : (src.bytes m).length = x.blockSize := by rw [Slice.bytes_length, hsrc]
  have hout := (encryptBlock_length x hx _ hP).1
  have e : encryptBlock x (src.bytes m) =
      (x.b3.Encrypt (xorBlock (xorBlock
          (x.b2.Decrypt (x.b1.Encrypt (xorBlock (src.bytes m) r0))) r1) r2),
        x.b1.Encrypt (xorBlock (src.bytes m) r0) ++ x.b1.Encrypt (xorBlock (src.bytes m) r0) ++
          x.b3.Encrypt (xorBlock (xorBlock
            (x.b2.Decrypt (x.b1.Encrypt (xorBlock (src.bytes m) r0))) r1) r2)) := by
    unfold encryptBlock
    simp only
    rw [hiv, view_seg0 _ _ _ _ l0, view_seg1 _ _ _ _ l0 l1, view_seg2 _ _ _ _ l0 l1]
  rw [e] at hout
  simp only [encryptBlocks, List.append_nil, ← hP, List.take_length, e]
  simp only at hout
  rw [hP, Slice.bytes_take_store _ dst _ _ hout]
  refine ⟨?_, ?_, ?_, ?_⟩ <;> trivial

/-- The sample ciphers, mode and memory satisfy the hypotheses of the preceding theorem. -/
theorem encrypt_one_block_witness :
    (cbc3Encrypter.CryptBlocks Sample.mode Sample.mem ⟨100, 2⟩ ⟨10, 2⟩).status = .returned ∧
      (cbc3Encrypter.CryptBlocks Sample.mode Sample.mem ⟨100, 2⟩ ⟨10, 2⟩).mem =
        Sample.mem.store 100 (Sample.b3.Encrypt (xorBlock (xorBlock
          (Sample.b2.Decrypt (Sample.b1.Encrypt (xorBlock (Slice.bytes ⟨10, 2⟩ Sample.mem) [1, 2])))
            [3, 4]) [5, 6])) ∧
      Slice.bytes ⟨100, 2⟩ (cbc3Encrypter.CryptBlocks Sample.mode Sample.mem ⟨100, 2⟩ ⟨10, 2⟩).mem =
        Sample.b3.Encrypt (xorBlock (xorBlock
          (Sample.b2.Decrypt (Sample.b1.Encrypt (xorBlock (Slice.bytes ⟨10, 2⟩ Sample.mem) [1, 2])))
            [3, 4]) [5, 6]) ∧
      (cbc3Encrypter.CryptBlocks Sample.mode Sample.mem ⟨100, 2⟩ ⟨10, 2⟩).x.iv =
        Sample.b1.Encrypt (xorBlock (Slice.bytes ⟨10, 2⟩ Sample.mem) [1, 2]) ++
          Sample.b1.Encrypt (xorBlock (Slice.bytes ⟨10, 2⟩ Sample.mem) [1, 2]) ++
            Sample.b3.Encrypt (xorBlock (xorBlock
              (Sample.b2.Decrypt
                (Sample.b1.Encrypt (xorBlock (Slice.bytes ⟨10, 2⟩ Sample.mem) [1, 2])))
              [3, 4]) [5, 6]) :=
  encrypt_one_block Sample.mode Sample.mode_WF (by decide) [1, 2] [3, 4] [5, 6] rfl rfl rfl
    Sample.mem ⟨100, 2⟩ ⟨10, 2⟩ rfl (by decide) (by decide)

/-- C5 (decrypting one block).  For a decrypter with registers `r0 ++ r1 ++ r2`
and a source `c` of one block, `CryptBlocks` returns, writes `D1 c1 XOR r0` with
`c1 = E2 (D3 c XOR r2 XOR r1)` to the first block of the destination and nothing
else, and leaves the registers `c1 ++ c1 ++ c`: the last register is the
ciphertext block itself. -/
theorem decrypt_one_block (x : cbc) (hx : x.WF) (hpos : 0 < x.blockSize)
    (r0 r1 r2 : List Byte) (l0 : r0.length = x.blockSize) (l1 : r1.length = x.blockSize)
    (hiv : x.iv = r0 ++ r1 ++ r2)
    (m : Mem) (dst src : Slice) (hsrc : src.len = x.blockSize) (hdst : src.len ≤ dst.len)
    (hov : inexactOverlap (dst.take src.len) src = false) :
    (cbc3Decrypter.CryptBlocks x m dst src).status = .returned ∧
      (cbc3Decrypter.CryptBlocks x m dst src).mem =
        m.store dst.ptr (xorBlock (x.b1.Decrypt (x.b2.Encrypt
          (xorBlock (xorBlock (x.b3.Decrypt (src.bytes m)) r2) r1))) r0) ∧
      (dst.take x.blockSize).bytes (cbc3Decrypter.CryptBlocks x m dst src).mem =
        xorBlock (x.b1.Decrypt (x.b2.Encrypt
          (xorBlock (xorBlock (x.b3.Decrypt (src.bytes m)) r2) r1))) r0 ∧
      (cbc3Decrypter.CryptBlocks x m dst src).x.iv =
        x.b2.Encrypt (xorBlock (xorBlock (x.b3.Decrypt (src.bytes m)) r2) r1) ++
          x.b2.Encrypt (xorBlock (xorBlock (x.b3.Decrypt (src.bytes m)) r2) r1) ++
            src.bytes m := by
  rw [decrypter_CryptBlocks_eq x hx hpos m dst src 1 (by omega) hdst hov]
  have hP : (src.bytes m).length = x.blockSize := by rw [Slice.bytes_length, hsrc]
  have hout := (decryptBlock_length x hx _ hP).1
  have e : decryptBlock x (src.bytes m) =
      (xorBlock (x.b1.Decrypt (x.b2.Encrypt
          (xorBlock (xorBlock (x.b3.Decrypt (src.bytes m)) r2) r1))) r0,
        x.b2.Encrypt (xorBlock (xorBlock (x.b3.Decrypt (src.bytes m)) r2) r1) ++
          x.b2.Encrypt (xorBlock (xorBlock (x.b3.Decrypt (src.bytes m)) r2) r1) ++
            src.bytes m) := by
    unfold decryptBlock
    simp only
    rw [hiv, view_seg0 _ _ _ _ l0, view_seg1 _ _ _ _ l0 l1, view_seg2 _ _ _ _ l0 l1]
  rw [e] at hout
  simp only [decryptBlocks, List.append_nil, ← hP, List.take_length, e]
  simp only at hout
  rw [hP, Slice.bytes_take_store _ dst _ _ hout]
  refine ⟨?_, ?_, ?_, ?_⟩ <;> trivial

/-- The sample ciphers, mode and memory satisfy the hypotheses of the preceding theorem. -/
theorem decrypt_one_block_witness :
    (cbc3Decrypter.CryptBlocks Sample.mode Sample.mem ⟨100, 2⟩ ⟨10, 2⟩).status = .returned ∧
      (cbc3Decrypter.CryptBlocks Sample.mode Sample.mem ⟨100, 2⟩ ⟨10, 2⟩).mem =
        Sample.mem.store 100 (xorBlock (Sample.b1.Decrypt (Sample.b2.Encrypt
          (xorBlock (xorBlock (Sample.b3.Decrypt (Slice.bytes ⟨10, 2⟩ Sample.mem)) [5, 6])
            [3, 4]))) [1, 2]) ∧
      Slice.bytes ⟨100, 2⟩ (cbc3Decrypter.CryptBlocks Sample.mode Sample.mem ⟨100, 2⟩ ⟨10, 2⟩).mem =
        xorBlock (Sample.b1.Decrypt (Sample.b2.Encrypt
          (xorBlock (xorBlock (Sample.b3.Decrypt (Slice.bytes ⟨10, 2⟩ Sample.mem)) [5, 6])
            [3, 4]))) [1, 2] ∧
      (cbc3Decrypter.CryptBlocks Sample.mode Sample.mem ⟨100, 2⟩ ⟨10, 2⟩).x.iv =
        Sample.b2.Encrypt
            (xorBlock (xorBlock (Sample.b3.Decrypt (Slice.bytes ⟨10, 2⟩ Sample.mem)) [5, 6])
              [3, 4]) ++
          Sample.b2.Encrypt
            (xorBlock (xorBlock (Sample.b3.Decrypt (Slice.bytes ⟨10, 2⟩ Sample.mem)) [5, 6])
              [3, 4]) ++
            Slice.bytes ⟨10, 2⟩ Sample.mem :=
  decrypt_one_block Sample.mode Sample.mode_WF (by decide) [1, 2] [3, 4] [5, 6] rfl rfl rfl
    Sample.mem ⟨100, 2⟩ ⟨10, 2⟩ rfl (by decide) (by decide)

/-- C6 (streaming).  For an encrypter and for a decrypter: one call of
`CryptBlocks` on a source holding `A ++ B` (whole blocks each) writes the bytes, and
leaves the registers, that a call on a source holding `A` followed by a call of the
same instance on a source holding `B` write and leave.  The three calls may use any
memory and any valid buffers. -/
theorem streaming (x : cbc) (hx : x.WF) (hpos : 0 < x.blockSize)
    (A B : List Byte) (na nb : Nat) (hA : A.length = na * x.blockSize)
    (hB : B.length = nb * x.blockSize)
    (m : Mem) (dst src : Slice) (hsrc : src.bytes m = A ++ B) (hdst : src.len ≤ dst.len)
    (hov : inexactOverlap (dst.take src.len) src = false)
    (mA : Mem) (dstA srcA : Slice) (hsrcA : srcA.bytes mA = A) (hdstA : srcA.len ≤ dstA.len)
    (hovA : inexactOverlap (dstA.take srcA.len) srcA = false)
    (mB : Mem) (dstB srcB : Slice) (hsrcB : srcB.bytes mB = B) (hdstB : srcB.len ≤ dstB.len)
    (hovB : inexactOverlap (dstB.take srcB.len) srcB = false) :
    ((cbc3Encrypter.CryptBlocks x m dst src).status = .returned ∧
      (cbc3Encrypter.CryptBlocks x mA dstA srcA).status = .returned ∧
      (cbc3Encrypter.CryptBlocks (cbc3Encrypter.CryptBlocks x mA dstA srcA).x mB dstB
        srcB).status = .returned ∧
      (dst.take src.len).bytes (cbc3Encrypter.CryptBlocks x m dst src).mem =
        (dstA.take srcA.len).bytes (cbc3Encrypter.CryptBlocks x mA dstA srcA).mem ++
          (dstB.take srcB.len).bytes
            (cbc3Encrypter.CryptBlocks (cbc3Encrypter.CryptBlocks x mA dstA srcA).x mB dstB
              srcB).mem ∧
      (cbc3Encrypter.CryptBlocks x m dst src).x.iv =
        (cbc3Encrypter.CryptBlocks (cbc3Encrypter.CryptBlocks x mA dstA srcA).x mB dstB
          srcB).x.iv) ∧
    ((cbc3Decrypter.CryptBlocks x m dst src).status = .returned ∧
      (cbc3Decrypter.CryptBlocks x mA dstA srcA).status = .returned ∧
      (cbc3Decrypter.CryptBlocks (cbc3Decrypter.CryptBlocks x mA dstA srcA).x mB dstB
        srcB).status = .returned ∧
      (dst.take src.len).bytes (cbc3Decrypter.CryptBlocks x m dst src).mem =
        (dstA.take srcA.len).bytes (cbc3Decrypter.CryptBlocks x mA dstA srcA).mem ++
          (dstB.take srcB.len).bytes
            (cbc3Decrypter.CryptBlocks (cbc3Decrypter.CryptBlocks x mA dstA srcA).x mB dstB
              srcB).mem ∧
      (cbc3Decrypter.CryptBlocks x m dst src).x.iv =
        (cbc3Decrypter.CryptBlocks (cbc3Decrypter.CryptBlocks x mA dstA srcA).x mB dstB
          srcB).x.iv) := by
  have hlen : src.len = (na + nb) * x.blockSize := by
    rw [← Slice.bytes_length src m, hsrc, List.length_append, hA, hB, Nat.add_mul]
  have hlenA : srcA.len = na * x.blockSize := by rw [← Slice.bytes_length srcA mA, hsrcA, hA]
  have hlenB : srcB.len = nb * x.blockSize := by rw [← Slice.bytes_length srcB mB, hsrcB, hB]
  constructor
  · obtain ⟨s, ex, eb⟩ := encrypter_CryptBlocks_out x hx hpos m dst src _ hlen hdst hov
    obtain ⟨sA, exA, ebA⟩ :=
      encrypter_CryptBlocks_out x hx hpos mA dstA srcA _ hlenA hdstA hovA
    have hxA := (encryptBlocks_length na x A hx hA).2
    have hbsA := (encryptBlocks_fields na x A).2.2.2.1
    rw [hsrcA] at exA ebA
    rw [← hbsA] at hlenB hpos
    obtain ⟨sB, exB, ebB⟩ :=
      encrypter_CryptBlocks_out _ hxA hpos mB dstB srcB _ hlenB hdstB hovB
    rw [hsrcB] at exB ebB
    rw [exA]
    refine ⟨s, sA, sB, ?_, ?_⟩
    · rw [eb, ebA, ebB, hsrc, encryptBlocks_append na nb x A B hA]
    · rw [ex, exB, hsrc, encryptBlocks_append na nb x A B hA]
  · obtain ⟨s, ex, eb⟩ := decrypter_CryptBlocks_out x hx hpos m dst src _ hlen hdst hov
    obtain ⟨sA, exA, ebA⟩ :=
      decrypter_CryptBlocks_out x hx hpos mA dstA srcA _ hlenA hdstA hovA
    have hxA := (decryptBlocks_length na x A hx hA).2
    have hbsA := (decryptBlocks_fields na x A).2.2.2
    rw [hsrcA] at exA ebA
    rw [← hbsA] at hlenB hpos
    obtain ⟨sB, exB, ebB⟩ :=
      decrypter_CryptBlocks_out _ hxA hpos mB dstB srcB _ hlenB hdstB hovB
    rw [hsrcB] at exB ebB
    rw [exA]
    refine ⟨s, sA, sB, ?_, ?_⟩
    · rw [eb, ebA, ebB, hsrc, decryptBlocks_append na nb x A B hA]
    · rw [ex, exB, hsrc, decryptBlocks_append na nb x A B hA]

/-- The sample ciphers, mode and memory satisfy the hypotheses of the preceding theorem. -/
theorem streaming_witness :
    ((cbc3Encrypter.CryptBlocks Sample.mode Sample.mem ⟨100, 4⟩ ⟨10, 4⟩).status = .returned ∧
      (cbc3Encrypter.CryptBlocks Sample.mode Sample.mem ⟨100, 2⟩ ⟨10, 2⟩).status = .returned ∧
      (cbc3Encrypter.CryptBlocks
        (cbc3Encrypter.CryptBlocks Sample.mode Sample.mem ⟨100, 2⟩ ⟨10, 2⟩).x Sample.mem
        ⟨102, 2⟩ ⟨12, 2⟩).status = .returned ∧
      Slice.bytes ⟨100, 4⟩ (cbc3Encrypter.CryptBlocks Sample.mode Sample.mem ⟨100, 4⟩ ⟨10, 4⟩).mem =
        Slice.bytes ⟨100, 2⟩
            (cbc3Encrypter.CryptBlocks Sample.mode Sample.mem ⟨100, 2⟩ ⟨10, 2⟩).mem ++
          Slice.bytes ⟨102, 2⟩
            (cbc3Encrypter.CryptBlocks
              (cbc3Encrypter.CryptBlocks Sample.mode Sample.mem ⟨100, 2⟩ ⟨10, 2⟩).x Sample.mem
              ⟨102, 2⟩ ⟨12, 2⟩).mem ∧
      (cbc3Encrypter.CryptBlocks Sample.mode Sample.mem ⟨100, 4⟩ ⟨10, 4⟩).x.iv =
        (cbc3Encrypter.CryptBlocks
          (cbc3Encrypter.CryptBlocks Sample.mode Sample.mem ⟨100, 2⟩ ⟨10, 2⟩).x Sample.mem
          ⟨102, 2⟩ ⟨12, 2⟩).x.iv) ∧
    ((cbc3Decrypter.CryptBlocks Sample.mode Sample.mem ⟨100, 4⟩ ⟨10, 4⟩).status = .returned ∧
      (cbc3Decrypter.CryptBlocks Sample.mode Sample.mem ⟨100, 2⟩ ⟨10, 2⟩).status = .returned ∧
      (cbc3Decrypter.CryptBlocks
        (cbc3Decrypter.CryptBlocks Sample.mode Sample.mem ⟨100, 2⟩ ⟨10, 2⟩).x Sample.mem
        ⟨102, 2⟩ ⟨12, 2⟩).status = .returned ∧
      Slice.bytes ⟨100, 4⟩ (cbc3Decrypter.CryptBlocks Sample.mode Sample.mem ⟨100, 4⟩ ⟨10, 4⟩).mem =
        Slice.bytes ⟨100, 2⟩
            (cbc3Decrypter.CryptBlocks Sample.mode Sample.mem ⟨100, 2⟩ ⟨10, 2⟩).mem ++
          Slice.bytes ⟨102, 2⟩
            (cbc3Decrypter.CryptBlocks
              (cbc3Decrypter.CryptBlocks Sample.mode Sample.mem ⟨100, 2⟩ ⟨10, 2⟩).x Sample.mem
              ⟨102, 2⟩ ⟨12, 2⟩).mem ∧
      (cbc3Decrypter.CryptBlocks Sample.mode Sample.mem ⟨100, 4⟩ ⟨10, 4⟩).x.iv =
        (cbc3Decrypter.CryptBlocks
          (cbc3Decrypter.CryptBlocks Sample.mode Sample.mem ⟨100, 2⟩ ⟨10, 2⟩).x Sample.mem
          ⟨102, 2⟩ ⟨12, 2⟩).x.iv) :=
  streaming Sample.mode Sample.mode_WF (by decide) [171, 188] [205, 222] 1 1 rfl rfl
    Sample.mem ⟨100, 4⟩ ⟨10, 4⟩ (by decide) (by decide) (by decide)
    Sample.mem ⟨100, 2⟩ ⟨10, 2⟩ (by decide) (by decide) (by decide)
    Sample.mem ⟨102, 2⟩ ⟨12, 2⟩ (by decide) (by decide) (by decide)

/-- C7 (construction).  `NewEncrypter` and `NewDecrypter` fail exactly when the
three ciphers do not report one block size or `len(iv)` is not three times that
size; when they succeed, `BlockSize()` of the mode is that size and the registers
are a copy of `iv`.  The vector is a Go slice, so it is no longer than the largest
allocation. -/
theorem construction (b1 b2 b3 : Block) (iv : List Byte) (halloc : iv.length ≤ maxAlloc) :
    ((∃ e, NewEncrypter b1 b2 b3 iv = .error e) ↔
      (¬(b1.BlockSize = b2.BlockSize ∧ b1.BlockSize = b3.BlockSize) ∨
        (iv.length : Int) ≠ 3 * b1.BlockSize)) ∧
    ((∃ e, NewDecrypter b1 b2 b3 iv = .error e) ↔
      (¬(b1.BlockSize = b2.BlockSize ∧ b1.BlockSize = b3.BlockSize) ∨
        (iv.length : Int) ≠ 3 * b1.BlockSize)) ∧
    (∀ x, NewEncrypter b1 b2 b3 iv = .ok x →
      cbc3Encrypter.BlockSize x = b1.BlockSize ∧ x.iv = iv) ∧
    (∀ x, NewDecrypter b1 b2 b3 iv = .ok x →
      cbc3Decrypter.BlockSize x = b1.BlockSize ∧ x.iv = iv) := by
  refine ⟨⟨?_, NewEncrypter_error b1 b2 b3 iv⟩, ⟨?_, NewDecrypter_error b1 b2 b3 iv⟩, ?_, ?_⟩
  · rintro ⟨e, he⟩
    by_contra hc
    obtain ⟨h1, h2, h3, h4⟩ := sizes_nat b1 b2 b3 iv hc
    rw [NewEncrypter_ok b1 b2 b3 iv _ h1 h2 h3 h4 halloc] at he
    cases he
  · rintro ⟨e, he⟩
    by_contra hc
    obtain ⟨h1, h2, h3, h4⟩ := sizes_nat b1 b2 b3 iv hc
    rw [NewDecrypter_ok b1 b2 b3 iv _ h1 h2 h3 h4 halloc] at he
    cases he
  · intro x hx
    by_cases hc : ¬(b1.BlockSize = b2.BlockSize ∧ b1.BlockSize = b3.BlockSize) ∨
        (iv.length : Int) ≠ 3 * b1.BlockSize
    · obtain ⟨e, he⟩ := NewEncrypter_error b1 b2 b3 iv hc
      rw [he] at hx
      cases hx
    · obtain ⟨h1, h2, h3, h4⟩ := sizes_nat b1 b2 b3 iv hc
      rw [NewEncrypter_ok b1 b2 b3 iv _ h1 h2 h3 h4 halloc] at hx
      cases hx
      exact ⟨h1.symm, rfl⟩
  · intro x hx
    by_cases hc : ¬(b1.BlockSize = b2.BlockSize ∧ b1.BlockSize = b3.BlockSize) ∨
        (iv.length : Int) ≠ 3 * b1.BlockSize
    · obtain ⟨e, he⟩ := NewDecrypter_error b1 b2 b3 iv hc
      rw [he] at hx
      cases hx
    · obtain ⟨h1, h2, h3, h4⟩ := sizes_nat b1 b2 b3 iv hc
      rw [NewDecrypter_ok b1 b2 b3 iv _ h1 h2 h3 h4 halloc] at hx
      cases hx
      exact ⟨h1.symm, rfl⟩

/-- The sample ciphers, mode and memory satisfy the hypotheses of the preceding theorem. -/
theorem construction_witness :
    ((∃ e, NewEncrypter Sample.b1 Sample.b2 Sample.b3 Sample.iv = .error e) ↔
      (¬(Sample.b1.BlockSize = Sample.b2.BlockSize ∧
          Sample.b1.BlockSize = Sample.b3.BlockSize) ∨
        (Sample.iv.length : Int) ≠ 3 * Sample.b1.BlockSize)) ∧
    ((∃ e, NewDecrypter Sample.b1 Sample.b2 Sample.b3 Sample.iv = .error e) ↔
      (¬(Sample.b1.BlockSize = Sample.b2.BlockSize ∧
          Sample.b1.BlockSize = Sample.b3.BlockSize) ∨
        (Sample.iv.length : Int) ≠ 3 * Sample.b1.BlockSize)) ∧
    (∀ x, NewEncrypter Sample.b1 Sample.b2 Sample.b3 Sample.iv = .ok x →
      cbc3Encrypter.BlockSize x = Sample.b1.BlockSize ∧ x.iv = Sample.iv) ∧
    (∀ x, NewDecrypter Sample.b1 Sample.b2 Sample.b3 Sample.iv = .ok x →
      cbc3Decrypter.BlockSize x = Sample.b1.BlockSize ∧ x.iv = Sample.iv) :=
  construction Sample.b1 Sample.b2 Sample.b3 Sample.iv (by decide)

/-- C8 (rejection is atomic).  When `len(src)` is not a multiple of the block
size, or `len(dst) < len(src)`, or `dst[:len(src)]` and `src` overlap inexactly,
`CryptBlocks` of the encrypter and of the decrypter panics, and at that moment the
memory and the mode are what they were before the call. -/
theorem rejection_atomic (x : cbc) (m : Mem) (dst src : Slice)
    (h : ¬ x.blockSize ∣ src.len ∨ dst.len < src.len ∨
      inexactOverlap (dst.take src.len) src = true) :
    ((∃ msg, (cbc3Encrypter.CryptBlocks x m dst src).status = .panicked msg) ∧
      (cbc3Encrypter.CryptBlocks x m dst src).mem = m ∧
      (cbc3Encrypter.CryptBlocks x m dst src).x = x) ∧
    ((∃ msg, (cbc3Decrypter.CryptBlocks x m dst src).status = .panicked msg) ∧
      (cbc3Decrypter.CryptBlocks x m dst src).mem = m ∧
      (cbc3Decrypter.CryptBlocks x m dst src).x = x) := by
  unfold cbc3Encrypter.CryptBlocks cbc3Decrypter.CryptBlocks
  by_cases h0 : x.blockSize = 0
  · rw [if_pos h0, if_pos h0]
    exact ⟨⟨⟨_, rfl⟩, rfl, rfl⟩, ⟨_, rfl⟩, rfl, rfl⟩
  · rw [if_neg h0, if_neg h0]
    by_cases h1 : src.len % x.blockSize ≠ 0
    · rw [if_pos h1, if_pos h1]
      exact ⟨⟨⟨_, rfl⟩, rfl, rfl⟩, ⟨_, rfl⟩, rfl, rfl⟩
    · rw [if_neg h1, if_neg h1]
      by_cases h2 : dst.len < src.len
      · rw [if_pos h2, if_pos h2]
        exact ⟨⟨⟨_, rfl⟩, rfl, rfl⟩, ⟨_, rfl⟩, rfl, rfl⟩
      · rw [if_neg h2, if_neg h2]
        have h3 : inexactOverlap (dst.take src.len) src = true := by
          rcases h with h | h | h
          · exact absurd (Nat.dvd_of_mod_eq_zero (not_not.1 h1)) h
          · exact absurd h h2
          · exact h
        rw [if_pos h3, if_pos h3]
        exact ⟨⟨⟨_, rfl⟩, rfl, rfl⟩, ⟨_, rfl⟩, rfl, rfl⟩

/-- The sample ciphers, mode and memory satisfy the hypotheses of the preceding theorem. -/
theorem rejection_atomic_witness :
    ((∃ msg, (cbc3Encrypter.CryptBlocks Sample.mode Sample.mem ⟨100, 4⟩ ⟨10, 3⟩).status =
        .panicked msg) ∧
      (cbc3Encrypter.CryptBlocks Sample.mode Sample.mem ⟨100, 4⟩ ⟨10, 3⟩).mem = Sample.mem ∧
      (cbc3Encrypter.CryptBlocks Sample.mode Sample.mem ⟨100, 4⟩ ⟨10, 3⟩).x = Sample.mode) ∧
    ((∃ msg, (cbc3Decrypter.CryptBlocks Sample.mode Sample.mem ⟨100, 4⟩ ⟨10, 3⟩).status =
        .panicked msg) ∧
      (cbc3Decrypter.CryptBlocks Sample.mode Sample.mem ⟨100, 4⟩ ⟨10, 3⟩).mem = Sample.mem ∧
      (cbc3Decrypter.CryptBlocks Sample.mode Sample.mem ⟨100, 4⟩ ⟨10, 3⟩).x = Sample.mode) :=
  rejection_atomic Sample.mode Sample.mem ⟨100, 4⟩ ⟨10, 3⟩ (Or.inl (by decide))

/-- C9, as stated, fails: on the sample mode (block size 2) a call of
`CryptBlocks` with a source of length 0 returns normally, for the encrypter and for
the decrypter. -/
theorem empty_source_not_rejected :
    (cbc3Encrypter.CryptBlocks Sample.mode Sample.mem ⟨100, 0⟩ ⟨10, 0⟩).status = .returned ∧
    (cbc3Decrypter.CryptBlocks Sample.mode Sample.mem ⟨100, 0⟩ ⟨10, 0⟩).status = .returned := by
  decide

/-- C9, amended.  The length of the source must be a multiple of the block
size, zero included: on a mode of positive block size a call of `CryptBlocks` with
an empty source returns, and leaves the memory and the mode unchanged, for the
encrypter and for the decrypter. -/
theorem empty_source_accepted (x : cbc) (hx : x.WF) (hpos : 0 < x.blockSize) (m : Mem)
    (dst src : Slice) (hsrc : src.len = 0) :
    ((cbc3Encrypter.CryptBlocks x m dst src).status = .returned ∧
      (cbc3Encrypter.CryptBlocks x m dst src).mem = m ∧
      (cbc3Encrypter.CryptBlocks x m dst src).x = x) ∧
    ((cbc3Decrypter.CryptBlocks x m dst src).status = .returned ∧
      (cbc3Decrypter.CryptBlocks x m dst src).mem = m ∧
      (cbc3Decrypter.CryptBlocks x m dst src).x = x) := by
  have hov : inexactOverlap (dst.take src.len) src = false := by
    rw [inexactOverlap_eq_false]; exact Or.inr (Or.inl hsrc)
  rw [encrypter_CryptBlocks_eq x hx hpos m dst src 0 (by omega) (by omega) hov,
    decrypter_CryptBlocks_eq x hx hpos m dst src 0 (by omega) (by omega) hov]
  simp [encryptBlocks, decryptBlocks, Mem.store_nil]

/-- The sample ciphers, mode and memory satisfy the hypotheses of the preceding theorem. -/
theorem empty_source_accepted_witness :
    ((cbc3Encrypter.CryptBlocks Sample.mode Sample.mem ⟨100, 4⟩ ⟨10, 0⟩).status = .returned ∧
      (cbc3Encrypter.CryptBlocks Sample.mode Sample.mem ⟨100, 4⟩ ⟨10, 0⟩).mem = Sample.mem ∧
      (cbc3Encrypter.CryptBlocks Sample.mode Sample.mem ⟨100, 4⟩ ⟨10, 0⟩).x = Sample.mode) ∧
    ((cbc3Decrypter.CryptBlocks Sample.mode Sample.mem ⟨100, 4⟩ ⟨10, 0⟩).status = .returned ∧
      (cbc3Decrypter.CryptBlocks Sample.mode Sample.mem ⟨100, 4⟩ ⟨10, 0⟩).mem = Sample.mem ∧
      (cbc3Decrypter.CryptBlocks Sample.mode Sample.mem ⟨100, 4⟩ ⟨10, 0⟩).x = Sample.mode) :=
  empty_source_accepted Sample.mode Sample.mode_WF (by decide) Sample.mem ⟨100, 4⟩ ⟨10, 0⟩ rfl

/-- C10 (`SetIV`).  On an encrypter and on a decrypter `SetIV` panics exactly
when `len(iv)` differs from the length of the registers; when it panics the mode is
unchanged, and when it returns the registers equal `iv`. -/
theorem setIV_spec (x : cbc) (m : Mem) (iv : List Byte) :
    (((∃ msg, (cbc3Encrypter.SetIV x m iv).status = .panicked msg) ↔ iv.length ≠ x.iv.length) ∧
      (iv.length ≠ x.iv.length → (cbc3Encrypter.SetIV x m iv).x = x) ∧
      (iv.length = x.iv.length → (cbc3Encrypter.SetIV x m iv).status = .returned ∧
        (cbc3Encrypter.SetIV x m iv).x.iv = iv)) ∧
    (((∃ msg, (cbc3Decrypter.SetIV x m iv).status = .panicked msg) ↔ iv.length ≠ x.iv.length) ∧
      (iv.length ≠ x.iv.length → (cbc3Decrypter.SetIV x m iv).x = x) ∧
      (iv.length = x.iv.length → (cbc3Decrypter.SetIV x m iv).status = .returned ∧
        (cbc3Decrypter.SetIV x m iv).x.iv = iv)) := by
  unfold cbc3Encrypter.SetIV cbc3Decrypter.SetIV
  by_cases h : iv.length ≠ x.iv.length
  · simp [h]
  · have h2 : iv.length = x.iv.length := not_not.1 h
    simp [h2, goCopy_eq x.iv iv h2.symm]

/-! ## Rejected calls, and modes that chain alike -/

/-- A call that fails one of the checks panics, with a message that depends on the
block size and the slices only, and leaves mode and memory as they were. -/
theorem encrypter_rejects (bs : Nat) (m : Mem) (dst src : Slice)
    (h : bs = 0 ∨ src.len % bs ≠ 0 ∨ dst.len < src.len ∨
      inexactOverlap (dst.take src.len) src = true) :
    ∃ msg, ∀ y : cbc, y.blockSize = bs →
      cbc3Encrypter.CryptBlocks y m dst src = ⟨.panicked msg, y, m⟩ := by
  by_cases h0 : bs = 0
  · exact ⟨_, fun y hy => by unfold cbc3Encrypter.CryptBlocks; rw [if_pos (hy.trans h0)]⟩
  · by_cases h1 : src.len % bs ≠ 0
    · exact ⟨_, fun y hy => by
        unfold cbc3Encrypter.CryptBlocks; rw [hy, if_neg h0, if_pos h1]⟩
    · by_cases h2 : dst.len < src.len
      · exact ⟨_, fun y hy => by
          unfold cbc3Encrypter.CryptBlocks; rw [hy, if_neg h0, if_neg h1, if_pos h2]⟩
      · have h3 : inexactOverlap (dst.take src.len) src = true := by
          rcases h with h | h | h | h
          · exact absurd h h0
          · exact absurd h h1
          · exact absurd h h2
          · exact h
        exact ⟨_, fun y hy => by
          unfold cbc3Encrypter.CryptBlocks
          rw [hy, if_neg h0, if_neg h1, if_neg h2, if_pos h3]⟩

/-- The same for the decrypter. -/
theorem decrypter_rejects (bs : Nat) (m : Mem) (dst src : Slice)
    (h : bs = 0 ∨ src.len % bs ≠ 0 ∨ dst.len < src.len ∨
      inexactOverlap (dst.take src.len) src = true) :
    ∃ msg, ∀ y : cbc, y.blockSize = bs →
      cbc3Decrypter.CryptBlocks y m dst src = ⟨.panicked msg, y, m⟩ := by
  by_cases h0 : bs = 0
  · exact ⟨_, fun y hy => by unfold cbc3Decrypter.CryptBlocks; rw [if_pos (hy.trans h0)]⟩
  · by_cases h1 : src.len % bs ≠ 0
    · exact ⟨_, fun y hy => by
        unfold cbc3Decrypter.CryptBlocks; rw [hy, if_neg h0, if_pos h1]⟩
    · by_cases h2 : dst.len < src.len
      · exact ⟨_, fun y hy => by
          unfold cbc3Decrypter.CryptBlocks; rw [hy, if_neg h0, if_neg h1, if_pos h2]⟩
      · have h3 : inexactOverlap (dst.take src.len) src = true := by
          rcases h with h | h | h | h
          · exact absurd h h0
          · exact absurd h h1
          · exact absurd h h2
          · exact h
        exact ⟨_, fun y hy => by
          unfold cbc3Decrypter.CryptBlocks
          rw [hy, if_neg h0, if_neg h1, if_neg h2, if_pos h3]⟩

/-- Every call either fails a check or is one to which the `CryptBlocks_eq` theorems
apply. -/
theorem call_cases (bs : Nat) (dst src : Slice) :
    (bs = 0 ∨ src.len % bs ≠ 0 ∨ dst.len < src.len ∨
      inexactOverlap (dst.take src.len) src = true) ∨
    (0 < bs ∧ src.len = (src.len / bs) * bs ∧ src.len ≤ dst.len ∧
      inexactOverlap (dst.take src.len) src = false) := by
  by_cases h0 : bs = 0
  · exact Or.inl (Or.inl h0)
  by_cases h1 : src.len % bs ≠ 0
  · exact Or.inl (Or.inr (Or.inl h1))
  by_cases h2 : dst.len < src.len
  · exact Or.inl (Or.inr (Or.inr (Or.inl h2)))
  by_cases h3 : inexactOverlap (dst.take src.len) src = true
  · exact Or.inl (Or.inr (Or.inr (Or.inr h3)))
  · refine Or.inr ⟨by omega, ?_, by omega, by simpa using h3⟩
    exact (Nat.div_mul_cancel (Nat.dvd_of_mod_eq_zero (not_not.1 h1))).symm

theorem encryptBlock_congr (x y : cbc) (e1 : x.b1 = y.b1) (e2 : x.b2 = y.b2) (e3 : x.b3 = y.b3)
    (ebs : x.blockSize = y.blockSize) (eiv : x.iv = y.iv) (p : List Byte) :
    encryptBlock x p = encryptBlock y p := by
  unfold encryptBlock
  simp only [e1, e2, e3, ebs, eiv]

theorem decryptBlock_congr (x y : cbc) (e1 : x.b1 = y.b1) (e2 : x.b2 = y.b2) (e3 : x.b3 = y.b3)
    (ebs : x.blockSize = y.blockSize) (eiv : x.iv = y.iv) (p : List Byte) :
    decryptBlock x p = decryptBlock y p := by
  unfold decryptBlock
  simp only [e1, e2, e3, ebs, eiv]

theorem encryptBlocks_congr (n : Nat) : ∀ (x y : cbc) (data : List Byte), x.b1 = y.b1 →
    x.b2 = y.b2 → x.b3 = y.b3 → x.blockSize = y.blockSize → x.iv = y.iv →
    (encryptBlocks n x data).1 = (encryptBlocks n y data).1 ∧
      (encryptBlocks n x data).2.iv = (encryptBlocks n y data).2.iv := by
  induction n with
  | zero => intro x y data _ _ _ _ eiv; exact ⟨rfl, eiv⟩
  | succ n ih =>
    intro x y data e1 e2 e3 ebs eiv
    simp only [encryptBlocks]
    rw [encryptBlock_congr x y e1 e2 e3 ebs eiv, ebs]
    have h := ih { x with iv := (encryptBlock y (List.take y.blockSize data)).2 }
      { y with iv := (encryptBlock y (List.take y.blockSize data)).2 }
      (List.drop y.blockSize data) e1 e2 e3 ebs rfl
    simp only [ebs] at h
    exact ⟨by rw [h.1], h.2⟩

theorem decryptBlocks_congr (n : Nat) : ∀ (x y : cbc) (data : List Byte), x.b1 = y.b1 →
    x.b2 = y.b2 → x.b3 = y.b3 → x.blockSize = y.blockSize → x.iv = y.iv →
    (decryptBlocks n x data).1 = (decryptBlocks n y data).1 ∧
      (decryptBlocks n x data).2.iv = (decryptBlocks n y data).2.iv := by
  induction n with
  | zero => intro x y data _ _ _ _ eiv; exact ⟨rfl, eiv⟩
  | succ n ih =>
    intro x y data e1 e2 e3 ebs eiv
    simp only [decryptBlocks]
    rw [decryptBlock_congr x y e1 e2 e3 ebs eiv, ebs]
    have h := ih { x with iv := (decryptBlock y (List.take y.blockSize data)).2,
                          tmp := List.take y.blockSize data }
      { y with iv := (decryptBlock y (List.take y.blockSize data)).2,
               tmp := List.take y.blockSize data }
      (List.drop y.blockSize data) e1 e2 e3 ebs rfl
    simp only [ebs] at h
    exact ⟨by rw [h.1], h.2⟩

/-! ## C11: restarting the chaining -/

/-- One call on two modes that chain alike: the caller sees the same, and the modes
chain alike afterwards. -/
theorem encrypter_call_agree (u v : cbc) (huv : u.Agree v) (hu : u.WF) (hv : v.WF) (m : Mem)
    (dst src : Slice) :
    (cbc3Encrypter.CryptBlocks u m dst src).seen = (cbc3Encrypter.CryptBlocks v m dst src).seen ∧
      (cbc3Encrypter.CryptBlocks u m dst src).x.Agree (cbc3Encrypter.CryptBlocks v m dst src).x ∧
      (cbc3Encrypter.CryptBlocks u m dst src).x.WF ∧
      (cbc3Encrypter.CryptBlocks v m dst src).x.WF := by
  rcases call_cases u.blockSize dst src with h | ⟨hpos, hlen, hdst, hov⟩
  · obtain ⟨msg, hmsg⟩ := encrypter_rejects u.blockSize m dst src h
    rw [hmsg u rfl, hmsg v huv.blockSize.symm]
    exact ⟨by simp only [Outcome.seen, huv.iv], huv, hu, hv⟩
  · have hlen' := hlen
    have hpos' := hpos
    rw [huv.blockSize] at hlen' hpos'
    rw [encrypter_CryptBlocks_eq u hu hpos m dst src _ hlen hdst hov,
      encrypter_CryptBlocks_eq v hv hpos' m dst src _ hlen' hdst hov]
    have hc := encryptBlocks_congr (src.len / u.blockSize) u v (src.bytes m) huv.b1 huv.b2 huv.b3
      huv.blockSize huv.iv
    have hfu := encryptBlocks_fields (src.len / u.blockSize) u (src.bytes m)
    have hfv := encryptBlocks_fields (src.len / u.blockSize) v (src.bytes m)
    have hP : (src.bytes m).length = src.len / u.blockSize * u.blockSize := by
      rw [Slice.bytes_length]; exact hlen
    have hP' : (src.bytes m).length = src.len / u.blockSize * v.blockSize := by
      rw [← huv.blockSize]; exact hP
    rw [← huv.blockSize]
    refine ⟨?_, ⟨?_, ?_, ?_, ?_, hc.2⟩, (encryptBlocks_length _ u _ hu hP).2,
      (encryptBlocks_length _ v _ hv hP').2⟩
    · simp only [Outcome.seen, hc.1, hc.2]
    · rw [hfu.1, hfv.1, huv.b1]
    · rw [hfu.2.1, hfv.2.1, huv.b2]
    · rw [hfu.2.2.1, hfv.2.2.1, huv.b3]
    · rw [hfu.2.2.2.1, hfv.2.2.2.1, huv.blockSize]

/-- The same for the decrypter. -/
theorem decrypter_call_agree (u v : cbc) (huv : u.Agree v) (hu : u.WF) (hv : v.WF) (m : Mem)
    (dst src : Slice) :
    (cbc3Decrypter.CryptBlocks u m dst src).seen = (cbc3Decrypter.CryptBlocks v m dst src).seen ∧
      (cbc3Decrypter.CryptBlocks u m dst src).x.Agree (cbc3Decrypter.CryptBlocks v m dst src).x ∧
      (cbc3Decrypter.CryptBlocks u m dst src).x.WF ∧
      (cbc3Decrypter.CryptBlocks v m dst src).x.WF := by
  rcases call_cases u.blockSize dst src with h | ⟨hpos, hlen, hdst, hov⟩
  · obtain ⟨msg, hmsg⟩ := decrypter_rejects u.blockSize m dst src h
    rw [hmsg u rfl, hmsg v huv.blockSize.symm]
    exact ⟨by simp only [Outcome.seen, huv.iv], huv, hu, hv⟩
  · have hlen' := hlen
    have hpos' := hpos
    rw [huv.blockSize] at hlen' hpos'
    rw [decrypter_CryptBlocks_eq u hu hpos m dst src _ hlen hdst hov,
      decrypter_CryptBlocks_eq v hv hpos' m dst src _ hlen' hdst hov]
    have hc := decryptBlocks_congr (src.len / u.blockSize) u v (src.bytes m) huv.b1 huv.b2 huv.b3
      huv.blockSize huv.iv
    have hfu := decryptBlocks_fields (src.len / u.blockSize) u (src.bytes m)
    have hfv := decryptBlocks_fields (src.len / u.blockSize) v (src.bytes m)
    have hP : (src.bytes m).length = src.len / u.blockSize * u.blockSize := by
      rw [Slice.bytes_length]; exact hlen
    have hP' : (src.bytes m).length = src.len / u.blockSize * v.blockSize := by
      rw [← huv.blockSize]; exact hP
    rw [← huv.blockSize]
    refine ⟨?_, ⟨?_, ?_, ?_, ?_, hc.2⟩, (decryptBlocks_length _ u _ hu hP).2,
      (decryptBlocks_length _ v _ hv hP').2⟩
    · simp only [Outcome.seen, hc.1, hc.2]
    · rw [hfu.1, hfv.1, huv.b1]
    · rw [hfu.2.1, hfv.2.1, huv.b2]
    · rw [hfu.2.2.1, hfv.2.2.1, huv.b3]
    · rw [hfu.2.2.2, hfv.2.2.2, huv.blockSize]

theorem encrypter_calls_agree (cs : List (Mem × Slice × Slice)) : ∀ (u v : cbc), u.Agree v →
    u.WF → v.WF →
    (cbc3Encrypter.calls u cs).map Outcome.seen = (cbc3Encrypter.calls v cs).map Outcome.seen := by
  induction cs with
  | nil => intro u v _ _ _; rfl
  | cons c rest ih =>
    intro u v huv hu hv
    obtain ⟨hs, ha, hwu, hwv⟩ := encrypter_call_agree u v huv hu hv c.1 c.2.1 c.2.2
    simp only [cbc3Encrypter.calls, List.map_cons, hs, ih _ _ ha hwu hwv]

theorem decrypter_calls_agree (cs : List (Mem × Slice × Slice)) : ∀ (u v : cbc), u.Agree v →
    u.WF → v.WF →
    (cbc3Decrypter.calls u cs).map Outcome.seen = (cbc3Decrypter.calls v cs).map Outcome.seen := by
  induction cs with
  | nil => intro u v _ _ _; rfl
  | cons c rest ih =>
    intro u v huv hu hv
    obtain ⟨hs, ha, hwu, hwv⟩ := decrypter_call_agree u v huv hu hv c.1 c.2.1 c.2.2
    simp only [cbc3Decrypter.calls, List.map_cons, hs, ih _ _ ha hwu hwv]

/-- C11 (`SetIV` restarts chaining).  On any mode, whatever it has processed, a
`SetIV(iv)` with a vector of the length of the registers returns, the constructor
succeeds on the same three ciphers and `iv`, and from then on every sequence of
`CryptBlocks` calls shows the caller the same on the two instances: the same
result, memory and registers after every call. -/
theorem setIV_restarts (x : cbc) (hx : x.WF) (m0 : Mem) (iv : List Byte)
    (hiv : iv.length = x.iv.length) (halloc : iv.length ≤ maxAlloc) :
    (∃ y, NewEncrypter x.b1 x.b2 x.b3 iv = .ok y ∧
      (cbc3Encrypter.SetIV x m0 iv).status = .returned ∧
      ∀ cs : List (Mem × Slice × Slice),
        (cbc3Encrypter.calls (cbc3Encrypter.SetIV x m0 iv).x cs).map Outcome.seen =
          (cbc3Encrypter.calls y cs).map Outcome.seen) ∧
    (∃ y, NewDecrypter x.b1 x.b2 x.b3 iv = .ok y ∧
      (cbc3Decrypter.SetIV x m0 iv).status = .returned ∧
      ∀ cs : List (Mem × Slice × Slice),
        (cbc3Decrypter.calls (cbc3Decrypter.SetIV x m0 iv).x cs).map Outcome.seen =
          (cbc3Decrypter.calls y cs).map Outcome.seen) := by
  have hlen : iv.length = 3 * x.blockSize := by rw [hiv, hx.iv_length]
  have hy := WF_new x.b1 x.b2 x.b3 iv x.blockSize hx.size1 hx.size2 hx.size3 hlen
  have hset : cbc3Encrypter.SetIV x m0 iv = ⟨.returned, { x with iv := iv }, m0⟩ := by
    unfold cbc3Encrypter.SetIV
    rw [if_neg (by simp [hiv]), goCopy_eq x.iv iv hiv.symm]
  have hset' : cbc3Decrypter.SetIV x m0 iv = ⟨.returned, { x with iv := iv }, m0⟩ := by
    unfold cbc3Decrypter.SetIV
    rw [if_neg (by simp [hiv]), goCopy_eq x.iv iv hiv.symm]
  have hw : cbc.WF { x with iv := iv } := ⟨hlen, hx.tmp_length, hx.size1, hx.size2, hx.size3⟩
  constructor
  · refine ⟨_, NewEncrypter_ok x.b1 x.b2 x.b3 iv x.blockSize hx.size1 hx.size2 hx.size3 hlen
      halloc, ?_, ?_⟩
    · rw [hset]
    · intro cs
      rw [hset]
      exact encrypter_calls_agree cs _ _ ⟨rfl, rfl, rfl, rfl, rfl⟩ hw hy
  · refine ⟨_, NewDecrypter_ok x.b1 x.b2 x.b3 iv x.blockSize hx.size1 hx.size2 hx.size3 hlen
      halloc, ?_, ?_⟩
    · rw [hset']
    · intro cs
      rw [hset']
      exact decrypter_calls_agree cs _ _ ⟨rfl, rfl, rfl, rfl, rfl⟩ hw hy

/-- C11 on the sample mode and a new six-byte vector. -/
theorem setIV_restarts_witness :
    (∃ y, NewEncrypter Sample.mode.b1 Sample.mode.b2 Sample.mode.b3 [9, 8, 7, 6, 5, 4] = .ok y ∧
      (cbc3Encrypter.SetIV Sample.mode Sample.mem [9, 8, 7, 6, 5, 4]).status = .returned ∧
      ∀ cs : List (Mem × Slice × Slice),
        (cbc3Encrypter.calls (cbc3Encrypter.SetIV Sample.mode Sample.mem [9, 8, 7, 6, 5, 4]).x
          cs).map Outcome.seen = (cbc3Encrypter.calls y cs).map Outcome.seen) ∧
    (∃ y, NewDecrypter Sample.mode.b1 Sample.mode.b2 Sample.mode.b3 [9, 8, 7, 6, 5, 4] = .ok y ∧
      (cbc3Decrypter.SetIV Sample.mode Sample.mem [9, 8, 7, 6, 5, 4]).status = .returned ∧
      ∀ cs : List (Mem × Slice × Slice),
        (cbc3Decrypter.calls (cbc3Decrypter.SetIV Sample.mode Sample.mem [9, 8, 7, 6, 5, 4]).x
          cs).map Outcome.seen = (cbc3Decrypter.calls y cs).map Outcome.seen) :=
  setIV_restarts Sample.mode Sample.mode_WF Sample.mem [9, 8, 7, 6, 5, 4] (by decide) (by decide)

/-! ## C12, C16, C18: aliasing and the frame of a call -/

theorem disjoint_no_overlap (dst src : Slice)
    (h : dst.ptr + src.len ≤ src.ptr ∨ src.ptr + src.len ≤ dst.ptr) :
    inexactOverlap (dst.take src.len) src = false := by
  rw [inexactOverlap_eq_false]
  simp only [Slice.take]
  omega

theorem same_no_overlap (buf : Slice) : inexactOverlap (buf.take buf.len) buf = false := by
  rw [inexactOverlap_eq_false]
  exact Or.inr (Or.inr (Or.inl rfl))

/-- C12 (in-place safety).  For an encrypter and for a decrypter: a call of
`CryptBlocks(buf, buf)` on a buffer of whole blocks returns, and leaves in `buf`
the bytes, and in the registers the values, that a call with a source holding the
original contents of `buf` and a destination apart from it leaves in the
destination and in the registers. -/
theorem in_place (x : cbc) (hx : x.WF) (hpos : 0 < x.blockSize) (m : Mem) (buf : Slice)
    (n : Nat) (hbuf : buf.len = n * x.blockSize) (m2 : Mem) (dst src : Slice)
    (hsrc : src.bytes m2 = buf.bytes m) (hdst : src.len ≤ dst.len)
    (hdis : dst.ptr + src.len ≤ src.ptr ∨ src.ptr + src.len ≤ dst.ptr) :
    ((cbc3Encrypter.CryptBlocks x m buf buf).status = .returned ∧
      (cbc3Encrypter.CryptBlocks x m2 dst src).status = .returned ∧
      buf.bytes (cbc3Encrypter.CryptBlocks x m buf buf).mem =
        (dst.take src.len).bytes (cbc3Encrypter.CryptBlocks x m2 dst src).mem ∧
      (cbc3Encrypter.CryptBlocks x m buf buf).x.iv =
        (cbc3Encrypter.CryptBlocks x m2 dst src).x.iv) ∧
    ((cbc3Decrypter.CryptBlocks x m buf buf).status = .returned ∧
      (cbc3Decrypter.CryptBlocks x m2 dst src).status = .returned ∧
      buf.bytes (cbc3Decrypter.CryptBlocks x m buf buf).mem =
        (dst.take src.len).bytes (cbc3Decrypter.CryptBlocks x m2 dst src).mem ∧
      (cbc3Decrypter.CryptBlocks x m buf buf).x.iv =
        (cbc3Decrypter.CryptBlocks x m2 dst src).x.iv) := by
  have hlen : src.len = n * x.blockSize := by
    rw [← Slice.bytes_length src m2, hsrc, Slice.bytes_length, hbuf]
  have hb : buf.take buf.len = buf := rfl
  constructor
  · obtain ⟨s1, x1, b1⟩ := encrypter_CryptBlocks_out x hx hpos m buf buf n hbuf (le_refl _)
      (same_no_overlap buf)
    obtain ⟨s2, x2, b2⟩ := encrypter_CryptBlocks_out x hx hpos m2 dst src n hlen hdst
      (disjoint_no_overlap dst src hdis)
    rw [hb] at b1
    rw [hsrc] at x2 b2
    exact ⟨s1, s2, by rw [b1, b2], by rw [x1, x2]⟩
  · obtain ⟨s1, x1, b1⟩ := decrypter_CryptBlocks_out x hx hpos m buf buf n hbuf (le_refl _)
      (same_no_overlap buf)
    obtain ⟨s2, x2, b2⟩ := decrypter_CryptBlocks_out x hx hpos m2 dst src n hlen hdst
      (disjoint_no_overlap dst src hdis)
    rw [hb] at b1
    rw [hsrc] at x2 b2
    exact ⟨s1, s2, by rw [b1, b2], by rw [x1, x2]⟩

/-- C12 on the sample mode: four bytes in place at address 10, and from 10 to 100. -/
theorem in_place_witness :
    ((cbc3Encrypter.CryptBlocks Sample.mode Sample.mem ⟨10, 4⟩ ⟨10, 4⟩).status = .returned ∧
      (cbc3Encrypter.CryptBlocks Sample.mode Sample.mem ⟨100, 4⟩ ⟨10, 4⟩).status = .returned ∧
      Slice.bytes ⟨10, 4⟩ (cbc3Encrypter.CryptBlocks Sample.mode Sample.mem ⟨10, 4⟩ ⟨10, 4⟩).mem =
        Slice.bytes ⟨100, 4⟩
          (cbc3Encrypter.CryptBlocks Sample.mode Sample.mem ⟨100, 4⟩ ⟨10, 4⟩).mem ∧
      (cbc3Encrypter.CryptBlocks Sample.mode Sample.mem ⟨10, 4⟩ ⟨10, 4⟩).x.iv =
        (cbc3Encrypter.CryptBlocks Sample.mode Sample.mem ⟨100, 4⟩ ⟨10, 4⟩).x.iv) ∧
    ((cbc3Decrypter.CryptBlocks Sample.mode Sample.mem ⟨10, 4⟩ ⟨10, 4⟩).status = .returned ∧
      (cbc3Decrypter.CryptBlocks Sample.mode Sample.mem ⟨100, 4⟩ ⟨10, 4⟩).status = .returned ∧
      Slice.bytes ⟨10, 4⟩ (cbc3Decrypter.CryptBlocks Sample.mode Sample.mem ⟨10, 4⟩ ⟨10, 4⟩).mem =
        Slice.bytes ⟨100, 4⟩
          (cbc3Decrypter.CryptBlocks Sample.mode Sample.mem ⟨100, 4⟩ ⟨10, 4⟩).mem ∧
      (cbc3Decrypter.CryptBlocks Sample.mode Sample.mem ⟨10, 4⟩ ⟨10, 4⟩).x.iv =
        (cbc3Decrypter.CryptBlocks Sample.mode Sample.mem ⟨100, 4⟩ ⟨10, 4⟩).x.iv) :=
  in_place Sample.mode Sample.mode_WF (by decide) Sample.mem ⟨10, 4⟩ 2 (by decide)
    Sample.mem ⟨100, 4⟩ ⟨10, 4⟩ rfl (by decide) (by decide)

/-- C16 (frame of a successful call).  For an encrypter and for a decrypter, a
call on a source of whole blocks with a destination at least as long and disjoint
from the source returns, and only the first `len(src)` bytes of `dst` are written:
memory is unchanged at every address outside them, in particular the bytes of
`dst` from index `len(src)` on and all bytes of `src`. -/
theorem frame (x : cbc) (hx : x.WF) (hpos : 0 < x.blockSize) (m : Mem) (dst src : Slice)
    (n : Nat) (hlen : src.len = n * x.blockSize) (hdst : src.len ≤ dst.len)
    (hdis : dst.ptr + dst.len ≤ src.ptr ∨ src.ptr + src.len ≤ dst.ptr) :
    ((cbc3Encrypter.CryptBlocks x m dst src).status = .returned ∧
      (∀ a, a < dst.ptr ∨ dst.ptr + src.len ≤ a →
        (cbc3Encrypter.CryptBlocks x m dst src).mem a = m a) ∧
      (dst.drop src.len).bytes (cbc3Encrypter.CryptBlocks x m dst src).mem =
        (dst.drop src.len).bytes m ∧
      src.bytes (cbc3Encrypter.CryptBlocks x m dst src).mem = src.bytes m) ∧
    ((cbc3Decrypter.CryptBlocks x m dst src).status = .returned ∧
      (∀ a, a < dst.ptr ∨ dst.ptr + src.len ≤ a →
        (cbc3Decrypter.CryptBlocks x m dst src).mem a = m a) ∧
      (dst.drop src.len).bytes (cbc3Decrypter.CryptBlocks x m dst src).mem =
        (dst.drop src.len).bytes m ∧
      src.bytes (cbc3Decrypter.CryptBlocks x m dst src).mem = src.bytes m) := by
  have hov := disjoint_no_overlap dst src (by omega)
  have hP : (src.bytes m).length = n * x.blockSize := by rw [Slice.bytes_length, hlen]
  have hE := (encryptBlocks_length n x (src.bytes m) hx hP).1
  have hD := (decryptBlocks_length n x (src.bytes m) hx hP).1
  rw [← hlen] at hE hD
  rw [encrypter_CryptBlocks_eq x hx hpos m dst src n hlen hdst hov,
    decrypter_CryptBlocks_eq x hx hpos m dst src n hlen hdst hov]
  simp only [Slice.bytes, Slice.drop] at hE hD ⊢
  refine ⟨⟨trivial, ?_, ?_, ?_⟩, trivial, ?_, ?_, ?_⟩
  · intro a ha
    exact Mem.store_apply_out _ _ _ _ (by rw [hE]; exact ha)
  · exact Mem.load_store_disjoint _ _ _ _ _ (by rw [hE]; omega)
  · exact Mem.load_store_disjoint _ _ _ _ _ (by rw [hE]; omega)
  · intro a ha
    exact Mem.store_apply_out _ _ _ _ (by rw [hD]; exact ha)
  · exact Mem.load_store_disjoint _ _ _ _ _ (by rw [hD]; omega)
  · exact Mem.load_store_disjoint _ _ _ _ _ (by rw [hD]; omega)

/-- C16 on the sample mode: four bytes from address 10 to a six-byte destination. -/
theorem frame_witness :
    ((cbc3Encrypter.CryptBlocks Sample.mode Sample.mem ⟨100, 6⟩ ⟨10, 4⟩).status = .returned ∧
      (∀ a, a < 100 ∨ 100 + 4 ≤ a →
        (cbc3Encrypter.CryptBlocks Sample.mode Sample.mem ⟨100, 6⟩ ⟨10, 4⟩).mem a = Sample.mem a) ∧
      Slice.bytes ⟨104, 2⟩ (cbc3Encrypter.CryptBlocks Sample.mode Sample.mem ⟨100, 6⟩ ⟨10, 4⟩).mem =
        Slice.bytes ⟨104, 2⟩ Sample.mem ∧
      Slice.bytes ⟨10, 4⟩ (cbc3Encrypter.CryptBlocks Sample.mode Sample.mem ⟨100, 6⟩ ⟨10, 4⟩).mem =
        Slice.bytes ⟨10, 4⟩ Sample.mem) ∧
    ((cbc3Decrypter.CryptBlocks Sample.mode Sample.mem ⟨100, 6⟩ ⟨10, 4⟩).status = .returned ∧
      (∀ a, a < 100 ∨ 100 + 4 ≤ a →
        (cbc3Decrypter.CryptBlocks Sample.mode Sample.mem ⟨100, 6⟩ ⟨10, 4⟩).mem a = Sample.mem a) ∧
      Slice.bytes ⟨104, 2⟩ (cbc3Decrypter.CryptBlocks Sample.mode Sample.mem ⟨100, 6⟩ ⟨10, 4⟩).mem =
        Slice.bytes ⟨104, 2⟩ Sample.mem ∧
      Slice.bytes ⟨10, 4⟩ (cbc3Decrypter.CryptBlocks Sample.mode Sample.mem ⟨100, 6⟩ ⟨10, 4⟩).mem =
        Slice.bytes ⟨10, 4⟩ Sample.mem) :=
  frame Sample.mode Sample.mode_WF (by decide) Sample.mem ⟨100, 6⟩ ⟨10, 4⟩ 2 (by decide)
    (by decide) (by decide)

/-- C18 (`inexactOverlap`).  On slices seen as address ranges, `inexactOverlap`
is true exactly when both slices are non-empty, their first addresses differ and
some address lies in both ranges; it is false for two slices with the same first
address, whatever their lengths. -/
theorem inexactOverlap_spec (x y : Slice) :
    (inexactOverlap x y = true ↔
      0 < x.len ∧ 0 < y.len ∧ x.ptr ≠ y.ptr ∧
        ∃ a, x.ptr ≤ a ∧ a < x.ptr + x.len ∧ y.ptr ≤ a ∧ a < y.ptr + y.len) ∧
    (∀ p n k : Nat, inexactOverlap ⟨p, n⟩ ⟨p, k⟩ = false) := by
  constructor
  · constructor
    · intro h
      have hf : ¬ inexactOverlap x y = false := by simp [h]
      rw [inexactOverlap_eq_false] at hf
      refine ⟨by omega, by omega, by omega, max x.ptr y.ptr, ?_, ?_, ?_, ?_⟩ <;> omega
    · rintro ⟨hx, hy, hne, a, h1, h2, h3, h4⟩
      have hf : ¬ inexactOverlap x y = false := by
        rw [inexactOverlap_eq_false]
        omega
      simpa using hf
  · intro p n k
    rw [inexactOverlap_eq_false]
    exact Or.inr (Or.inr (Or.inl rfl))

/-! ## C13: overlapping buffers -/

/-- Two slices that share a byte and do not start at the same address overlap
inexactly. -/
theorem inexactOverlap_of_shared (x y : Slice) (hne : x.ptr ≠ y.ptr)
    (hsh : ∃ a, x.ptr ≤ a ∧ a < x.ptr + x.len ∧ y.ptr ≤ a ∧ a < y.ptr + y.len) :
    inexactOverlap x y = true := by
  obtain ⟨a, h1, h2, h3, h4⟩ := hsh
  have hf : ¬ inexactOverlap x y = false := by
    rw [inexactOverlap_eq_false]
    omega
  simpa using hf

/-- C13, as stated, fails.  On the sample mode the destination `[10, 16)` and the
source `[14, 16)` share two bytes and are not the same buffer, yet both modes
accept the call, and the encrypter writes to the first two bytes of the
destination.  Likewise for the destination `[10, 14)` and the source `[10, 12)`,
which start together and differ in length. -/
theorem partial_overlap_not_rejected :
    ((∃ a, 10 ≤ a ∧ a < 10 + 6 ∧ 14 ≤ a ∧ a < 14 + 2) ∧ (⟨10, 6⟩ : Slice) ≠ ⟨14, 2⟩ ∧
      (cbc3Encrypter.CryptBlocks Sample.mode Sample.mem ⟨10, 6⟩ ⟨14, 2⟩).status = .returned ∧
      (cbc3Decrypter.CryptBlocks Sample.mode Sample.mem ⟨10, 6⟩ ⟨14, 2⟩).status = .returned ∧
      Slice.bytes ⟨10, 2⟩ (cbc3Encrypter.CryptBlocks Sample.mode Sample.mem ⟨10, 6⟩ ⟨14, 2⟩).mem ≠
        Slice.bytes ⟨10, 2⟩ Sample.mem) ∧
    ((∃ a, 10 ≤ a ∧ a < 10 + 4 ∧ 10 ≤ a ∧ a < 10 + 2) ∧ (⟨10, 4⟩ : Slice) ≠ ⟨10, 2⟩ ∧
      (cbc3Encrypter.CryptBlocks Sample.mode Sample.mem ⟨10, 4⟩ ⟨10, 2⟩).status = .returned ∧
      (cbc3Decrypter.CryptBlocks Sample.mode Sample.mem ⟨10, 4⟩ ⟨10, 2⟩).status = .returned) :=
  ⟨⟨⟨14, by decide⟩, by decide, by decide, by decide, by decide⟩,
    ⟨10, by decide⟩, by decide, by decide, by decide⟩

/-- C13, amended.  When `dst[:len(src)]` and `src` share a byte of memory and do
not start at the same address, `CryptBlocks` of the encrypter and of the decrypter
panics, and memory and mode are then what they were before the call. -/
theorem overlap_rejected (x : cbc) (m : Mem) (dst src : Slice) (hne : dst.ptr ≠ src.ptr)
    (hsh : ∃ a, dst.ptr ≤ a ∧ a < dst.ptr + src.len ∧ src.ptr ≤ a ∧ a < src.ptr + src.len) :
    ((∃ msg, (cbc3Encrypter.CryptBlocks x m dst src).status = .panicked msg) ∧
      (cbc3Encrypter.CryptBlocks x m dst src).mem = m ∧
      (cbc3Encrypter.CryptBlocks x m dst src).x = x) ∧
    ((∃ msg, (cbc3Decrypter.CryptBlocks x m dst src).status = .panicked msg) ∧
      (cbc3Decrypter.CryptBlocks x m dst src).mem = m ∧
      (cbc3Decrypter.CryptBlocks x m dst src).x = x) := by
  have hov : inexactOverlap (dst.take src.len) src = true :=
    inexactOverlap_of_shared (dst.take src.len) src hne hsh
  obtain ⟨msg, hmsg⟩ := encrypter_rejects x.blockSize m dst src (Or.inr (Or.inr (Or.inr hov)))
  obtain ⟨msg', hmsg'⟩ := decrypter_rejects x.blockSize m dst src (Or.inr (Or.inr (Or.inr hov)))
  rw [hmsg x rfl, hmsg' x rfl]
  exact ⟨⟨⟨msg, rfl⟩, rfl, rfl⟩, ⟨msg', rfl⟩, rfl, rfl⟩

/-- C13, amended, on the sample mode: destination `[12, 16)`, source `[10, 14)`. -/
theorem overlap_rejected_witness :
    ((∃ msg, (cbc3Encrypter.CryptBlocks Sample.mode Sample.mem ⟨12, 4⟩ ⟨10, 4⟩).status =
        .panicked msg) ∧
      (cbc3Encrypter.CryptBlocks Sample.mode Sample.mem ⟨12, 4⟩ ⟨10, 4⟩).mem = Sample.mem ∧
      (cbc3Encrypter.CryptBlocks Sample.mode Sample.mem ⟨12, 4⟩ ⟨10, 4⟩).x = Sample.mode) ∧
    ((∃ msg, (cbc3Decrypter.CryptBlocks Sample.mode Sample.mem ⟨12, 4⟩ ⟨10, 4⟩).status =
        .panicked msg) ∧
      (cbc3Decrypter.CryptBlocks Sample.mode Sample.mem ⟨12, 4⟩ ⟨10, 4⟩).mem = Sample.mem ∧
      (cbc3Decrypter.CryptBlocks Sample.mode Sample.mem ⟨12, 4⟩ ⟨10, 4⟩).x = Sample.mode) :=
  overlap_rejected Sample.mode Sample.mem ⟨12, 4⟩ ⟨10, 4⟩ (by decide) ⟨12, by decide⟩

/-! ## C17: the lengths of the buffers -/

/-- A vector longer than the largest allocation cannot be copied. -/
theorem NewEncrypter_too_long (b1 b2 b3 : Block) (iv : List Byte) (h : maxAlloc < iv.length) :
    ∃ e, NewEncrypter b1 b2 b3 iv = .error e := by
  have hd : ∃ e, dup iv = .error e := by
    unfold dup make
    rw [if_pos (Or.inr (by exact_mod_cast h))]
    exact ⟨_, rfl⟩
  obtain ⟨e, he⟩ := hd
  unfold NewEncrypter
  simp only
  split
  · exact ⟨_, rfl⟩
  · split
    · exact ⟨_, rfl⟩
    · unfold newCBC3
      rw [he]
      exact ⟨_, rfl⟩

/-- The same for `NewDecrypter`. -/
theorem NewDecrypter_too_long (b1 b2 b3 : Block) (iv : List Byte) (h : maxAlloc < iv.length) :
    ∃ e, NewDecrypter b1 b2 b3 iv = .error e := by
  have hd : ∃ e, dup iv = .error e := by
    unfold dup make
    rw [if_pos (Or.inr (by exact_mod_cast h))]
    exact ⟨_, rfl⟩
  obtain ⟨e, he⟩ := hd
  unfold NewDecrypter
  simp only
  split
  · exact ⟨_, rfl⟩
  · split
    · exact ⟨_, rfl⟩
    · unfold newCBC3
      rw [he]
      exact ⟨_, rfl⟩

/-- A mode returned by `NewEncrypter` satisfies the invariant. -/
theorem NewEncrypter_WF (b1 b2 b3 : Block) (iv : List Byte) (x : cbc)
    (h : NewEncrypter b1 b2 b3 iv = .ok x) : x.WF := by
  by_cases hbig : maxAlloc < iv.length
  · obtain ⟨e, he⟩ := NewEncrypter_too_long b1 b2 b3 iv hbig
    rw [he] at h; cases h
  by_cases hc : ¬(b1.BlockSize = b2.BlockSize ∧ b1.BlockSize = b3.BlockSize) ∨
      (iv.length : Int) ≠ 3 * b1.BlockSize
  · obtain ⟨e, he⟩ := NewEncrypter_error b1 b2 b3 iv hc
    rw [he] at h; cases h
  · obtain ⟨h1, h2, h3, h4⟩ := sizes_nat b1 b2 b3 iv hc
    rw [NewEncrypter_ok b1 b2 b3 iv _ h1 h2 h3 h4 (by omega)] at h
    cases h
    exact WF_new b1 b2 b3 iv _ h1 h2 h3 h4

/-- A mode returned by `NewDecrypter` satisfies the invariant. -/
theorem NewDecrypter_WF (b1 b2 b3 : Block) (iv : List Byte) (x : cbc)
    (h : NewDecrypter b1 b2 b3 iv = .ok x) : x.WF := by
  by_cases hbig : maxAlloc < iv.length
  · obtain ⟨e, he⟩ := NewDecrypter_too_long b1 b2 b3 iv hbig
    rw [he] at h; cases h
  by_cases hc : ¬(b1.BlockSize = b2.BlockSize ∧ b1.BlockSize = b3.BlockSize) ∨
      (iv.length : Int) ≠ 3 * b1.BlockSize
  · obtain ⟨e, he⟩ := NewDecrypter_error b1 b2 b3 iv hc
    rw [he] at h; cases h
  · obtain ⟨h1, h2, h3, h4⟩ := sizes_nat b1 b2 b3 iv hc
    rw [NewDecrypter_ok b1 b2 b3 iv _ h1 h2 h3 h4 (by omega)] at h
    cases h
    exact WF_new b1 b2 b3 iv _ h1 h2 h3 h4

/-- After any call of `CryptBlocks` on the encrypter the block size is what it was
and the invariant holds again. -/
theorem encrypter_call_WF (x : cbc) (hx : x.WF) (m : Mem) (dst src : Slice) :
    (cbc3Encrypter.CryptBlocks x m dst src).x.blockSize = x.blockSize ∧
      (cbc3Encrypter.CryptBlocks x m dst src).x.WF := by
  rcases call_cases x.blockSize dst src with h | ⟨hpos, hlen, hdst, hov⟩
  · obtain ⟨msg, hmsg⟩ := encrypter_rejects x.blockSize m dst src h
    rw [hmsg x rfl]
    exact ⟨rfl, hx⟩
  · rw [encrypter_CryptBlocks_eq x hx hpos m dst src _ hlen hdst hov]
    exact ⟨(encryptBlocks_fields _ x _).2.2.2.1,
      (encryptBlocks_length _ x _ hx (by rw [Slice.bytes_length]; exact hlen)).2⟩

/-- The same for the decrypter. -/
theorem decrypter_call_WF (x : cbc) (hx : x.WF) (m : Mem) (dst src : Slice) :
    (cbc3Decrypter.CryptBlocks x m dst src).x.blockSize = x.blockSize ∧
      (cbc3Decrypter.CryptBlocks x m dst src).x.WF := by
  rcases call_cases x.blockSize dst src with h | ⟨hpos, hlen, hdst, hov⟩
  · obtain ⟨msg, hmsg⟩ := decrypter_rejects x.blockSize m dst src h
    rw [hmsg x rfl]
    exact ⟨rfl, hx⟩
  · rw [decrypter_CryptBlocks_eq x hx hpos m dst src _ hlen hdst hov]
    exact ⟨(decryptBlocks_fields _ x _).2.2.2,
      (decryptBlocks_length _ x _ hx (by rw [Slice.bytes_length]; exact hlen)).2⟩

/-- After any call of `SetIV` the block size is what it was and the invariant holds
again. -/
theorem setIV_WF (x : cbc) (hx : x.WF) (m : Mem) (iv : List Byte) :
    ((cbc3Encrypter.SetIV x m iv).x.blockSize = x.blockSize ∧ (cbc3Encrypter.SetIV x m iv).x.WF) ∧
    ((cbc3Decrypter.SetIV x m iv).x.blockSize = x.blockSize ∧
      (cbc3Decrypter.SetIV x m iv).x.WF) := by
  unfold cbc3Encrypter.SetIV cbc3Decrypter.SetIV
  by_cases h : iv.length ≠ x.iv.length
  · simp only [if_pos h]
    exact ⟨⟨trivial, hx⟩, trivial, hx⟩
  · simp only [if_neg h]
    have h2 : iv.length = x.iv.length := not_not.1 h
    have hw : cbc.WF { x with iv := goCopy x.iv iv } :=
      ⟨by simp only [goCopy_eq x.iv iv h2.symm, h2, hx.iv_length], hx.tmp_length, hx.size1,
        hx.size2, hx.size3⟩
    exact ⟨⟨trivial, hw⟩, trivial, hw⟩

/-- C17 (register lengths).  A mode returned by `NewEncrypter` or `NewDecrypter`
has registers of `3 * blockSize` bytes and a scratch buffer of `blockSize` bytes
(the invariant `cbc.WF`).  On a mode with the invariant every call of `CryptBlocks`
and of `SetIV`, of the encrypter and of the decrypter, returning or panicking,
leaves the block size and the two lengths unchanged, and the invariant in force
for the calls that follow. -/
theorem register_lengths (b1 b2 b3 : Block) (iv : List Byte) :
    (∀ x, NewEncrypter b1 b2 b3 iv = .ok x ∨ NewDecrypter b1 b2 b3 iv = .ok x →
      x.iv.length = 3 * x.blockSize ∧ x.tmp.length = x.blockSize ∧ x.WF) ∧
    (∀ (x : cbc) (m : Mem) (dst src : Slice) (v : List Byte), x.WF →
      ∀ r ∈ [cbc3Encrypter.CryptBlocks x m dst src, cbc3Decrypter.CryptBlocks x m dst src,
          cbc3Encrypter.SetIV x m v, cbc3Decrypter.SetIV x m v],
        r.x.blockSize = x.blockSize ∧ r.x.iv.length = x.iv.length ∧
          r.x.tmp.length = x.tmp.length ∧ r.x.WF) := by
  constructor
  · intro x hx
    have hw : x.WF := by
      rcases hx with hx | hx
      · exact NewEncrypter_WF b1 b2 b3 iv x hx
      · exact NewDecrypter_WF b1 b2 b3 iv x hx
    exact ⟨hw.iv_length, hw.tmp_length, hw⟩
  · intro x m dst src v hx r hr
    have key : r.x.blockSize = x.blockSize ∧ r.x.WF := by
      simp only [List.mem_cons, List.mem_singleton, List.not_mem_nil, or_false] at hr
      rcases hr with rfl | rfl | rfl | rfl
      · exact encrypter_call_WF x hx m dst src
      · exact decrypter_call_WF x hx m dst src
      · exact (setIV_WF x hx m v).1
      · exact (setIV_WF x hx m v).2
    obtain ⟨hb, hw⟩ := key
    exact ⟨hb, by rw [hw.iv_length, hb, hx.iv_length],
      by rw [hw.tmp_length, hb, hx.tmp_length], hw⟩

/-- C17 on the sample data: the mode the constructor returns, and the sample mode
after a call of the decrypter on four bytes. -/
theorem register_lengths_witness :
    (∀ x, NewEncrypter Sample.b1 Sample.b2 Sample.b3 Sample.iv = .ok x ∨
        NewDecrypter Sample.b1 Sample.b2 Sample.b3 Sample.iv = .ok x →
      x.iv.length = 3 * x.blockSize ∧ x.tmp.length = x.blockSize ∧ x.WF) ∧
    ((cbc3Decrypter.CryptBlocks Sample.mode Sample.mem ⟨100, 4⟩ ⟨10, 4⟩).x.blockSize =
        Sample.mode.blockSize ∧
      (cbc3Decrypter.CryptBlocks Sample.mode Sample.mem ⟨100, 4⟩ ⟨10, 4⟩).x.iv.length =
        Sample.mode.iv.length ∧
      (cbc3Decrypter.CryptBlocks Sample.mode Sample.mem ⟨100, 4⟩ ⟨10, 4⟩).x.tmp.length =
        Sample.mode.tmp.length ∧
      (cbc3Decrypter.CryptBlocks Sample.mode Sample.mem ⟨100, 4⟩ ⟨10, 4⟩).x.WF) :=
  ⟨(register_lengths Sample.b1 Sample.b2 Sample.b3 Sample.iv).1,
    (register_lengths Sample.b1 Sample.b2 Sample.b3 Sample.iv).2 Sample.mode Sample.mem
      ⟨100, 4⟩ ⟨10, 4⟩ [] Sample.mode_WF _ (List.mem_cons_of_mem _ (List.mem_cons_self _ _))⟩

/-! ## C19, C20: what the registers carry -/

/-- Exclusive or of blocks is associative. -/
theorem xorBlock_assoc (a b c : List Byte) :
    xorBlock (xorBlock a b) c = xorBlock a (xorBlock b c) := by
  apply List.ext_getElem
  · simp only [xorBlock, List.length_zipWith]; omega
  · intro i h1 h2
    simp [xorBlock, BitVec.xor_assoc]

/-- Exclusive or of blocks is commutative. -/
theorem xorBlock_comm (a b : List Byte) : xorBlock a b = xorBlock b a := by
  apply List.ext_getElem
  · simp only [xorBlock, List.length_zipWith]; omega
  · intro i h1 h2
    simp only [xorBlock, List.getElem_zipWith]
    exact BitVec.xor_comm _ _

/-- One encrypted block depends on the second and third registers through their
exclusive or only. -/
theorem encryptBlock_xor (x x' : cbc) (e1 : x.b1 = x'.b1) (e2 : x.b2 = x'.b2)
    (e3 : x.b3 = x'.b3) (ebs : x.blockSize = x'.blockSize)
    (r0 r1 r2 r1' r2' : List Byte) (l0 : r0.length = x.blockSize) (l1 : r1.length = x.blockSize)
    (l1' : r1'.length = x.blockSize) (hiv : x.iv = r0 ++ r1 ++ r2) (hiv' : x'.iv = r0 ++ r1' ++ r2')
    (hx : xorBlock r1 r2 = xorBlock r1' r2') (p : List Byte) :
    encryptBlock x p = encryptBlock x' p := by
  unfold encryptBlock
  simp only [← e1, ← e2, ← e3, ← ebs, hiv, hiv']
  rw [view_seg0 _ _ _ _ l0, view_seg1 _ _ _ _ l0 l1, view_seg2 _ _ _ _ l0 l1,
    view_seg0 _ _ _ _ l0, view_seg1 _ _ _ _ l0 l1', view_seg2 _ _ _ _ l0 l1',
    xorBlock_assoc, xorBlock_assoc, hx]

/-- The same for one decrypted block. -/
theorem decryptBlock_xor (x x' : cbc) (e1 : x.b1 = x'.b1) (e2 : x.b2 = x'.b2)
    (e3 : x.b3 = x'.b3) (ebs : x.blockSize = x'.blockSize)
    (r0 r1 r2 r1' r2' : List Byte) (l0 : r0.length = x.blockSize) (l1 : r1.length = x.blockSize)
    (l1' : r1'.length = x.blockSize) (hiv : x.iv = r0 ++ r1 ++ r2) (hiv' : x'.iv = r0 ++ r1' ++ r2')
    (hx : xorBlock r1 r2 = xorBlock r1' r2') (p : List Byte) :
    decryptBlock x p = decryptBlock x' p := by
  unfold decryptBlock
  simp only [← e1, ← e2, ← e3, ← ebs, hiv, hiv']
  rw [view_seg0 _ _ _ _ l0, view_seg1 _ _ _ _ l0 l1, view_seg2 _ _ _ _ l0 l1,
    view_seg0 _ _ _ _ l0, view_seg1 _ _ _ _ l0 l1', view_seg2 _ _ _ _ l0 l1',
    xorBlock_assoc, xorBlock_assoc, xorBlock_comm r2 r1, xorBlock_comm r2' r1', hx]

/-- C19 (the second and third registers act through their exclusive or).  For
ciphers of block size `bs > 0`, two vectors `r0 ++ r1 ++ r2` and `r0 ++ r1' ++ r2'`
with `r1 XOR r2 = r1' XOR r2'` and a source of `n > 0` whole blocks, the two fresh
encrypters, and the two fresh decrypters, return, leave the same memory and end
with the same registers. -/
theorem later_registers_act_through_xor (b1 b2 b3 : Block) (bs : Nat) (hbs : 0 < bs)
    (h1 : b1.BlockSize = bs) (h2 : b2.BlockSize = bs) (h3 : b3.BlockSize = bs)
    (r0 r1 r2 r1' r2' : List Byte) (l0 : r0.length = bs) (l1 : r1.length = bs)
    (l2 : r2.length = bs) (l1' : r1'.length = bs) (l2' : r2'.length = bs)
    (hxor : xorBlock r1 r2 = xorBlock r1' r2') (halloc : 3 * bs ≤ maxAlloc)
    (m : Mem) (dst src : Slice) (n : Nat) (hn : 0 < n) (hsrc : src.len = n * bs)
    (hdst : src.len ≤ dst.len) (hov : inexactOverlap (dst.take src.len) src = false) :
    (∃ x x', NewEncrypter b1 b2 b3 (r0 ++ r1 ++ r2) = .ok x ∧
      NewEncrypter b1 b2 b3 (r0 ++ r1' ++ r2') = .ok x' ∧
      (cbc3Encrypter.CryptBlocks x m dst src).status = .returned ∧
      (cbc3Encrypter.CryptBlocks x' m dst src).status = .returned ∧
      (cbc3Encrypter.CryptBlocks x m dst src).mem = (cbc3Encrypter.CryptBlocks x' m dst src).mem ∧
      (cbc3Encrypter.CryptBlocks x m dst src).x.iv =
        (cbc3Encrypter.CryptBlocks x' m dst src).x.iv) ∧
    (∃ x x', NewDecrypter b1 b2 b3 (r0 ++ r1 ++ r2) = .ok x ∧
      NewDecrypter b1 b2 b3 (r0 ++ r1' ++ r2') = .ok x' ∧
      (cbc3Decrypter.CryptBlocks x m dst src).status = .returned ∧
      (cbc3Decrypter.CryptBlocks x' m dst src).status = .returned ∧
      (cbc3Decrypter.CryptBlocks x m dst src).mem = (cbc3Decrypter.CryptBlocks x' m dst src).mem ∧
      (cbc3Decrypter.CryptBlocks x m dst src).x.iv =
        (cbc3Decrypter.CryptBlocks x' m dst src).x.iv) := by
  have hiv : (r0 ++ r1 ++ r2).length = 3 * bs := by
    rw [List.length_append, List.length_append]; omega
  have hiv' : (r0 ++ r1' ++ r2').length = 3 * bs := by
    rw [List.length_append, List.length_append]; omega
  have hw := WF_new b1 b2 b3 _ bs h1 h2 h3 hiv
  have hw' := WF_new b1 b2 b3 _ bs h1 h2 h3 hiv'
  obtain ⟨k, rfl⟩ : ∃ k, n = k + 1 := ⟨n - 1, by omega⟩
  constructor
  · refine ⟨_, _, NewEncrypter_ok b1 b2 b3 _ bs h1 h2 h3 hiv (by omega),
      NewEncrypter_ok b1 b2 b3 _ bs h1 h2 h3 hiv' (by omega), ?_⟩
    rw [encrypter_CryptBlocks_eq _ hw hbs m dst src _ hsrc hdst hov,
      encrypter_CryptBlocks_eq _ hw' hbs m dst src _ hsrc hdst hov]
    simp only [encryptBlocks]
    have e := encryptBlock_xor
      { b1 := b1, b2 := b2, b3 := b3, blockSize := bs, iv := r0 ++ r1 ++ r2,
        tmp := List.replicate bs 0 }
      { b1 := b1, b2 := b2, b3 := b3, blockSize := bs, iv := r0 ++ r1' ++ r2',
        tmp := List.replicate bs 0 } rfl rfl rfl rfl r0 r1 r2 r1' r2' l0 l1 l1' rfl rfl hxor
    rw [e]
    exact ⟨trivial, trivial, rfl, rfl⟩
  · refine ⟨_, _, NewDecrypter_ok b1 b2 b3 _ bs h1 h2 h3 hiv (by omega),
      NewDecrypter_ok b1 b2 b3 _ bs h1 h2 h3 hiv' (by omega), ?_⟩
    rw [decrypter_CryptBlocks_eq _ hw hbs m dst src _ hsrc hdst hov,
      decrypter_CryptBlocks_eq _ hw' hbs m dst src _ hsrc hdst hov]
    simp only [decryptBlocks]
    have e := decryptBlock_xor
      { b1 := b1, b2 := b2, b3 := b3, blockSize := bs, iv := r0 ++ r1 ++ r2,
        tmp := List.replicate bs 0 }
      { b1 := b1, b2 := b2, b3 := b3, blockSize := bs, iv := r0 ++ r1' ++ r2',
        tmp := List.replicate bs 0 } rfl rfl rfl rfl r0 r1 r2 r1' r2' l0 l1 l1' rfl rfl hxor
    rw [e]
    exact ⟨trivial, trivial, rfl, rfl⟩

/-- C19 on the sample ciphers: the vectors `[1, 2, 3, 4, 5, 6]` and
`[1, 2, 0, 0, 6, 2]`. -/
theorem later_registers_act_through_xor_witness :
    (∃ x x', NewEncrypter Sample.b1 Sample.b2 Sample.b3 ([1, 2] ++ [3, 4] ++ [5, 6]) = .ok x ∧
      NewEncrypter Sample.b1 Sample.b2 Sample.b3 ([1, 2] ++ [0, 0] ++ [6, 2]) = .ok x' ∧
      (cbc3Encrypter.CryptBlocks x Sample.mem ⟨100, 4⟩ ⟨10, 4⟩).status = .returned ∧
      (cbc3Encrypter.CryptBlocks x' Sample.mem ⟨100, 4⟩ ⟨10, 4⟩).status = .returned ∧
      (cbc3Encrypter.CryptBlocks x Sample.mem ⟨100, 4⟩ ⟨10, 4⟩).mem =
        (cbc3Encrypter.CryptBlocks x' Sample.mem ⟨100, 4⟩ ⟨10, 4⟩).mem ∧
      (cbc3Encrypter.CryptBlocks x Sample.mem ⟨100, 4⟩ ⟨10, 4⟩).x.iv =
        (cbc3Encrypter.CryptBlocks x' Sample.mem ⟨100, 4⟩ ⟨10, 4⟩).x.iv) ∧
    (∃ x x', NewDecrypter Sample.b1 Sample.b2 Sample.b3 ([1, 2] ++ [3, 4] ++ [5, 6]) = .ok x ∧
      NewDecrypter Sample.b1 Sample.b2 Sample.b3 ([1, 2] ++ [0, 0] ++ [6, 2]) = .ok x' ∧
      (cbc3Decrypter.CryptBlocks x Sample.mem ⟨100, 4⟩ ⟨10, 4⟩).status = .returned ∧
      (cbc3Decrypter.CryptBlocks x' Sample.mem ⟨100, 4⟩ ⟨10, 4⟩).status = .returned ∧
      (cbc3Decrypter.CryptBlocks x Sample.mem ⟨100, 4⟩ ⟨10, 4⟩).mem =
        (cbc3Decrypter.CryptBlocks x' Sample.mem ⟨100, 4⟩ ⟨10, 4⟩).mem ∧
      (cbc3Decrypter.CryptBlocks x Sample.mem ⟨100, 4⟩ ⟨10, 4⟩).x.iv =
        (cbc3Decrypter.CryptBlocks x' Sample.mem ⟨100, 4⟩ ⟨10, 4⟩).x.iv) :=
  later_registers_act_through_xor Sample.b1 Sample.b2 Sample.b3 2 (by decide) rfl rfl rfl
    [1, 2] [3, 4] [5, 6] [0, 0] [6, 2] rfl rfl rfl rfl rfl (by decide) (by decide)
    Sample.mem ⟨100, 4⟩ ⟨10, 4⟩ 2 (by decide) (by decide) (by decide) (by decide)

/-- After at least one encrypted block the first two register segments are equal. -/
theorem encryptBlocks_last (n : Nat) : ∀ (x : cbc) (data : List Byte), x.WF →
    data.length = (n + 1) * x.blockSize →
    view (encryptBlocks (n + 1) x data).2.iv 0 x.blockSize =
      view (encryptBlocks (n + 1) x data).2.iv x.blockSize (2 * x.blockSize) := by
  induction n with
  | zero =>
    intro x data hx hlen
    obtain ⟨l0, -, -⟩ := view_length3 x.iv x.blockSize hx.iv_length
    have hp : (data.take x.blockSize).length = x.blockSize := by
      rw [List.length_take]; omega
    have hc1 := Block.Encrypt_len x.b1 _ _ (xorBlock_len _ _ _ hp l0) hx.size1
    simp only [encryptBlocks, encryptBlock]
    rw [view_seg0 _ _ _ _ hc1, view_seg1 _ _ _ _ hc1 hc1]
  | succ n ih =>
    intro x data hx hlen
    obtain ⟨ht, hd⟩ := length_take_block data (n + 1) x.blockSize hlen
    have h := ih { x with iv := (encryptBlock x (data.take x.blockSize)).2 }
      (data.drop x.blockSize) (encryptBlock_WF x hx _ ht) hd
    rw [encryptBlocks]
    exact h

/-- After at least one decrypted block the first two register segments are equal. -/
theorem decryptBlocks_last (n : Nat) : ∀ (x : cbc) (data : List Byte), x.WF →
    data.length = (n + 1) * x.blockSize →
    view (decryptBlocks (n + 1) x data).2.iv 0 x.blockSize =
      view (decryptBlocks (n + 1) x data).2.iv x.blockSize (2 * x.blockSize) := by
  induction n with
  | zero =>
    intro x data hx hlen
    obtain ⟨-, l1, l2⟩ := view_length3 x.iv x.blockSize hx.iv_length
    have hp : (data.take x.blockSize).length = x.blockSize := by
      rw [List.length_take]; omega
    have hd3 := Block.Decrypt_len x.b3 _ _ hp hx.size3
    have hc1 := Block.Encrypt_len x.b2 _ _
      (xorBlock_len _ _ _ (xorBlock_len _ _ _ hd3 l2) l1) hx.size2
    simp only [decryptBlocks, decryptBlock]
    rw [view_seg0 _ _ _ _ hc1, view_seg1 _ _ _ _ hc1 hc1]
  | succ n ih =>
    intro x data hx hlen
    obtain ⟨ht, hd⟩ := length_take_block data (n + 1) x.blockSize hlen
    have h := ih { x with iv := (decryptBlock x (data.take x.blockSize)).2,
                          tmp := data.take x.blockSize }
      (data.drop x.blockSize) (decryptBlock_WF x hx _ ht) hd
    rw [decryptBlocks]
    exact h

/-- C20 (the first two registers coincide after any work).  For an encrypter and
for a decrypter, whatever the registers before, a call of `CryptBlocks` on a source
of `n > 0` whole blocks returns with the first register segment equal to the
second. -/
theorem first_two_registers_coincide (x : cbc) (hx : x.WF) (hpos : 0 < x.blockSize) (m : Mem)
    (dst src : Slice) (n : Nat) (hn : 0 < n) (hlen : src.len = n * x.blockSize)
    (hdst : src.len ≤ dst.len) (hov : inexactOverlap (dst.take src.len) src = false) :
    ((cbc3Encrypter.CryptBlocks x m dst src).status = .returned ∧
      view (cbc3Encrypter.CryptBlocks x m dst src).x.iv 0 x.blockSize =
        view (cbc3Encrypter.CryptBlocks x m dst src).x.iv x.blockSize (2 * x.blockSize)) ∧
    ((cbc3Decrypter.CryptBlocks x m dst src).status = .returned ∧
      view (cbc3Decrypter.CryptBlocks x m dst src).x.iv 0 x.blockSize =
        view (cbc3Decrypter.CryptBlocks x m dst src).x.iv x.blockSize (2 * x.blockSize)) := by
  obtain ⟨k, rfl⟩ : ∃ k, n = k + 1 := ⟨n - 1, by omega⟩
  have hP : (src.bytes m).length = (k + 1) * x.blockSize := by rw [Slice.bytes_length, hlen]
  rw [encrypter_CryptBlocks_eq x hx hpos m dst src _ hlen hdst hov,
    decrypter_CryptBlocks_eq x hx hpos m dst src _ hlen hdst hov]
  exact ⟨⟨rfl, encryptBlocks_last k x _ hx hP⟩, rfl, decryptBlocks_last k x _ hx hP⟩

/-- C20 on the sample mode, whose registers `[1, 2]` and `[3, 4]` differ before the
call. -/
theorem first_two_registers_coincide_witness :
    ((cbc3Encrypter.CryptBlocks Sample.mode Sample.mem ⟨100, 4⟩ ⟨10, 4⟩).status = .returned ∧
      view (cbc3Encrypter.CryptBlocks Sample.mode Sample.mem ⟨100, 4⟩ ⟨10, 4⟩).x.iv 0 2 =
        view (cbc3Encrypter.CryptBlocks Sample.mode Sample.mem ⟨100, 4⟩ ⟨10, 4⟩).x.iv 2 (2 * 2)) ∧
    ((cbc3Decrypter.CryptBlocks Sample.mode Sample.mem ⟨100, 4⟩ ⟨10, 4⟩).status = .returned ∧
      view (cbc3Decrypter.CryptBlocks Sample.mode Sample.mem ⟨100, 4⟩ ⟨10, 4⟩).x.iv 0 2 =
        view (cbc3Decrypter.CryptBlocks Sample.mode Sample.mem ⟨100, 4⟩ ⟨10, 4⟩).x.iv 2 (2 * 2)) :=
  first_two_registers_coincide Sample.mode Sample.mode_WF (by decide) Sample.mem ⟨100, 4⟩
    ⟨10, 4⟩ 2 (by decide) (by decide) (by decide) (by decide)

/-! ## C14: the order of the ciphers -/

/-- C14, as stated, fails.  The sample ciphers `b1` and `b3` differ, yet the
decrypter built with them in the order `(b3, b2, b1)` and the same all-zero vector
gives back the one-block plaintext that the encrypter built with `(b1, b2, b3)`
encrypted. -/
theorem reordered_ciphers_can_decrypt :
    Sample.b1.Encrypt [0, 0] ≠ Sample.b3.Encrypt [0, 0] ∧
    ∃ xe xd, NewEncrypter Sample.b1 Sample.b2 Sample.b3 [0, 0, 0, 0, 0, 0] = .ok xe ∧
      NewDecrypter Sample.b3 Sample.b2 Sample.b1 [0, 0, 0, 0, 0, 0] = .ok xd ∧
      (cbc3Encrypter.CryptBlocks xe Sample.mem ⟨100, 2⟩ ⟨10, 2⟩).status = .returned ∧
      (cbc3Decrypter.CryptBlocks xd (cbc3Encrypter.CryptBlocks xe Sample.mem ⟨100, 2⟩ ⟨10, 2⟩).mem
        ⟨200, 2⟩ ⟨100, 2⟩).status = .returned ∧
      Slice.bytes ⟨200, 2⟩
        (cbc3Decrypter.CryptBlocks xd (cbc3Encrypter.CryptBlocks xe Sample.mem ⟨100, 2⟩ ⟨10, 2⟩).mem
          ⟨200, 2⟩ ⟨100, 2⟩).mem = Slice.bytes ⟨10, 2⟩ Sample.mem :=
  ⟨by decide, _, _,
    NewEncrypter_ok Sample.b1 Sample.b2 Sample.b3 [0, 0, 0, 0, 0, 0] 2 rfl rfl rfl (by decide)
      (by decide),
    NewDecrypter_ok Sample.b3 Sample.b2 Sample.b1 [0, 0, 0, 0, 0, 0] 2 rfl rfl rfl (by decide)
      (by decide),
    by decide, by decide, by decide⟩

/-- C14, amended.  For an encrypter built with ciphers `(b1, b2, b3)` of block
size `bs > 0` and a decrypter built with the same vector and the same three
ciphers in any order, both constructors succeed and both calls of `CryptBlocks`
return: decrypting the output of the encrypter raises no error.  Nothing is said
of the bytes decrypted, which can be the plaintext. -/
theorem reordered_ciphers_raise_no_error (b1 b2 b3 d1 d2 d3 : Block) (bs : Nat) (hbs : 0 < bs)
    (h1 : b1.BlockSize = bs) (h2 : b2.BlockSize = bs) (h3 : b3.BlockSize = bs)
    (hperm : List.Perm [d1, d2, d3] [b1, b2, b3])
    (iv : List Byte) (hiv : iv.length = 3 * bs) (halloc : iv.length ≤ maxAlloc)
    (m : Mem) (src ct pt : Slice) (n : Nat) (hsrc : src.len = n * bs)
    (hct : src.len ≤ ct.len) (hov1 : inexactOverlap (ct.take src.len) src = false)
    (hpt : src.len ≤ pt.len)
    (hov2 : inexactOverlap (pt.take src.len) (ct.take src.len) = false) :
    ∃ xe xd, NewEncrypter b1 b2 b3 iv = .ok xe ∧ NewDecrypter d1 d2 d3 iv = .ok xd ∧
      (cbc3Encrypter.CryptBlocks xe m ct src).status = .returned ∧
      (cbc3Decrypter.CryptBlocks xd (cbc3Encrypter.CryptBlocks xe m ct src).mem pt
        (ct.take src.len)).status = .returned := by
  have hsize : ∀ d ∈ [d1, d2, d3], d.BlockSize = bs := by
    intro d hd
    have hb := hperm.subset hd
    simp only [List.mem_cons, List.mem_singleton, List.not_mem_nil, or_false] at hb
    rcases hb with rfl | rfl | rfl
    · exact h1
    · exact h2
    · exact h3
  have g1 := hsize d1 (by simp)
  have g2 := hsize d2 (by simp)
  have g3 := hsize d3 (by simp)
  have hwe := WF_new b1 b2 b3 iv bs h1 h2 h3 hiv
  have hwd := WF_new d1 d2 d3 iv bs g1 g2 g3 hiv
  refine ⟨_, _, NewEncrypter_ok b1 b2 b3 iv bs h1 h2 h3 hiv halloc,
    NewDecrypter_ok d1 d2 d3 iv bs g1 g2 g3 hiv halloc, ?_⟩
  rw [encrypter_CryptBlocks_eq _ hwe hbs m ct src n hsrc hct hov1]
  rw [decrypter_CryptBlocks_eq _ hwd hbs _ pt (ct.take src.len) n hsrc hpt hov2]
  exact ⟨rfl, rfl⟩

/-- C14, amended, on the sample ciphers, decrypting in the order `(b3, b2, b1)`. -/
theorem reordered_ciphers_raise_no_error_witness :
    ∃ xe xd, NewEncrypter Sample.b1 Sample.b2 Sample.b3 Sample.iv = .ok xe ∧
      NewDecrypter Sample.b3 Sample.b2 Sample.b1 Sample.iv = .ok xd ∧
      (cbc3Encrypter.CryptBlocks xe Sample.mem ⟨100, 4⟩ ⟨10, 4⟩).status = .returned ∧
      (cbc3Decrypter.CryptBlocks xd (cbc3Encrypter.CryptBlocks xe Sample.mem ⟨100, 4⟩ ⟨10, 4⟩).mem
        ⟨200, 4⟩ ⟨100, 4⟩).status = .returned :=
  reordered_ciphers_raise_no_error Sample.b1 Sample.b2 Sample.b3 Sample.b3 Sample.b2 Sample.b1
    2 (by decide) rfl rfl rfl (List.reverse_perm [Sample.b1, Sample.b2, Sample.b3])
    Sample.iv (by decide) (by decide) Sample.mem ⟨10, 4⟩ ⟨100, 4⟩ ⟨200, 4⟩ 2 (by decide)
    (by decide) (by decide) (by decide) (by decide)

/-! ## C15: a changed byte of the vector -/

theorem view_length (l : List Byte) (lo hi : Nat) :
    (view l lo hi).length = min hi l.length - lo := by
  simp [view]

theorem view_getElem (l : List Byte) (lo hi j : Nat) (h : j < (view l lo hi).length)
    (h' : lo + j < l.length) : (view l lo hi)[j] = l[lo + j] := by
  simp [view]

/-- Changing a byte outside a sub-slice leaves the sub-slice as it was. -/
theorem view_set_outside (l : List Byte) (lo hi i : Nat) (v : Byte) (h : i < lo ∨ hi ≤ i) :
    view (l.set i v) lo hi = view l lo hi := by
  apply List.ext_getElem
  · simp [view_length]
  · intro j h1 h2
    have hj : lo + j < l.length := by
      rw [view_length] at h2; omega
    have hj2 : j < hi - lo := by rw [view_length] at h2; omega
    rw [view_getElem _ _ _ _ h1 (by simpa using hj), view_getElem _ _ _ _ h2 hj,
      List.getElem_set_ne (by omega)]

/-- Changing a byte inside a sub-slice changes the sub-slice. -/
theorem view_set_inside (l : List Byte) (lo hi i : Nat) (v : Byte) (h1 : lo ≤ i) (h2 : i < hi)
    (hi' : i < l.length) (hv : v ≠ l[i]) : view (l.set i v) lo hi ≠ view l lo hi := by
  intro heq
  have hlen : i - lo < (view l lo hi).length := by rw [view_length]; omega
  have hlen' : i - lo < (view (l.set i v) lo hi).length := by rw [heq]; exact hlen
  have e : (view (l.set i v) lo hi)[i - lo] = (view l lo hi)[i - lo] := by
    simp only [heq]
  rw [view_getElem _ _ _ _ hlen' (by simp; omega), view_getElem _ _ _ _ hlen (by omega)] at e
  have hidx : lo + (i - lo) = i := by omega
  simp only [hidx, List.getElem_set_self] at e
  exact hv e

theorem xorBlock_right_inj (a b r : List Byte) (ha : a.length = r.length)
    (hb : b.length = r.length) (h : xorBlock a r = xorBlock b r) : a = b := by
  rw [← xorBlock_cancel a r ha, h, xorBlock_cancel b r hb]

theorem xorBlock_left_inj (a r r' : List Byte) (hr : r.length = a.length)
    (hr' : r'.length = a.length) (h : xorBlock a r = xorBlock a r') : r = r' := by
  rw [xorBlock_comm a r, xorBlock_comm a r'] at h
  exact xorBlock_right_inj r r' a hr hr' h

theorem Block.Inverse.enc_inj {b : Block} (hb : b.Inverse) (n : Nat) (hn : b.BlockSize = n)
    (p q : List Byte) (hp : p.length = n) (hq : q.length = n) (h : b.Encrypt p = b.Encrypt q) :
    p = q := by
  rw [← hb.dec_enc n hn p hp, h, hb.dec_enc n hn q hq]

theorem Block.Inverse.dec_inj {b : Block} (hb : b.Inverse) (n : Nat) (hn : b.BlockSize = n)
    (p q : List Byte) (hp : p.length = n) (hq : q.length = n) (h : b.Decrypt p = b.Decrypt q) :
    p = q := by
  rw [← hb.enc_dec n hn p hp, h, hb.enc_dec n hn q hq]

/-- One encrypted block differs when the two modes differ in the first register
only, or agree on it and differ in the exclusive or of the other two. -/
theorem encryptBlock_differs (x x' : cbc) (hx : x.WF) (hx' : x'.WF) (e1 : x'.b1 = x.b1)
    (e2 : x'.b2 = x.b2) (e3 : x'.b3 = x.b3) (ebs : x'.blockSize = x.blockSize)
    (i1 : x.b1.Inverse) (i2 : x.b2.Inverse) (i3 : x.b3.Inverse)
    (p : List Byte) (hp : p.length = x.blockSize)
    (h : (view x.iv 0 x.blockSize ≠ view x'.iv 0 x.blockSize ∧
          xorBlock (view x.iv x.blockSize (2 * x.blockSize)) (view x.iv (2 * x.blockSize) x.iv.length) =
            xorBlock (view x'.iv x.blockSize (2 * x.blockSize))
              (view x'.iv (2 * x.blockSize) x'.iv.length)) ∨
        (view x.iv 0 x.blockSize = view x'.iv 0 x.blockSize ∧
          xorBlock (view x.iv x.blockSize (2 * x.blockSize)) (view x.iv (2 * x.blockSize) x.iv.length) ≠
            xorBlock (view x'.iv x.blockSize (2 * x.blockSize))
              (view x'.iv (2 * x.blockSize) x'.iv.length))) :
    (encryptBlock x p).1 ≠ (encryptBlock x' p).1 := by
  obtain ⟨l0, l1, l2⟩ := view_length3 x.iv x.blockSize hx.iv_length
  have hv' := view_length3 x'.iv x'.blockSize hx'.iv_length
  rw [ebs] at hv'
  obtain ⟨l0', l1', l2'⟩ := hv'
  unfold encryptBlock
  simp only [e1, e2, e3, ebs]
  generalize view x.iv 0 x.blockSize = v0 at *
  generalize view x.iv x.blockSize (2 * x.blockSize) = v1 at *
  generalize view x.iv (2 * x.blockSize) x.iv.length = v2 at *
  generalize view x'.iv 0 x.blockSize = v0' at *
  generalize view x'.iv x.blockSize (2 * x.blockSize) = v1' at *
  generalize view x'.iv (2 * x.blockSize) x'.iv.length = v2' at *
  have hc := Block.Encrypt_len x.b1 _ _ (xorBlock_len p v0 _ hp l0) hx.size1
  have hc' := Block.Encrypt_len x.b1 _ _ (xorBlock_len p v0' _ hp l0') hx.size1
  have hd := Block.Decrypt_len x.b2 _ _ hc hx.size2
  have hd' := Block.Decrypt_len x.b2 _ _ hc' hx.size2
  have hS := xorBlock_len v1 v2 _ l1 l2
  have hS' := xorBlock_len v1' v2' _ l1' l2'
  rw [xorBlock_assoc, xorBlock_assoc]
  intro heq
  have hu := i3.enc_inj _ hx.size3 _ _ (xorBlock_len _ _ _ hd hS) (xorBlock_len _ _ _ hd' hS') heq
  rcases h with ⟨h0, hs⟩ | ⟨h0, hs⟩
  · rw [hs] at hu
    have hdd := xorBlock_right_inj _ _ _ (by rw [hd, hS']) (by rw [hd', hS']) hu
    have hcc := i2.dec_inj _ hx.size2 _ _ hc hc' hdd
    have hxx := i1.enc_inj _ hx.size1 _ _ (xorBlock_len p v0 _ hp l0)
      (xorBlock_len p v0' _ hp l0') hcc
    exact h0 (xorBlock_left_inj p v0 v0' (by rw [l0, hp]) (by rw [l0', hp]) hxx)
  · rw [h0] at hu
    exact hs (xorBlock_left_inj _ _ _ (by rw [hS, hd']) (by rw [hS', hd']) hu)

/-- The first block of a buffer. -/
theorem blockAt_zero_append (bs : Nat) (a rest : List Byte) (ha : a.length = bs) :
    blockAt bs 0 (a ++ rest) = a := by
  unfold blockAt
  rw [Nat.zero_mul, List.drop_zero, List.take_left' ha]

/-- The later blocks of a buffer. -/
theorem blockAt_succ_append (bs k : Nat) (a rest : List Byte) (ha : a.length = bs) :
    blockAt bs (k + 1) (a ++ rest) = blockAt bs k rest := by
  unfold blockAt
  rw [Nat.succ_mul, Nat.add_comm, ← List.drop_drop, List.drop_left' ha]

/-- When two modes agree on the first register and differ in the exclusive or of the
other two, every block they encrypt differs. -/
theorem encryptBlocks_differ (n : Nat) : ∀ (x x' : cbc) (data : List Byte), x.WF → x'.WF →
    x'.b1 = x.b1 → x'.b2 = x.b2 → x'.b3 = x.b3 → x'.blockSize = x.blockSize →
    x.b1.Inverse → x.b2.Inverse → x.b3.Inverse → data.length = n * x.blockSize →
    view x.iv 0 x.blockSize = view x'.iv 0 x.blockSize →
    xorBlock (view x.iv x.blockSize (2 * x.blockSize)) (view x.iv (2 * x.blockSize) x.iv.length) ≠
      xorBlock (view x'.iv x.blockSize (2 * x.blockSize))
        (view x'.iv (2 * x.blockSize) x'.iv.length) →
    ∀ k, k < n → blockAt x.blockSize k (encryptBlocks n x data).1 ≠
      blockAt x.blockSize k (encryptBlocks n x' data).1 := by
  induction n with
  | zero => intro _ _ _ _ _ _ _ _ _ _ _ _ _ _ _ k hk; omega
  | succ n ih =>
    intro x x' data hx hx' e1 e2 e3 ebs i1 i2 i3 hlen h0 hs k hk
    obtain ⟨ht, hd⟩ := length_take_block data n x.blockSize hlen
    have ht' : (data.take x.blockSize).length = x'.blockSize := by rw [ebs]; exact ht
    have hout := (encryptBlock_length x hx _ ht).1
    have hout' := (encryptBlock_length x' hx' _ ht').1
    rw [ebs] at hout'
    have hne := encryptBlock_differs x x' hx hx' e1 e2 e3 ebs i1 i2 i3 _ ht (Or.inr ⟨h0, hs⟩)
    simp only [encryptBlocks, ebs]
    cases k with
    | zero =>
      rw [blockAt_zero_append _ _ _ hout, blockAt_zero_append _ _ _ hout']
      exact hne
    | succ k =>
      rw [blockAt_succ_append _ _ _ _ hout, blockAt_succ_append _ _ _ _ hout']
      have hw := encryptBlock_WF x hx _ ht
      have hw' := encryptBlock_WF x' hx' _ ht'
      rw [ebs] at hw'
      refine ih { x with iv := (encryptBlock x (data.take x.blockSize)).2 }
        { x' with blockSize := x.blockSize, iv := (encryptBlock x' (data.take x.blockSize)).2 }
        (data.drop x.blockSize) hw hw' e1 e2 e3 rfl i1 i2 i3 hd ?_ ?_ k (by omega)
      · obtain ⟨l0, -, -⟩ := view_length3 x.iv x.blockSize hx.iv_length
        have hc := Block.Encrypt_len x.b1 _ _ (xorBlock_len _ _ _ ht l0) hx.size1
        simp only [encryptBlock, e1, e2, e3, ebs, ← h0]
        rw [view_seg0 _ _ _ _ hc, view_seg0 _ _ _ _ hc]
      · obtain ⟨l0, -, -⟩ := view_length3 x.iv x.blockSize hx.iv_length
        have hc := Block.Encrypt_len x.b1 _ _ (xorBlock_len _ _ _ ht l0) hx.size1
        have hne' := hne
        simp only [encryptBlock, e1, e2, e3, ebs, ← h0] at hne' hout hout' ⊢
        rw [view_seg1 _ _ _ _ hc hc, view_seg2 _ _ _ _ hc hc, view_seg1 _ _ _ _ hc hc,
          view_seg2 _ _ _ _ hc hc]
        intro heq
        exact hne' (xorBlock_left_inj _ _ _ (by rw [hout, hc]) (by rw [hout', hc]) heq)

/-- The cipher `Sample.mix` is mutually inverse on blocks. -/
theorem Sample.mix_inverse : Sample.mix.Inverse := by
  intro blk h
  match blk, h with
  | [a, b], _ => simp [Sample.mix]

/-- C15, as stated, fails.  The three ciphers are mutually inverse and the two
vectors differ in their first byte only (0 and 128), yet the second blocks of the
two ciphertexts of the same four bytes are equal. -/
theorem iv_change_can_miss_a_block :
    Sample.b1.Inverse ∧ Sample.b2.Inverse ∧ Sample.mix.Inverse ∧
    ∃ x x', NewEncrypter Sample.b1 Sample.b2 Sample.mix [0, 0, 0, 0, 0, 0] = .ok x ∧
      NewEncrypter Sample.b1 Sample.b2 Sample.mix (List.set [0, 0, 0, 0, 0, 0] 0 128) = .ok x' ∧
      (cbc3Encrypter.CryptBlocks x Sample.mem ⟨100, 4⟩ ⟨10, 4⟩).status = .returned ∧
      (cbc3Encrypter.CryptBlocks x' Sample.mem ⟨100, 4⟩ ⟨10, 4⟩).status = .returned ∧
      blockAt 2 1 (Slice.bytes ⟨100, 4⟩
          (cbc3Encrypter.CryptBlocks x Sample.mem ⟨100, 4⟩ ⟨10, 4⟩).mem) =
        blockAt 2 1 (Slice.bytes ⟨100, 4⟩
          (cbc3Encrypter.CryptBlocks x' Sample.mem ⟨100, 4⟩ ⟨10, 4⟩).mem) :=
  ⟨Sample.addKey_inverse 3 2, Sample.rev_inverse 2, Sample.mix_inverse, _, _,
    NewEncrypter_ok Sample.b1 Sample.b2 Sample.mix [0, 0, 0, 0, 0, 0] 2 rfl rfl rfl (by decide)
      (by decide),
    NewEncrypter_ok Sample.b1 Sample.b2 Sample.mix (List.set [0, 0, 0, 0, 0, 0] 0 128) 2 rfl rfl
      rfl (by decide) (by decide),
    by decide, by decide, by decide⟩

/-- C15, amended.  For ciphers of block size `bs > 0` that are mutually inverse on
blocks, a vector of `3 * bs` bytes, the vector with byte `i` changed, and a
plaintext of `n` whole blocks: the two fresh encrypters return, their ciphertexts
differ in the first block, and when the changed byte lies in the second or third
segment of the vector (`bs ≤ i`) they differ in every block. -/
theorem iv_sensitivity (b1 b2 b3 : Block) (bs : Nat) (hbs : 0 < bs)
    (h1 : b1.BlockSize = bs) (h2 : b2.BlockSize = bs) (h3 : b3.BlockSize = bs)
    (i1 : b1.Inverse) (i2 : b2.Inverse) (i3 : b3.Inverse)
    (iv : List Byte) (hiv : iv.length = 3 * bs) (halloc : iv.length ≤ maxAlloc)
    (i : Nat) (hi : i < iv.length) (v : Byte) (hv : v ≠ iv[i])
    (m : Mem) (dst src : Slice) (n : Nat) (hsrc : src.len = n * bs)
    (hdst : src.len ≤ dst.len) (hov : inexactOverlap (dst.take src.len) src = false) :
    ∃ x x', NewEncrypter b1 b2 b3 iv = .ok x ∧ NewEncrypter b1 b2 b3 (iv.set i v) = .ok x' ∧
      (cbc3Encrypter.CryptBlocks x m dst src).status = .returned ∧
      (cbc3Encrypter.CryptBlocks x' m dst src).status = .returned ∧
      (0 < n →
        blockAt bs 0 ((dst.take src.len).bytes (cbc3Encrypter.CryptBlocks x m dst src).mem) ≠
          blockAt bs 0 ((dst.take src.len).bytes (cbc3Encrypter.CryptBlocks x' m dst src).mem)) ∧
      (bs ≤ i → ∀ k, k < n →
        blockAt bs k ((dst.take src.len).bytes (cbc3Encrypter.CryptBlocks x m dst src).mem) ≠
          blockAt bs k ((dst.take src.len).bytes (cbc3Encrypter.CryptBlocks x' m dst src).mem)) := by
  have hiv' : (iv.set i v).length = 3 * bs := by rw [List.length_set]; exact hiv
  have hw := WF_new b1 b2 b3 iv bs h1 h2 h3 hiv
  have hw' := WF_new b1 b2 b3 (iv.set i v) bs h1 h2 h3 hiv'
  refine ⟨_, _, NewEncrypter_ok b1 b2 b3 iv bs h1 h2 h3 hiv halloc,
    NewEncrypter_ok b1 b2 b3 (iv.set i v) bs h1 h2 h3 hiv' (by rw [List.length_set]; exact halloc),
    ?_⟩
  obtain ⟨s, -, hb⟩ := encrypter_CryptBlocks_out _ hw hbs m dst src n hsrc hdst hov
  obtain ⟨s', -, hb'⟩ := encrypter_CryptBlocks_out _ hw' hbs m dst src n hsrc hdst hov
  rw [hb, hb']
  have hP : (src.bytes m).length = n * bs := by rw [Slice.bytes_length, hsrc]
  obtain ⟨l0, l1, l2⟩ := view_length3 iv bs hiv
  -- the two cases: the changed byte lies in the first segment, or in a later one
  have later : bs ≤ i → ∀ k, k < n →
      blockAt bs k (encryptBlocks n
        { b1 := b1, b2 := b2, b3 := b3, blockSize := bs, iv := iv, tmp := List.replicate bs 0 }
        (src.bytes m)).1 ≠
      blockAt bs k (encryptBlocks n
        { b1 := b1, b2 := b2, b3 := b3, blockSize := bs, iv := iv.set i v,
          tmp := List.replicate bs 0 }
        (src.bytes m)).1 := by
    intro hle
    refine encryptBlocks_differ n _ _ (src.bytes m) hw hw' rfl rfl rfl rfl i1 i2 i3 hP ?_ ?_
    · exact (view_set_outside iv 0 bs i v (Or.inr hle)).symm
    · simp only [List.length_set]
      by_cases h2bs : i < 2 * bs
      · rw [view_set_outside iv (2 * bs) iv.length i v (Or.inl h2bs)]
        intro heq
        have := xorBlock_right_inj _ _ _ (by rw [l1, l2])
          (by rw [view_length, List.length_set, l2]; omega) heq
        exact view_set_inside iv bs (2 * bs) i v hle h2bs hi hv this.symm
      · rw [view_set_outside iv bs (2 * bs) i v (Or.inr (by omega))]
        intro heq
        have := xorBlock_left_inj _ _ _ (by rw [l1, l2])
          (by rw [view_length, List.length_set, l1]; omega) heq
        exact view_set_inside iv (2 * bs) iv.length i v (by omega) hi hi hv this.symm
  refine ⟨s, s', ?_, later⟩
  intro hn
  by_cases hle : bs ≤ i
  · exact later hle 0 hn
  · obtain ⟨k, rfl⟩ : ∃ k, n = k + 1 := ⟨n - 1, by omega⟩
    obtain ⟨ht, -⟩ := length_take_block (src.bytes m) k bs hP
    have hd := encryptBlock_differs _ _ hw hw' rfl rfl rfl rfl i1 i2 i3 (List.take bs (src.bytes m))
      ht (Or.inl ⟨(view_set_inside iv 0 bs i v (by omega) (by omega) hi hv).symm, by
        simp only [List.length_set]
        rw [view_set_outside iv bs (2 * bs) i v (Or.inl (by omega)),
          view_set_outside iv (2 * bs) iv.length i v (Or.inl (by omega))]⟩)
    simp only [encryptBlocks]
    rw [blockAt_zero_append _ _ _ (encryptBlock_length _ hw _ ht).1,
      blockAt_zero_append _ _ _ (encryptBlock_length _ hw' _ ht).1]
    exact hd

/-- C15, amended, on the sample ciphers: byte 3 of the vector changed from 4 to 9. -/
theorem iv_sensitivity_witness :
    ∃ x x', NewEncrypter Sample.b1 Sample.b2 Sample.b3 Sample.iv = .ok x ∧
      NewEncrypter Sample.b1 Sample.b2 Sample.b3 (Sample.iv.set 3 9) = .ok x' ∧
      (cbc3Encrypter.CryptBlocks x Sample.mem ⟨100, 4⟩ ⟨10, 4⟩).status = .returned ∧
      (cbc3Encrypter.CryptBlocks x' Sample.mem ⟨100, 4⟩ ⟨10, 4⟩).status = .returned ∧
      (0 < 2 →
        blockAt 2 0 (Slice.bytes ⟨100, 4⟩
            (cbc3Encrypter.CryptBlocks x Sample.mem ⟨100, 4⟩ ⟨10, 4⟩).mem) ≠
          blockAt 2 0 (Slice.bytes ⟨100, 4⟩
            (cbc3Encrypter.CryptBlocks x' Sample.mem ⟨100, 4⟩ ⟨10, 4⟩).mem)) ∧
      (2 ≤ 3 → ∀ k, k < 2 →
        blockAt 2 k (Slice.bytes ⟨100, 4⟩
            (cbc3Encrypter.CryptBlocks x Sample.mem ⟨100, 4⟩ ⟨10, 4⟩).mem) ≠
          blockAt 2 k (Slice.bytes ⟨100, 4⟩
            (cbc3Encrypter.CryptBlocks x' Sample.mem ⟨100, 4⟩ ⟨10, 4⟩).mem)) :=
  iv_sensitivity Sample.b1 Sample.b2 Sample.b3 2 (by decide) rfl rfl rfl
    (Sample.addKey_inverse 3 2) (Sample.rev_inverse 2) (Sample.addKey_inverse 7 2)
    Sample.iv (by decide) (by decide) 3 (by decide) 9 (by decide)
    Sample.mem ⟨100, 4⟩ ⟨10, 4⟩ 2 (by decide) (by decide) (by decide)

/-! ## C21: encrypting what was decrypted -/

/-- Encrypting one decrypted block, from the registers the decrypter started with,
gives the ciphertext block back and the registers the decrypter ended with. -/
theorem encryptBlock_decryptBlock (xd xe : cbc) (hx : xd.WF) (e1 : xe.b1 = xd.b1)
    (e2 : xe.b2 = xd.b2) (e3 : xe.b3 = xd.b3) (ebs : xe.blockSize = xd.blockSize)
    (eiv : xe.iv = xd.iv) (i1 : xd.b1.Inverse) (i2 : xd.b2.Inverse) (i3 : xd.b3.Inverse)
    (c : List Byte) (hc : c.length = xd.blockSize) :
    encryptBlock xe (decryptBlock xd c).1 = (c, (decryptBlock xd c).2) := by
  obtain ⟨l0, l1, l2⟩ := view_length3 xd.iv xd.blockSize hx.iv_length
  unfold encryptBlock decryptBlock
  simp only [e1, e2, e3, ebs, eiv]
  have hd3 := Block.Decrypt_len xd.b3 _ _ hc hx.size3
  have hx2 := xorBlock_len _ _ _ hd3 l2
  have hx1 := xorBlock_len _ _ _ hx2 l1
  have hc1 := Block.Encrypt_len xd.b2 _ _ hx1 hx.size2
  have hd1 := Block.Decrypt_len xd.b1 _ _ hc1 hx.size1
  rw [xorBlock_cancel _ _ (by omega), i1.enc_dec _ hx.size1 _ hc1, i2.dec_enc _ hx.size2 _ hx1,
    xorBlock_cancel _ _ (by omega), xorBlock_cancel _ _ (by omega), i3.enc_dec _ hx.size3 _ hc]

/-- Encrypting what was decrypted, from the same registers, gives the data back and
leaves the same registers. -/
theorem encryptBlocks_decryptBlocks (n : Nat) : ∀ (xd xe : cbc) (data : List Byte), xd.WF →
    xe.b1 = xd.b1 → xe.b2 = xd.b2 → xe.b3 = xd.b3 → xe.blockSize = xd.blockSize →
    xe.iv = xd.iv → xd.b1.Inverse → xd.b2.Inverse → xd.b3.Inverse →
    data.length = n * xd.blockSize →
    (encryptBlocks n xe (decryptBlocks n xd data).1).1 = data ∧
      (encryptBlocks n xe (decryptBlocks n xd data).1).2.iv = (decryptBlocks n xd data).2.iv := by
  induction n with
  | zero =>
    intro xd xe data _ _ _ _ _ eiv _ _ _ hlen
    have : data = [] := List.length_eq_zero.1 (by simpa using hlen)
    simp [encryptBlocks, decryptBlocks, this, eiv]
  | succ n ih =>
    intro xd xe data hx e1 e2 e3 ebs eiv i1 i2 i3 hlen
    obtain ⟨ht, hd⟩ := length_take_block data n xd.blockSize hlen
    have hr := (decryptBlock_length xd hx _ ht).1
    have hstep := encryptBlock_decryptBlock xd xe hx e1 e2 e3 ebs eiv i1 i2 i3 _ ht
    simp only [encryptBlocks, decryptBlocks, ebs]
    rw [List.take_left' hr, List.drop_left' hr, hstep]
    simp only
    have h := ih { xd with iv := (decryptBlock xd (List.take xd.blockSize data)).2,
                           tmp := List.take xd.blockSize data }
      { xe with iv := (decryptBlock xd (List.take xd.blockSize data)).2 }
      (data.drop xd.blockSize) (decryptBlock_WF xd hx _ ht) e1 e2 e3 ebs rfl i1 i2 i3 hd
    simp only [ebs] at h
    rw [h.1, h.2, List.take_append_drop]
    exact ⟨rfl, rfl⟩

/-- C21 (reverse round trip).  For ciphers of block size `bs > 0` whose `Encrypt`
and `Decrypt` are mutually inverse on blocks, an initialization vector of `3 * bs`
bytes and a buffer `C` of `n` whole blocks, `NewDecrypter` and `NewEncrypter`
succeed on the same ciphers and vector, both calls of `CryptBlocks` return,
encrypting the bytes the decrypter wrote gives back exactly the bytes of `C`, and
the two instances end with the same registers.  The buffers may be separate or
identical (in place). -/
theorem reverse_round_trip (b1 b2 b3 : Block) (bs : Nat) (hbs : 0 < bs)
    (h1 : b1.BlockSize = bs) (h2 : b2.BlockSize = bs) (h3 : b3.BlockSize = bs)
    (i1 : b1.Inverse) (i2 : b2.Inverse) (i3 : b3.Inverse)
    (iv : List Byte) (hiv : iv.length = 3 * bs) (halloc : iv.length ≤ maxAlloc)
    (m : Mem) (src pt ct : Slice) (n : Nat) (hsrc : src.len = n * bs)
    (hpt : src.len ≤ pt.len) (hov1 : inexactOverlap (pt.take src.len) src = false)
    (hct : src.len ≤ ct.len)
    (hov2 : inexactOverlap (ct.take src.len) (pt.take src.len) = false) :
    ∃ xd xe, NewDecrypter b1 b2 b3 iv = .ok xd ∧ NewEncrypter b1 b2 b3 iv = .ok xe ∧
      (cbc3Decrypter.CryptBlocks xd m pt src).status = .returned ∧
      (cbc3Encrypter.CryptBlocks xe (cbc3Decrypter.CryptBlocks xd m pt src).mem ct
        (pt.take src.len)).status = .returned ∧
      (ct.take src.len).bytes
        (cbc3Encrypter.CryptBlocks xe (cbc3Decrypter.CryptBlocks xd m pt src).mem ct
          (pt.take src.len)).mem = src.bytes m ∧
      (cbc3Encrypter.CryptBlocks xe (cbc3Decrypter.CryptBlocks xd m pt src).mem ct
        (pt.take src.len)).x.iv = (cbc3Decrypter.CryptBlocks xd m pt src).x.iv := by
  have hwf := WF_new b1 b2 b3 iv bs h1 h2 h3 hiv
  refine ⟨_, _, NewDecrypter_ok b1 b2 b3 iv bs h1 h2 h3 hiv halloc,
    NewEncrypter_ok b1 b2 b3 iv bs h1 h2 h3 hiv halloc, ?_⟩
  rw [decrypter_CryptBlocks_eq _ hwf hbs m pt src n hsrc hpt hov1]
  simp only
  have hP : (src.bytes m).length = n * bs := by rw [Slice.bytes_length, hsrc]
  have hC := (decryptBlocks_length n _ (src.bytes m) hwf hP).1
  simp only at hC
  rw [← hsrc] at hC
  rw [encrypter_CryptBlocks_eq _ hwf hbs _ ct (pt.take src.len) n hsrc hct hov2]
  simp only
  rw [Slice.bytes_take_store _ pt _ _ hC]
  have hrt := encryptBlocks_decryptBlocks n _ _ (src.bytes m) hwf rfl rfl rfl rfl rfl i1 i2 i3 hP
  refine ⟨trivial, trivial, ?_, hrt.2⟩
  rw [hrt.1, Slice.bytes_take_store _ ct _ _ (Slice.bytes_length src m)]

/-- C21 on the sample ciphers, with the four bytes at address 10 decrypted and
encrypted again in place. -/
theorem reverse_round_trip_witness :
    ∃ xd xe, NewDecrypter Sample.b1 Sample.b2 Sample.b3 Sample.iv = .ok xd ∧
      NewEncrypter Sample.b1 Sample.b2 Sample.b3 Sample.iv = .ok xe ∧
      (cbc3Decrypter.CryptBlocks xd Sample.mem ⟨10, 4⟩ ⟨10, 4⟩).status = .returned ∧
      (cbc3Encrypter.CryptBlocks xe (cbc3Decrypter.CryptBlocks xd Sample.mem ⟨10, 4⟩ ⟨10, 4⟩).mem
        ⟨10, 4⟩ ⟨10, 4⟩).status = .returned ∧
      Slice.bytes ⟨10, 4⟩
        (cbc3Encrypter.CryptBlocks xe (cbc3Decrypter.CryptBlocks xd Sample.mem ⟨10, 4⟩ ⟨10, 4⟩).mem
          ⟨10, 4⟩ ⟨10, 4⟩).mem = Slice.bytes ⟨10, 4⟩ Sample.mem ∧
      (cbc3Encrypter.CryptBlocks xe (cbc3Decrypter.CryptBlocks xd Sample.mem ⟨10, 4⟩ ⟨10, 4⟩).mem
        ⟨10, 4⟩ ⟨10, 4⟩).x.iv = (cbc3Decrypter.CryptBlocks xd Sample.mem ⟨10, 4⟩ ⟨10, 4⟩).x.iv :=
  reverse_round_trip Sample.b1 Sample.b2 Sample.b3 2 (by decide) rfl rfl rfl
    (Sample.addKey_inverse 3 2) (Sample.rev_inverse 2) (Sample.addKey_inverse 7 2)
    Sample.iv (by decide) (by decide) Sample.mem ⟨10, 4⟩ ⟨10, 4⟩ ⟨10, 4⟩ 2 (by decide)
    (by decide) (by decide) (by decide) (by decide)

end cbc3
